import Mathlib

/-!
# Keyframe geometry of the affine transition

A shallow embedding of the geometry part of `src/modules/plus/transition_affine.c`:
`parse_value`, `geometry_parse`, `geometry_calculate` and `transition_parse_keys`.

Conventions of the embedding.

* A C `float` or `double` is an exact rational number (`ℚ`): rounding, infinities and NaN are
  not represented.  Where the C code divides by zero inside `geometry_calculate` the embedding
  returns `none` (the C result is not a number).
* A C `int` or `mlt_position` (a frame number) is an `Int`; the conversion of a float to `int`
  truncates toward zero (it is undefined in C outside the range of `int`).
* The C library functions `strtod` and `atoi` are written out after the C standard.
* A C string is a `List Char` (without the terminating zero), a possibly null string an
  `Option (List Char)`.
* The chain of `next` pointers starting at a keyframe is a `List geometry_s`: the track.
-/

namespace TransitionAffine

/-! ## Data model -/

/-- Geometry struct (`struct geometry_s`, lines 33-47).  The `next` pointer is the order of the
list that holds the keyframes. -/
structure geometry_s where
  frame : Int
  position : ℚ
  mix : ℚ
  nw : Int
  nh : Int
  sw : Int
  sh : Int
  x : ℚ
  y : ℚ
  w : ℚ
  h : ℚ
deriving DecidableEq

/-- A keyframe as `calloc( 1, sizeof( struct geometry_s ) )` returns it: every field zero. -/
def calloc_geometry : geometry_s :=
  { frame := 0, position := 0, mix := 0, nw := 0, nh := 0, sw := 0, sh := 0,
    x := 0, y := 0, w := 0, h := 0 }

/-! ## geometry_calculate -/

/-- Lines 119-125 of `geometry_calculate`: a position of 1 or more is folded back into the
range `[0, 1]`, mirrored when its integer part (`section` in the source) is odd. -/
def wrap_position (position : ℚ) : ℚ :=
  if position ≥ 1 then
    let sect : Int := ⌊position⌋
    let position := position - sect
    if sect.tmod 2 = 1 then 1 - position else position
  else position

/-- Lines 127-134 of `geometry_calculate`: the search loop.  The arguments are `in`, `out` and
the keyframes after `out`; the loop runs while `out->next != NULL` and stops at the first pair
with `in->position <= position < out->position`. -/
def geometry_search (position : ℚ) :
    geometry_s → geometry_s → List geometry_s → geometry_s × geometry_s
  | i, o, [] => (i, o)
  | i, o, n :: rest =>
    if position ≥ i.position ∧ position < o.position then (i, o)
    else geometry_search position o n rest

/-- Calculate real geometry (`geometry_calculate`, lines 114-159).  The track is the list that
starts at `in`; it needs two keyframes (`in` and `in->next` are dereferenced).  The result is
`output` with `nw`, `nh`, `x`, `y`, `w`, `h` and `mix` assigned; `none` when the track is shorter
than two keyframes or when the interpolating branch divides by zero. -/
def geometry_calculate (output : geometry_s) (track : List geometry_s) (position : ℚ) :
    Option geometry_s :=
  match track with
  | i0 :: o0 :: rest =>
    let position := wrap_position position
    let io := geometry_search position i0 o0 rest
    let i := io.1
    let o := io.2
    if i.frame ≠ o.frame - 1 then
      if o.position - i.position = 0 then none
      else
        let position := (position - i.position) / (o.position - i.position)
        some { output with
          nw := i.nw
          nh := i.nh
          x := i.x + (o.x - i.x) * position
          y := i.y + (o.y - i.y) * position
          w := i.w + (o.w - i.w) * position
          h := i.h + (o.h - i.h) * position
          mix := i.mix + (o.mix - i.mix) * position }
    else
      some { output with
        nw := o.nw, nh := o.nh, x := o.x, y := o.y, w := o.w, h := o.h, mix := o.mix }
  | _ => none

/-! ## C library functions used by the parser -/

/-- The C library predicate `isspace` in the "C" locale: space, tab, line feed, vertical tab,
form feed, carriage return. -/
def isspace (c : Char) : Bool :=
  c = ' ' || (9 ≤ c.toNat && c.toNat ≤ 13)

/-- The value of a string of digits in base `base` (a digit above 9 is a letter). -/
def digits_value (base : Nat) (ds : List Char) : Nat :=
  ds.foldl (fun acc c =>
    base * acc + (if c.isDigit then c.toNat - 48 else if c.isLower then c.toNat - 87
                  else c.toNat - 55)) 0

/-- Hexadecimal digit (`isxdigit`). -/
def isxdigit (c : Char) : Bool :=
  c.isDigit || (97 ≤ c.toNat && c.toNat ≤ 102) || (65 ≤ c.toNat && c.toNat ≤ 70)

/-- An optional sign in front of a number: whether it is a minus, and the rest. -/
def scan_sign : List Char → Bool × List Char
  | '-' :: r => (true, r)
  | '+' :: r => (false, r)
  | s => (false, s)

/-- The C library function `atoi`: white space, an optional sign, decimal digits; whatever
follows the digits is ignored and a string without digits gives 0.  (The result is undefined in
C when it does not fit an `int`; here it is the exact integer.) -/
def atoi (s : List Char) : Int :=
  let sr := scan_sign (s.dropWhile isspace)
  let v : Int := digits_value 10 (sr.2.takeWhile Char.isDigit)
  if sr.1 then -v else v

/-- The optional exponent part of a floating constant: a marker character (`e`/`E` for a
decimal constant, `p`/`P` for a hexadecimal one), an optional sign and at least one decimal
digit.  Returns the exponent and the rest; an incomplete exponent is not consumed. -/
def scan_exponent (m1 m2 : Char) (s : List Char) : Int × List Char :=
  match s with
  | m :: r =>
    if m = m1 ∨ m = m2 then
      let sr := scan_sign r
      let ds := sr.2.takeWhile Char.isDigit
      if ds = [] then (0, s)
      else ((if sr.1 then -(digits_value 10 ds : Int) else digits_value 10 ds),
            sr.2.dropWhile Char.isDigit)
    else (0, s)
  | [] => (0, s)

/-- A decimal floating constant without its sign: digits with an optional `.` among them (at
least one digit), then an optional exponent.  `none` when the text does not start with one. -/
def strtod_decimal (s : List Char) : Option (ℚ × List Char) :=
  let ip := s.takeWhile Char.isDigit
  let s1 := s.dropWhile Char.isDigit
  let fs : List Char × List Char :=
    match s1 with
    | '.' :: r => (r.takeWhile Char.isDigit, r.dropWhile Char.isDigit)
    | _ => ([], s1)
  if ip = [] ∧ fs.1 = [] then none
  else
    let es := scan_exponent 'e' 'E' fs.2
    some ((digits_value 10 (ip ++ fs.1) : ℚ) * (10 : ℚ) ^ (es.1 - (fs.1.length : Int)), es.2)

/-- A hexadecimal floating constant without its sign: `0x` or `0X`, hexadecimal digits with an
optional `.` among them (at least one digit), then an optional binary exponent.  `none` when the
text does not start with one. -/
def strtod_hex (s : List Char) : Option (ℚ × List Char) :=
  match s with
  | z :: x :: r =>
    if z = '0' ∧ (x = 'x' ∨ x = 'X') then
      let ip := r.takeWhile isxdigit
      let s1 := r.dropWhile isxdigit
      let fs : List Char × List Char :=
        match s1 with
        | '.' :: t => (t.takeWhile isxdigit, t.dropWhile isxdigit)
        | _ => ([], s1)
      if ip = [] ∧ fs.1 = [] then none
      else
        let es := scan_exponent 'p' 'P' fs.2
        some ((digits_value 16 (ip ++ fs.1) : ℚ) * (2 : ℚ) ^ (es.1 - 4 * (fs.1.length : Int)),
              es.2)
    else none
  | _ => none

/-- The C library function `strtod` (ISO C99 7.20.1.3, "C" locale) on finite values: white
space is skipped, then an optional sign and a hexadecimal or a decimal floating constant are
converted.  Returns the value and the rest of the text (`end`); when no conversion can be made
the value is 0 and `end` is the text itself.  The forms `INF`, `INFINITY` and `NAN`, whose
values are not rational numbers, are not represented (no conversion). -/
def strtod (nptr : List Char) : ℚ × List Char :=
  let sr := scan_sign (nptr.dropWhile isspace)
  match (strtod_hex sr.2).orElse (fun _ => strtod_decimal sr.2) with
  | some ve => ((if sr.1 then -ve.1 else ve.1), ve.2)
  | none => (0, nptr)

/-- Conversion of a float to `int`: truncation toward zero. -/
def to_int (q : ℚ) : Int :=
  if 0 ≤ q then ⌊q⌋ else ⌈q⌉

/-! ## parse_value and geometry_parse -/

/-- Parse a value from a geometry string (`parse_value`, lines 52-71).  `ptr` is the cursor
`*ptr` (possibly null); the result is the value and the cursor after the call. -/
def parse_value (ptr : Option (List Char)) (normalisation : Int) (delim : Char) (defaults : ℚ) :
    ℚ × Option (List Char) :=
  match ptr with
  | some (c :: cs) =>
    let ve := strtod (c :: cs)
    let value : ℚ := if ve.2.head? = some '%' then (ve.1 / 100) * normalisation else ve.1
    (value, some (ve.2.dropWhile (fun e => e = delim || e = '%')))
  | _ => (defaults, ptr)

/-- Parse a geometry property string with the syntax `X,Y:WxH:MIX` (`geometry_parse`,
lines 78-109).  `geometry` is the keyframe that is filled in, `defaults` the keyframe before
it (or null).  The assignments `geometry->w = geometry->sw = v` store `v` converted to `int`
in `sw` and that integer in `w` (likewise `h` and `sh`).  Linking `defaults->next` is the
order of the track list. -/
def geometry_parse (geometry : geometry_s) (defaults : Option geometry_s)
    (property : Option (List Char)) (nw nh : Int) : geometry_s :=
  let g0 : geometry_s := { geometry with nw := nw, nh := nh }
  let g1 : geometry_s :=
    match defaults with
    | some d =>
      { g0 with
        x := d.x, y := d.y, sw := to_int d.w, w := (to_int d.w : ℚ),
        sh := to_int d.h, h := (to_int d.h : ℚ), mix := d.mix }
    | none => { g0 with mix := 100 }
  match property with
  | some (c :: cs) =>
    let px := parse_value (some (c :: cs)) nw ',' g1.x
    let py := parse_value px.2 nh ':' g1.y
    let pw := parse_value py.2 nw 'x' g1.w
    let ph := parse_value pw.2 nh ':' g1.h
    let pm := parse_value ph.2 100 ' ' g1.mix
    { g1 with
      x := px.1, y := py.1, sw := to_int pw.1, w := (to_int pw.1 : ℚ),
      sh := to_int ph.1, h := (to_int ph.1 : ℚ), mix := pm.1 }
  | _ => g1

/-! ## transition_parse_keys -/

/-- Modelled from the spec: the key-value configuration source (`mlt_properties`, whose
implementation is not under src/): the properties in declaration order, each a name and a
possibly null string value. -/
abbrev mlt_properties := List (List Char × Option (List Char))

/-- Modelled from the spec: `mlt_properties_get`, the value of the property with the given
name, null when there is none. -/
def mlt_properties_get (properties : mlt_properties) (name : List Char) : Option (List Char) :=
  match properties.find? (fun nv => nv.1 = name) with
  | some nv => nv.2
  | none => none

/-- The position of `key[frame]` (lines 213-219 of `transition_parse_keys`). -/
def key_position (t_in t_out frame : Int) : ℚ :=
  if frame ≥ 0 ∧ frame < t_out - t_in then
    (frame : ℚ) / ((t_out - t_in + 1 : Int) : ℚ)
  else if frame < 0 ∧ -frame < t_out - t_in then
    ((t_out - t_in + frame : Int) : ℚ) / ((t_out - t_in + 1 : Int) : ℚ)
  else 0

/-- The loop over the properties (lines 199-242 of `transition_parse_keys`).  `ptr` is the
most recently accepted keyframe; the result is the list of the keyframes accepted by the loop,
in order, and the final `ptr`. -/
def parse_keys_loop (t_in t_out nw nh : Int) :
    mlt_properties → geometry_s → List geometry_s × geometry_s
  | [], ptr => ([], ptr)
  | (name, value) :: rest, ptr =>
    if name.take 4 = ['k', 'e', 'y', '['] then
      let frame := atoi (name.drop 4)
      let position := key_position t_in t_out frame
      if position > ptr.position then
        let temp : geometry_s :=
          { geometry_parse calloc_geometry (some ptr) value nw nh with
            frame := frame, position := position }
        let r := parse_keys_loop t_in t_out nw nh rest temp
        (temp :: r.1, r.2)
      else parse_keys_loop t_in t_out nw nh rest ptr
    else parse_keys_loop t_in t_out nw nh rest ptr

/-- Build the track (`transition_parse_keys`, lines 174-255): the start keyframe, the accepted
keys, the end keyframe.  `t_in` and `t_out` are the in and out points of the transition
(`mlt_transition_get_in`, `mlt_transition_get_out`).  The divisor `out - in + 1` is zero only
for `out = in - 1`, where the C quotient is not a number and the quotient here is 0. -/
def transition_parse_keys (properties : mlt_properties) (t_in t_out : Int)
    (normalised_width normalised_height : Int) : List geometry_s :=
  let start := geometry_parse calloc_geometry none
    (mlt_properties_get properties ['s', 't', 'a', 'r', 't']) normalised_width normalised_height
  let r := parse_keys_loop t_in t_out normalised_width normalised_height properties start
  let e := geometry_parse calloc_geometry (some r.2)
    (mlt_properties_get properties ['e', 'n', 'd']) normalised_width normalised_height
  let e : geometry_s :=
    { e with
      position :=
        if t_out > 0 then ((t_out - t_in : Int) : ℚ) / ((t_out - t_in + 1 : Int) : ℚ) else 1 }
  start :: (r.1 ++ [e])

/-! ## The geometry grammar -/

/-- The character of a decimal digit. -/
def digit_char (d : Fin 10) : Char :=
  Char.ofNat (48 + d.val)

/-- The number written by a sequence of decimal digits. -/
def decimal_value (ds : List (Fin 10)) : Nat :=
  ds.foldl (fun acc d => 10 * acc + d.val) 0

/-- A field `number ["%"]` of a geometry string: whether the number has a minus sign, the
digits before the point, the digits after the point when there is one, and whether a percent
sign follows. -/
structure geometry_field where
  neg : Bool
  ip : List (Fin 10)
  fp : Option (List (Fin 10))
  percent : Bool
deriving DecidableEq

/-- The text of the fraction of a number: the point and the digits after it, if any. -/
def fraction_text : Option (List (Fin 10)) → List Char
  | some f => '.' :: f.map digit_char
  | none => []

/-- The digits of the number of a field, with the point. -/
def geometry_field.digits_text (t : geometry_field) : List Char :=
  t.ip.map digit_char ++ fraction_text t.fp

/-- The text of the number of a field: the sign, then the digits. -/
def geometry_field.number_text (t : geometry_field) : List Char :=
  (if t.neg then ['-'] else []) ++ t.digits_text

/-- The text of a field: the number, then `%` for a percentage. -/
def geometry_field.text (t : geometry_field) : List Char :=
  t.number_text ++ (if t.percent then ['%'] else [])

/-- The number the digits of a field write. -/
def geometry_field.magnitude (t : geometry_field) : ℚ :=
  (decimal_value (t.ip ++ t.fp.getD []) : ℚ) / (10 : ℚ) ^ (t.fp.getD []).length

/-- The number a field writes. -/
def geometry_field.value (t : geometry_field) : ℚ :=
  if t.neg then -t.magnitude else t.magnitude

/-- The value a field stands for: a percentage is taken of the normalisation dimension. -/
def geometry_field.resolve (t : geometry_field) (normalisation : Int) : ℚ :=
  if t.percent then t.value / 100 * normalisation else t.value

/-- The characters that end a number in a geometry string: `%` and the delimiters. -/
def stop_char (c : Char) : Prop :=
  c = '%' ∨ c = ',' ∨ c = ':' ∨ c = 'x'

/-- A character with which no number starts: not white space, a digit, a sign or a point (and
not the first letter of `INF` or `NAN`, forms that are outside the embedding). -/
def no_conversion_char (c : Char) : Prop :=
  isspace c = false ∧ c.isDigit = false ∧ c ≠ '+' ∧ c ≠ '-' ∧ c ≠ '.' ∧
    c ≠ 'i' ∧ c ≠ 'I' ∧ c ≠ 'n' ∧ c ≠ 'N'

/-- The delimiter `geometry_parse` passes to `parse_value` for field number `k` (0 to 4). -/
def field_delim : Nat → Char
  | 0 => ','
  | 1 => ':'
  | 2 => 'x'
  | 3 => ':'
  | _ => ' '

/-- The normalisation `geometry_parse` passes to `parse_value` for field number `k`. -/
def field_norm (nw nh : Int) : Nat → Int
  | 0 => nw
  | 1 => nh
  | 2 => nw
  | 3 => nh
  | _ => 100

/-- The cursor `ptr` of `geometry_parse` after the first `k` fields of a property have been
parsed; `some []` is the end of the string. -/
def geometry_cursor (property : List Char) (nw nh : Int) : Nat → Option (List Char)
  | 0 => some property
  | k + 1 =>
    (parse_value (geometry_cursor property nw nh k) (field_norm nw nh k) (field_delim k) 0).2

/-- The geometry string `transition_affine_init` installs as the `start` property
(line 702). -/
def default_start : List Char :=
  ['0', ',', '0', ':', '1', '0', '0', '%', 'x', '1', '0', '0', '%']

/-- The pair of keyframes the search of `geometry_calculate` selects in a track. -/
def search_track (position : ℚ) : List geometry_s → Option (geometry_s × geometry_s)
  | i0 :: o0 :: rest => some (geometry_search position i0 o0 rest)
  | _ => none

/-! ## Rounding to `float` and `double` -/

/-- The number of binary digits of `n` less one, `⌊log₂ n⌋` (0 for `n < 2`); `fuel` bounds the
number of halvings and `n` itself is always enough. -/
def floor_log2 : Nat → Nat → Nat
  | 0, _ => 0
  | fuel + 1, n => if n < 2 then 0 else floor_log2 fuel (n / 2) + 1

/-- Rounding to the nearest integer, a tie to the even one. -/
def round_even (q : ℚ) : Int :=
  if q - (⌊q⌋ : Int) < 1 / 2 then ⌊q⌋
  else if 1 / 2 < q - (⌊q⌋ : Int) then ⌊q⌋ + 1
  else if ⌊q⌋ % 2 = 0 then ⌊q⌋ else ⌊q⌋ + 1

/-- The binary exponent `e` of a number other than zero: `2 ^ e ≤ |q| < 2 ^ (e + 1)`. -/
def binary_exponent (q : ℚ) : Int :=
  if |q| < (2 : ℚ) ^
      ((floor_log2 q.num.natAbs q.num.natAbs : Int) - (floor_log2 q.den q.den : Int)) then
    (floor_log2 q.num.natAbs q.num.natAbs : Int) - (floor_log2 q.den q.den : Int) - 1
  else (floor_log2 q.num.natAbs q.num.natAbs : Int) - (floor_log2 q.den q.den : Int)

/-- Rounding to the nearest binary floating-point number with `p` significant bits, a tie to
the even one (the rounding of IEEE 754 arithmetic).  The range of the exponent is not
bounded: overflow and subnormal numbers are not represented. -/
def round_binary (p : Nat) (q : ℚ) : ℚ :=
  if q = 0 then 0
  else
    (round_even (q / (2 : ℚ) ^ (binary_exponent q - ((p : Int) - 1))) : ℚ) *
      (2 : ℚ) ^ (binary_exponent q - ((p : Int) - 1))

/-- The value a `float` holds after a number is stored in it or after an arithmetic operation
on `float` operands: 24 significant bits.  Every operation is rounded on its own
(`FLT_EVAL_METHOD` 0, no contraction to a fused multiply-add). -/
def to_float (q : ℚ) : ℚ :=
  round_binary 24 q

/-- The value of an arithmetic operation on `double` operands: 53 significant bits. -/
def to_double (q : ℚ) : ℚ :=
  round_binary 53 q

/-- The fields of a keyframe are small enough for the difference of two such fields not to
overflow in `float` arithmetic. -/
def float_range (g : geometry_s) : Prop :=
  |g.x| ≤ 2 ^ 126 ∧ |g.y| ≤ 2 ^ 126 ∧ |g.w| ≤ 2 ^ 126 ∧ |g.h| ≤ 2 ^ 126 ∧
    |g.mix| ≤ 2 ^ 126

instance (g : geometry_s) : Decidable (float_range g) := by
  unfold float_range; infer_instance

/-- The position of `key[frame]` with the rounding of the code (lines 213-219): the frame
number and the divisor are converted to `float` and the division is rounded to `float`. -/
def key_position_float (t_in t_out frame : Int) : ℚ :=
  if frame ≥ 0 ∧ frame < t_out - t_in then
    to_float (to_float (frame : ℚ) / to_float ((t_out - t_in + 1 : Int) : ℚ))
  else if frame < 0 ∧ -frame < t_out - t_in then
    to_float (to_float ((t_out - t_in + frame : Int) : ℚ) /
      to_float ((t_out - t_in + 1 : Int) : ℚ))
  else 0

/-- The interpolation parameter with the rounding of the code (line 136): `position`,
`in->position` and `out->position` are `float`s, and both differences and the quotient
`( position - in->position ) / ( out->position - in->position )` are rounded to `float`. -/
def float_parameter (position in_position out_position : ℚ) : ℚ :=
  to_float (to_float (position - in_position) / to_float (out_position - in_position))

/-- The interpolation of a field with the rounding of the code (lines 143-147):
`in->x + ( out->x - in->x ) * position` on `float` operands, the difference, the product and
the sum each rounded to `float`. -/
def float_interpolate (in_value out_value position : ℚ) : ℚ :=
  to_float (in_value + to_float (to_float (out_value - in_value) * position))

/-! ## The affine matrix -/

/-- The matrix `float this[3][3]` of `affine_t` (lines 285-289): row, then column. -/
abbrev affine_matrix := Fin 3 → Fin 3 → ℚ

/-- The C library functions `cos`, `sin` and `tan` as the code uses them: the value, stored in
a `float`, of `cos( angle * M_PI / 180 )` (and `sin`, `tan`) for an angle in degrees.  They are
a parameter of the embedding. -/
structure math_lib where
  cos_deg : ℚ → ℚ
  sin_deg : ℚ → ℚ
  tan_deg : ℚ → ℚ

/-- A table of the exact values of cosine, sine and tangent at the multiples of 90 degrees
(the tangent at the multiples of 180 degrees); elsewhere the table holds 0 and is not meant to
be used. -/
def quarter_turn_trig : math_lib :=
  { cos_deg := fun a => if a = 0 then 1 else if a = 180 then -1 else 0
    sin_deg := fun a => if a = 90 then 1 else if a = 270 then -1 else 0
    tan_deg := fun _ => 0 }

/-- The matrix with the given entries, row by row. -/
def mat3 (a00 a01 a02 a10 a11 a12 a20 a21 a22 : ℚ) : affine_matrix :=
  fun i j =>
    if i = 0 then (if j = 0 then a00 else if j = 1 then a01 else a02)
    else if i = 1 then (if j = 0 then a10 else if j = 1 then a11 else a12)
    else (if j = 0 then a20 else if j = 1 then a21 else a22)

/-- The identity (`affine_init`, lines 291-302). -/
def affine_init : affine_matrix :=
  mat3 1 0 0
       0 1 0
       0 0 1

/-- The new value of `this` after `affine_multiply( this, that )` (lines 305-324): the entry
at row `i` and column `j` is `this[i][0] * that[j][0] + this[i][1] * that[j][1] +
this[i][2] * that[j][2]`. -/
def affine_multiply (this that : affine_matrix) : affine_matrix :=
  fun i j => this i 0 * that j 0 + this i 1 * that j 1 + this i 2 * that j 2

/-- Rotate by a given angle (`affine_rotate`, lines 327-340). -/
def affine_rotate (m : math_lib) (this : affine_matrix) (angle : ℚ) : affine_matrix :=
  affine_multiply this
    (mat3 (m.cos_deg angle) (0 - m.sin_deg angle) 0
          (m.sin_deg angle) (m.cos_deg angle) 0
          0 0 1)

/-- The rotation `affine_rotate_y` (lines 342-355). -/
def affine_rotate_y (m : math_lib) (this : affine_matrix) (angle : ℚ) : affine_matrix :=
  affine_multiply this
    (mat3 (m.cos_deg angle) 0 (0 - m.sin_deg angle)
          0 1 0
          (m.sin_deg angle) 0 (m.cos_deg angle))

/-- The rotation `affine_rotate_z` (lines 357-370). -/
def affine_rotate_z (m : math_lib) (this : affine_matrix) (angle : ℚ) : affine_matrix :=
  affine_multiply this
    (mat3 1 0 0
          0 (m.cos_deg angle) (m.sin_deg angle)
          0 (-m.sin_deg angle) (m.cos_deg angle))

/-- The scaling `affine_scale` (lines 372-385). -/
def affine_scale (this : affine_matrix) (sx sy : ℚ) : affine_matrix :=
  affine_multiply this
    (mat3 sx 0 0
          0 sy 0
          0 0 1)

/-- Shear by a given value (`affine_shear`, lines 388-401). -/
def affine_shear (m : math_lib) (this : affine_matrix) (shear_x shear_y shear_z : ℚ) :
    affine_matrix :=
  affine_multiply this
    (mat3 1 (m.tan_deg shear_x) 0
          (m.tan_deg shear_y) 1 (m.tan_deg shear_z)
          0 0 1)

/-- The offset `affine_offset` (lines 403-407): `this[0][2] += x; this[1][2] += y`. -/
def affine_offset (this : affine_matrix) (x y : Int) : affine_matrix :=
  mat3 (this 0 0) (this 0 1) (this 0 2 + x)
       (this 1 0) (this 1 1) (this 1 2 + y)
       (this 2 0) (this 2 1) (this 2 2)

/-- Obtain the mapped x coordinate of the input (`MapX`, lines 410-413). -/
def MapX (this : affine_matrix) (x y : Int) : ℚ :=
  this 0 0 * x + this 0 1 * y + this 0 2

/-- Obtain the mapped y coordinate of the input (`MapY`, lines 416-419). -/
def MapY (this : affine_matrix) (x y : Int) : ℚ :=
  this 1 0 * x + this 1 1 * y + this 1 2

/-- The third homogeneous coordinate (`MapZ`, lines 421-424). -/
def MapZ (this : affine_matrix) (x y : Int) : ℚ :=
  this 2 0 * x + this 2 1 * y + this 2 2

/-- The macro `MAX( x, y )` (line 426), `x > y ? x : y`. -/
def MAX (x y : Int) : Int :=
  if x > y then x else y

/-- The macro `MIN( x, y )` (line 427), `x < y ? x : y`. -/
def MIN (x y : Int) : Int :=
  if x < y then x else y

/-- The scale factors `*w` and `*h` of `affine_max_output` (lines 429-463): the four corners
(-720, 576), (720, 576), (-720, -576), (720, -576) are mapped and converted to `int`, and the
extent of their bounding box plus one is divided by 1440 and by 1152. -/
def affine_max_output (this : affine_matrix) : ℚ × ℚ :=
  let tlx := to_int (MapX this (-720) 576)
  let tly := to_int (MapY this (-720) 576)
  let trx := to_int (MapX this 720 576)
  let try_ := to_int (MapY this 720 576)
  let blx := to_int (MapX this (-720) (-576))
  let bly := to_int (MapY this (-720) (-576))
  let brx := to_int (MapX this 720 (-576))
  let bry := to_int (MapY this 720 (-576))
  let max_x := MAX (MAX (MAX tlx trx) blx) brx
  let min_x := MIN (MIN (MIN tlx trx) blx) brx
  let max_y := MAX (MAX (MAX tly try_) bly) bry
  let min_y := MIN (MIN (MIN tly try_) bly) bry
  (((max_x - min_x + 1 : Int) : ℚ) / 1440, ((max_y - min_y + 1 : Int) : ℚ) / 1152)

/-- The values `transition_get_image` reads from the properties of the transition
(lines 557-571). -/
structure affine_params where
  fix_rotate_x : ℚ
  fix_rotate_y : ℚ
  fix_rotate_z : ℚ
  rotate_x : ℚ
  rotate_y : ℚ
  rotate_z : ℚ
  fix_shear_x : ℚ
  fix_shear_y : ℚ
  fix_shear_z : ℚ
  shear_x : ℚ
  shear_y : ℚ
  shear_z : ℚ
  ox : ℚ
  oy : ℚ
  scale : Int

/-- The matrix before the optional scaling (lines 594-603 of `transition_get_image`):
`affine_init`, the three rotations, the shear and the offset, whose `float` arguments `ox` and
`oy` are converted to `int`. -/
def transition_matrix_unscaled (m : math_lib) (a : affine_params) (position t_in : Int) :
    affine_matrix :=
  let d : ℚ := ((position - t_in : Int) : ℚ)
  let m0 := affine_init
  let m1 := affine_rotate m m0 (a.fix_rotate_x + a.rotate_x * d)
  let m2 := affine_rotate_y m m1 (a.fix_rotate_y + a.rotate_y * d)
  let m3 := affine_rotate_z m m2 (a.fix_rotate_z + a.rotate_z * d)
  let m4 := affine_shear m m3 (a.fix_shear_x + a.shear_x * d) (a.fix_shear_y + a.shear_y * d)
    (a.fix_shear_z + a.shear_z * d)
  affine_offset m4 (to_int a.ox) (to_int a.oy)

/-- The matrix of a frame (lines 594-609 of `transition_get_image`): with `scale` set, the
matrix is scaled by the factors of `affine_max_output`. -/
def transition_matrix (m : math_lib) (a : affine_params) (position t_in : Int) :
    affine_matrix :=
  let u := transition_matrix_unscaled m a position t_in
  if a.scale ≠ 0 then affine_scale u (affine_max_output u).1 (affine_max_output u).2 else u

/-! ## The pixel loop of transition_get_image -/

/-- A byte (`uint8_t`). -/
abbrev byte := Fin 256

/-- The lowest bit `v & 1` of an `int` in two's complement: `v mod 2`, 0 or 1, also for a
negative `v`. -/
def low_bit (v : Int) : Int :=
  v % 2

/-- Conversion of a float to `uint8_t`: truncation (the value is reduced modulo 256; inside
the pixel loop it lies in the range of a byte). -/
def to_uint8 (q : ℚ) : byte :=
  Fin.ofNat (to_int q).toNat

/-- What the pixel loop of `transition_get_image` reads without changing it (lines 573-591
and 611-616): the matrix and its divisor, the offsets, the size and stride of the secondary
image, its bytes and its alpha mask (null or not), the bounds of the loop and the stride of the
primary image.  Memory is a function from the offset to the byte; the secondary image and its
alpha mask are not the memory the loop writes. -/
structure pixel_env where
  matrix : affine_matrix
  dz : ℚ
  x_offset : Int
  y_offset : Int
  b_width : Int
  b_height : Int
  b_stride : Int
  b_image : Int → byte
  alpha : Option (Int → byte)
  lower_x : Int
  upper_x : Int
  lower_y : Int
  upper_y : Int
  a_stride : Int

/-- What the pixel loop changes: the bytes of the primary image, the bytes of the mask, and
the write cursors `p` and `pmask` (as offsets from `*image` and from `mask`). -/
structure pixel_state where
  image : Int → byte
  mask : Int → byte
  p : Int
  pmask : Int

/-- The sample column `dx = MapX( affine.matrix, x, y ) / dz + x_offset` (line 627),
converted to `int`.  (For `dz = 0` the C quotient is not a number; the quotient here is 0.) -/
def sample_dx (e : pixel_env) (x y : Int) : Int :=
  to_int (MapX e.matrix x y / e.dz + e.x_offset)

/-- The sample row `dy = MapY( affine.matrix, x, y ) / dz + y_offset` (line 628). -/
def sample_dy (e : pixel_env) (x y : Int) : Int :=
  to_int (MapY e.matrix x y / e.dz + e.y_offset)

/-- The test of line 630: the sample is inside the secondary frame. -/
def in_bounds (e : pixel_env) (dx dy : Int) : Prop :=
  dx ≥ 0 ∧ dx < e.b_width ∧ dy ≥ 0 ∧ dy < e.b_height

instance (e : pixel_env) (dx dy : Int) : Decidable (in_bounds e dx dy) := by
  unfold in_bounds; infer_instance

/-- The offset of the luma byte read from the secondary image (lines 636 and 644):
`dy * b_stride + ( dx << 1 )` after `dx += dx & 1`. -/
def luma_index (e : pixel_env) (dx dy : Int) : Int :=
  dy * e.b_stride + (dx + low_bit dx) * 2

/-- The offset of the chroma byte read from the secondary image (lines 637 and 646):
`dy * b_stride + ( dx << 1 ) + ( ( x & 1 ) << 1 ) + 1` after `dx += dx & 1`. -/
def chroma_index (e : pixel_env) (x dx dy : Int) : Int :=
  dy * e.b_stride + (dx + low_bit dx) * 2 + low_bit x * 2 + 1

/-- The weight `mix = ( float )alpha / 255.0` (line 642): the quotient is computed in
`double` and stored in the `float` variable `mix`. -/
def alpha_mix (a : byte) : ℚ :=
  to_float (to_double ((a.val : ℚ) / 255))

/-- The blend `*p * ( 1 - mix ) + mix * src` stored in a byte (lines 644 and 646): the
operands are of type `float`, so the difference, the two products and the sum are each rounded
to `float`, and the conversion to `uint8_t` truncates. -/
def blend (dst src : byte) (mix : ℚ) : byte :=
  to_uint8 (to_float (to_float ((dst.val : ℚ) * to_float (1 - mix)) +
    to_float (mix * (src.val : ℚ))))

/-- The body of the inner loop for the destination pixel `(x, y)` (lines 627-654). -/
def pixel_step (e : pixel_env) (x y : Int) (s : pixel_state) : pixel_state :=
  let dx := sample_dx e x y
  let dy := sample_dy e x y
  if in_bounds e dx dy then
    match e.alpha with
    | none =>
      let mask := Function.update s.mask s.pmask 255
      let image1 := Function.update s.image s.p (e.b_image (luma_index e dx dy))
      let image2 := Function.update image1 (s.p + 1) (e.b_image (chroma_index e x dx dy))
      { image := image2, mask := mask, p := s.p + 2, pmask := s.pmask + 1 }
    | some alpha =>
      let mask := Function.update s.mask s.pmask (alpha (dy * e.b_width + dx))
      let mix : ℚ := alpha_mix (alpha (dy * e.b_width + dx))
      let image1 := Function.update s.image s.p
        (blend (s.image s.p) (e.b_image (luma_index e dx dy)) mix)
      let image2 := Function.update image1 (s.p + 1)
        (blend (image1 (s.p + 1)) (e.b_image (chroma_index e x dx dy)) mix)
      { image := image2, mask := mask, p := s.p + 2, pmask := s.pmask + 1 }
  else
    { s with p := s.p + 2, pmask := s.pmask + 1 }

/-- The inner loop `for ( x = lower_x; x < upper_x; x ++ )` (lines 625-655), as the number of
iterations that are left and the current `x`; it is started with `upper_x - lower_x`
iterations (none when that is negative). -/
def row_loop (e : pixel_env) (y : Int) : Nat → Int → pixel_state → pixel_state
  | 0, _, s => s
  | n + 1, x, s => row_loop e y n (x + 1) (pixel_step e x y s)

/-- The outer loop `for ( y = lower_y; y < upper_y; y ++ )` (lines 621-658), as the number of
rows that are left, the current `y` and the row pointer `q`: `p = q`, the inner loop, then
`q += a_stride`. -/
def image_loop (e : pixel_env) : Nat → Int → Int → pixel_state → pixel_state
  | 0, _, _, s => s
  | n + 1, y, q, s =>
    image_loop e n (y + 1) (q + e.a_stride)
      (row_loop e y (e.upper_x - e.lower_x).toNat e.lower_x { s with p := q })

/-- The two loops from their start (lines 614-658): `q = *image`, `pmask = mask`. -/
def pixel_loop (e : pixel_env) (image mask : Int → byte) : pixel_state :=
  image_loop e (e.upper_y - e.lower_y).toNat e.lower_y 0
    { image := image, mask := mask, p := 0, pmask := 0 }

/-- Modelled from the spec: the pixel format tag of a frame (`mlt_image_format`, declared in
the framework, not under src/). -/
inductive mlt_image_format where
  | mlt_image_none
  | mlt_image_rgb24
  | mlt_image_rgb24a
  | mlt_image_yuv422
  | mlt_image_yuv420p
deriving DecidableEq

/-- An image as `mlt_frame_get_image` delivers it: format, size, bytes, and for the secondary
frame the alpha mask of `mlt_frame_get_alpha_mask` (null or not). -/
structure frame_image where
  format : mlt_image_format
  width : Int
  height : Int
  image : Int → byte
  alpha : Option (Int → byte)

/-- What `transition_get_image` leaves behind: the bytes of the primary image, the mask
attached to the secondary frame as its `alpha` (if one was made) and the returned value. -/
structure get_image_result where
  image : Int → byte
  mask : Option (Int → byte)
  ret : Int

/-- The alignment `v -= ( v & 1 )` of lines 611-612. -/
def align_even (v : Int) : Int :=
  v - low_bit v

/-- The environment of the pixel loop (lines 573-616 of `transition_get_image`) for the
primary image of size `width` by `height`, the secondary image `b` and the geometry
`result` of lines 523-546. -/
def loop_env (matrix : affine_matrix) (result : geometry_s) (width height : Int)
    (b : frame_image) : pixel_env :=
  let cx := to_int (result.x + ((b.width / 2 : Int) : ℚ))
  let cy := to_int (result.y + ((b.height / 2 : Int) : ℚ))
  { matrix := matrix
    dz := MapZ matrix 0 0
    x_offset := to_int result.w / 2
    y_offset := to_int result.h / 2
    b_width := b.width
    b_height := b.height
    b_stride := b.width * 2
    b_image := b.image
    alpha := b.alpha
    lower_x := align_even (0 - cx)
    upper_x := align_even (width - cx)
    lower_y := 0 - cy
    upper_y := height - cy
    a_stride := width * 2 }

/-- The mask after `memset( mask, 0, b_width * b_height )` (line 619); `mask0` is the memory
`mlt_pool_alloc` returned. -/
def memset_mask (mask0 : Int → byte) (b_width b_height : Int) : Int → byte :=
  fun i => if 0 ≤ i ∧ i < b_width * b_height then 0 else mask0 i

/-- Get the image (`transition_get_image`, lines 519-664) from the geometry `result` that
`composite_calculate` computed.  `a` is the primary image, `fetch_b` stands for
`mlt_frame_get_image` on the secondary frame (from the requested width and height to the
image delivered), `mask0` is the memory of the newly allocated mask (taken to be non-null). -/
def get_image_of_geometry (m : math_lib) (params : affine_params) (position t_in : Int)
    (result : geometry_s) (a : frame_image) (fetch_b : Int → Int → frame_image)
    (mask0 : Int → byte) : get_image_result :=
  let w1 : ℚ := (to_int (result.w * a.width / result.nw) : ℚ)
  let h1 : ℚ := (to_int (result.h * a.height / result.nh) : ℚ)
  let x1 : ℚ := (to_int (result.x * a.width / result.nw) : ℚ)
  let y1 : ℚ := (to_int (result.y * a.height / result.nh) : ℚ)
  let w2 : ℚ := w1 - (((to_int w1).natAbs % 2 : Nat) : ℚ)
  let x2 : ℚ := x1 - (((to_int x1).natAbs % 2 : Nat) : ℚ)
  let b := fetch_b (to_int w2) (to_int h1)
  let result2 : geometry_s :=
    { result with x := x2, y := y1, w := (b.width : ℚ), h := (b.height : ℚ) }
  if a.format = mlt_image_format.mlt_image_yuv422 ∧
      b.format = mlt_image_format.mlt_image_yuv422 then
    let e := loop_env (transition_matrix m params position t_in) result2 a.width a.height b
    let s := pixel_loop e a.image (memset_mask mask0 b.width b.height)
    { image := s.image, mask := some s.mask, ret := 0 }
  else
    { image := a.image, mask := none, ret := 0 }

/-- Get the image (`transition_get_image`, lines 470-665): the geometry of the frame is
calculated from the track at `position / ( out - in + 1 )` into the uninitialised `result0`;
`none` when that geometry is not a number. -/
def transition_get_image (m : math_lib) (params : affine_params) (position t_in t_out : Int)
    (track : List geometry_s) (result0 : geometry_s) (a : frame_image)
    (fetch_b : Int → Int → frame_image) (mask0 : Int → byte) : Option get_image_result :=
  (geometry_calculate result0 track
      ((position : ℚ) / ((t_out - t_in + 1 : Int) : ℚ))).map
    (fun result => get_image_of_geometry m params position t_in result a fetch_b mask0)

/-- The mask entry of the destination pixel `(x, y)` after its iteration, from the entry
`old` before it: 255 or the alpha of the sample when the sample is inside the secondary
frame, unchanged otherwise. -/
def pixel_cover (e : pixel_env) (x y : Int) (old : byte) : byte :=
  if in_bounds e (sample_dx e x y) (sample_dy e x y) then
    match e.alpha with
    | none => 255
    | some alpha => alpha (sample_dy e x y * e.b_width + sample_dx e x y)
  else old

/-- The first byte of the destination pixel `(x, y)` after its iteration, from the byte `old`
before it. -/
def pixel_luma (e : pixel_env) (x y : Int) (old : byte) : byte :=
  if in_bounds e (sample_dx e x y) (sample_dy e x y) then
    match e.alpha with
    | none => e.b_image (luma_index e (sample_dx e x y) (sample_dy e x y))
    | some alpha =>
      blend old (e.b_image (luma_index e (sample_dx e x y) (sample_dy e x y)))
        (alpha_mix (alpha (sample_dy e x y * e.b_width + sample_dx e x y)))
  else old

/-- The second byte of the destination pixel `(x, y)` after its iteration, from the byte
`old` before it. -/
def pixel_chroma (e : pixel_env) (x y : Int) (old : byte) : byte :=
  if in_bounds e (sample_dx e x y) (sample_dy e x y) then
    match e.alpha with
    | none => e.b_image (chroma_index e x (sample_dx e x y) (sample_dy e x y))
    | some alpha =>
      blend old (e.b_image (chroma_index e x (sample_dx e x y) (sample_dy e x y)))
        (alpha_mix (alpha (sample_dy e x y * e.b_width + sample_dx e x y)))
  else old

/-- An image buffer of `size` bytes that all hold 1; the memory outside the buffer is marked
with the byte 99. -/
def marked_image (size : Int) : Int → byte :=
  fun i => if 0 ≤ i ∧ i < size then 1 else 99

/-- The transform parameters with every value zero but `fix_rotate_z` and `scale`. -/
def plain_params (fix_rotate_z : ℚ) (scale : Int) : affine_params :=
  { fix_rotate_x := 0, fix_rotate_y := 0, fix_rotate_z := fix_rotate_z,
    rotate_x := 0, rotate_y := 0, rotate_z := 0,
    fix_shear_x := 0, fix_shear_y := 0, fix_shear_z := 0,
    shear_x := 0, shear_y := 0, shear_z := 0, ox := 0, oy := 0, scale := scale }

/-! ## Lemmas on the rounding to `float` and `double` -/

/-- With enough fuel `floor_log2` is the position of the leading binary digit. -/
theorem floor_log2_spec : ∀ (fuel n : Nat), n ≤ fuel → n ≠ 0 →
    2 ^ floor_log2 fuel n ≤ n ∧ n < 2 ^ (floor_log2 fuel n + 1)
  | 0, n, h, h0 => by omega
  | fuel + 1, n, h, h0 => by
    rw [floor_log2]
    split_ifs with h2
    · constructor
      · simp; omega
      · simp; omega
    · have hn : n / 2 ≤ fuel := by omega
      have hn0 : n / 2 ≠ 0 := by omega
      obtain ⟨ih1, ih2⟩ := floor_log2_spec fuel (n / 2) hn hn0
      constructor
      · rw [pow_succ]; omega
      · rw [pow_succ]; omega

/-- Rounding to the nearest integer moves a number by at most one half. -/
theorem round_even_error (q : ℚ) : |(round_even q : ℚ) - q| ≤ 1 / 2 := by
  have h1 := Int.floor_le q
  have h2 := Int.lt_floor_add_one q
  unfold round_even
  split_ifs with ha hb hc
  · rw [abs_le]; constructor <;> linarith
  · rw [abs_le]; push_cast; constructor <;> linarith
  · rw [abs_le]; constructor <;> linarith
  · rw [abs_le]; push_cast; constructor <;> linarith

/-- The binary exponent brackets the magnitude of the number. -/
theorem binary_exponent_spec (q : ℚ) (hq : q ≠ 0) :
    (2 : ℚ) ^ binary_exponent q ≤ |q| ∧ |q| < (2 : ℚ) ^ (binary_exponent q + 1) := by
  have hnum : q.num.natAbs ≠ 0 := by
    simpa [Int.natAbs_eq_zero] using hq
  have hden : q.den ≠ 0 := q.den_nz
  obtain ⟨n1, n2⟩ := floor_log2_spec q.num.natAbs q.num.natAbs (le_refl _) hnum
  obtain ⟨d1, d2⟩ := floor_log2_spec q.den q.den (le_refl _) hden
  generalize ha : floor_log2 q.num.natAbs q.num.natAbs = a at n1 n2
  generalize hb : floor_log2 q.den q.den = b at d1 d2
  have habs : |q| = (q.num.natAbs : ℚ) / (q.den : ℚ) := by
    calc |q| = |(q.num : ℚ) / (q.den : ℚ)| := by rw [Rat.num_div_den q]
      _ = |(q.num : ℚ)| / (q.den : ℚ) := by rw [abs_div, Nat.abs_cast]
      _ = (q.num.natAbs : ℚ) / (q.den : ℚ) := by rw [Nat.cast_natAbs, Int.cast_abs]
  have hdpos : (0 : ℚ) < (q.den : ℚ) := by exact_mod_cast Nat.pos_of_ne_zero hden
  have n1q : (2 : ℚ) ^ a ≤ (q.num.natAbs : ℚ) := by exact_mod_cast n1
  have n2q : (q.num.natAbs : ℚ) < (2 : ℚ) ^ (a + 1) := by exact_mod_cast n2
  have d1q : (2 : ℚ) ^ b ≤ (q.den : ℚ) := by exact_mod_cast d1
  have d2q : (q.den : ℚ) < (2 : ℚ) ^ (b + 1) := by exact_mod_cast d2
  have two : (0 : ℚ) < 2 := by norm_num
  have hlow : (2 : ℚ) ^ ((a : Int) - (b : Int) - 1) < |q| := by
    rw [habs, lt_div_iff₀ hdpos]
    have e : (2 : ℚ) ^ ((a : Int) - (b : Int) - 1) * (2 : ℚ) ^ (b + 1) = (2 : ℚ) ^ a := by
      rw [← zpow_natCast (2 : ℚ) (b + 1), ← zpow_add₀ (ne_of_gt two),
        ← zpow_natCast (2 : ℚ) a]
      congr 1
      push_cast
      ring
    calc (2 : ℚ) ^ ((a : Int) - (b : Int) - 1) * (q.den : ℚ)
        < (2 : ℚ) ^ ((a : Int) - (b : Int) - 1) * (2 : ℚ) ^ (b + 1) := by
          apply mul_lt_mul_of_pos_left d2q (zpow_pos two _)
      _ = (2 : ℚ) ^ a := e
      _ ≤ _ := n1q
  have hhigh : |q| < (2 : ℚ) ^ ((a : Int) - (b : Int) + 1) := by
    rw [habs, div_lt_iff₀ hdpos]
    have e : (2 : ℚ) ^ ((a : Int) - (b : Int) + 1) * (2 : ℚ) ^ b = (2 : ℚ) ^ (a + 1) := by
      rw [← zpow_natCast (2 : ℚ) b, ← zpow_add₀ (ne_of_gt two),
        ← zpow_natCast (2 : ℚ) (a + 1)]
      congr 1
      push_cast
      ring
    calc (q.num.natAbs : ℚ) < (2 : ℚ) ^ (a + 1) := n2q
      _ = (2 : ℚ) ^ ((a : Int) - (b : Int) + 1) * (2 : ℚ) ^ b := e.symm
      _ ≤ (2 : ℚ) ^ ((a : Int) - (b : Int) + 1) * (q.den : ℚ) := by
          apply mul_le_mul_of_nonneg_left d1q (le_of_lt (zpow_pos two _))
  unfold binary_exponent
  rw [ha, hb]
  split_ifs with hc
  · refine ⟨le_of_lt hlow, ?_⟩
    have : (a : Int) - (b : Int) - 1 + 1 = (a : Int) - (b : Int) := by ring
    rw [this]
    exact hc
  · exact ⟨not_lt.mp hc, hhigh⟩

/-- Rounding to `p` significant bits moves a number by at most half a unit in the last
place. -/
theorem round_binary_error (p : Nat) (q : ℚ) (hq : q ≠ 0) :
    |round_binary p q - q| ≤ (2 : ℚ) ^ (binary_exponent q - (p : Int)) := by
  have two : (0 : ℚ) < 2 := by norm_num
  unfold round_binary
  rw [if_neg hq]
  generalize binary_exponent q = e
  have hs : (0 : ℚ) < (2 : ℚ) ^ (e - ((p : Int) - 1)) := zpow_pos two _
  have h := round_even_error (q / (2 : ℚ) ^ (e - ((p : Int) - 1)))
  have e1 : (round_even (q / (2 : ℚ) ^ (e - ((p : Int) - 1))) : ℚ) *
      (2 : ℚ) ^ (e - ((p : Int) - 1)) - q =
      ((round_even (q / (2 : ℚ) ^ (e - ((p : Int) - 1))) : ℚ) -
        q / (2 : ℚ) ^ (e - ((p : Int) - 1))) * (2 : ℚ) ^ (e - ((p : Int) - 1)) := by
    field_simp
  rw [e1, abs_mul, abs_of_pos hs]
  have e2 : (2 : ℚ) ^ (e - (p : Int)) = 1 / 2 * (2 : ℚ) ^ (e - ((p : Int) - 1)) := by
    have : e - ((p : Int) - 1) = (e - (p : Int)) + 1 := by ring
    rw [this, zpow_add₀ (ne_of_gt two), zpow_one]
    ring
  rw [e2]
  exact mul_le_mul_of_nonneg_right h (le_of_lt hs)

/-- The relative error of rounding to `p` significant bits is at most `2 ^ (-p)`. -/
theorem round_binary_rel_error (p : Nat) (q : ℚ) :
    |round_binary p q - q| ≤ |q| / (2 : ℚ) ^ p := by
  by_cases hq : q = 0
  · subst hq
    simp [round_binary]
  · have two : (0 : ℚ) < 2 := by norm_num
    refine le_trans (round_binary_error p q hq) ?_
    rw [zpow_sub₀ (ne_of_gt two), zpow_natCast]
    exact div_le_div_of_nonneg_right (binary_exponent_spec q hq).1 (le_of_lt (pow_pos two p))

/-- Rounding does not make a number negative. -/
theorem round_binary_nonneg (p : Nat) (q : ℚ) (hq : 0 ≤ q) : 0 ≤ round_binary p q := by
  have h := round_binary_rel_error p q
  rw [abs_of_nonneg hq, abs_le] at h
  have h2 : q / (2 : ℚ) ^ p ≤ q := by
    apply div_le_self hq
    exact one_le_pow₀ (by norm_num)
  linarith [h.1]

theorem to_float_zero : to_float 0 = 0 := by
  decide!

theorem to_float_one : to_float 1 = 1 := by
  decide!

/-- Rounding to `float` a number between 0 and 1 moves it by at most `2 ^ (-25)`. -/
theorem to_float_unit_error (x : ℚ) (h0 : 0 ≤ x) (h1 : x ≤ 1) :
    |to_float x - x| ≤ 1 / 2 ^ 25 := by
  rcases eq_or_lt_of_le h1 with h | h
  · rw [h, to_float_one]
    norm_num
  rcases eq_or_lt_of_le h0 with h' | h'
  · rw [← h', to_float_zero]
    norm_num
  have hx : x ≠ 0 := ne_of_gt h'
  obtain ⟨e1, -⟩ := binary_exponent_spec x hx
  rw [abs_of_pos h'] at e1
  have he : binary_exponent x < 0 := by
    by_contra hc
    push_neg at hc
    have := one_le_zpow₀ (by norm_num : (1 : ℚ) ≤ 2) hc
    linarith
  refine le_trans (round_binary_error 24 x hx) ?_
  have : (2 : ℚ) ^ (binary_exponent x - ((24 : Nat) : Int)) ≤ (2 : ℚ) ^ (-25 : Int) :=
    zpow_le_zpow_right₀ (by norm_num) (by push_cast; omega)
  refine le_trans this ?_
  norm_num

/-- Two numbers between 0 and 1 that differ by more than `2 ^ (-24)` are rounded to different
`float` values, in the same order. -/
theorem to_float_lt_of_gap (x y : ℚ) (hx : 0 ≤ x) (hy : y ≤ 1) (hgap : x + 1 / 2 ^ 24 < y) :
    to_float x < to_float y := by
  have hx1 : x ≤ 1 := by
    have : (0 : ℚ) < 1 / 2 ^ 24 := by norm_num
    linarith
  have hy0 : 0 ≤ y := by
    have : (0 : ℚ) < 1 / 2 ^ 24 := by norm_num
    linarith
  have ex := to_float_unit_error x hx hx1
  have ey := to_float_unit_error y hy0 hy
  rw [abs_le] at ex ey
  norm_num at ex ey hgap
  linarith [ex.2, ey.1]

/-- The rounding to the nearest integer is an integer within one half. -/
theorem round_even_eq_of_near (q : ℚ) (n : Int) (h : |q - (n : ℚ)| < 1 / 2) :
    round_even q = n := by
  have he := round_even_error q
  rw [abs_le] at he
  rw [abs_lt] at h
  have h1 : ((round_even q - n : Int) : ℚ) < 1 := by
    push_cast
    linarith [he.2, h.1]
  have h2 : (-1 : ℚ) < ((round_even q - n : Int) : ℚ) := by
    push_cast
    linarith [he.1, h.2]
  have h3 : round_even q - n < 1 := by exact_mod_cast h1
  have h4 : -1 < round_even q - n := by exact_mod_cast h2
  omega

theorem round_even_intCast (n : Int) : round_even (n : ℚ) = n :=
  round_even_eq_of_near _ n (by simp)

/-- The rounding to the nearest integer keeps the order. -/
theorem round_even_mono {x y : ℚ} (h : x ≤ y) : round_even x ≤ round_even y := by
  rcases eq_or_lt_of_le h with h' | h'
  · rw [h']
  · have hx := round_even_error x
    have hy := round_even_error y
    rw [abs_le] at hx hy
    have : ((round_even x : Int) : ℚ) < ((round_even y + 1 : Int) : ℚ) := by
      push_cast
      linarith [hx.2, hy.1]
    have : round_even x < round_even y + 1 := by exact_mod_cast this
    omega

/-- A number other than zero is rounded to a number between the powers of two that bracket
it. -/
theorem round_binary_bracket (p : Nat) (hp : 1 ≤ p) (q : ℚ) (hq : 0 < q) :
    (2 : ℚ) ^ binary_exponent q ≤ round_binary p q ∧
      round_binary p q ≤ (2 : ℚ) ^ (binary_exponent q + 1) := by
  have two : (0 : ℚ) < 2 := by norm_num
  obtain ⟨h1, h2⟩ := binary_exponent_spec q (ne_of_gt hq)
  rw [abs_of_pos hq] at h1 h2
  unfold round_binary
  rw [if_neg (ne_of_gt hq)]
  generalize binary_exponent q = e at h1 h2 ⊢
  have hs : (0 : ℚ) < (2 : ℚ) ^ (e - ((p : Int) - 1)) := zpow_pos two _
  have e1 : (2 : ℚ) ^ e = ((2 ^ (p - 1) : Int) : ℚ) * (2 : ℚ) ^ (e - ((p : Int) - 1)) := by
    push_cast
    rw [← zpow_natCast (2 : ℚ) (p - 1), ← zpow_add₀ (ne_of_gt two)]
    congr 1
    have : ((p - 1 : Nat) : Int) = (p : Int) - 1 := by omega
    rw [this]
    ring
  have e2 : (2 : ℚ) ^ (e + 1) = ((2 ^ p : Int) : ℚ) * (2 : ℚ) ^ (e - ((p : Int) - 1)) := by
    push_cast
    rw [← zpow_natCast (2 : ℚ) p, ← zpow_add₀ (ne_of_gt two)]
    congr 1
    ring
  constructor
  · rw [e1]
    apply mul_le_mul_of_nonneg_right _ (le_of_lt hs)
    have : round_even ((2 ^ (p - 1) : Int) : ℚ) ≤
        round_even (q / (2 : ℚ) ^ (e - ((p : Int) - 1))) := by
      apply round_even_mono
      rw [le_div_iff₀ hs, ← e1]
      exact h1
    rw [round_even_intCast] at this
    exact_mod_cast this
  · rw [e2]
    apply mul_le_mul_of_nonneg_right _ (le_of_lt hs)
    have : round_even (q / (2 : ℚ) ^ (e - ((p : Int) - 1))) ≤
        round_even ((2 ^ p : Int) : ℚ) := by
      apply round_even_mono
      rw [div_le_iff₀ hs, ← e2]
      exact le_of_lt h2
    rw [round_even_intCast] at this
    exact_mod_cast this

/-- The binary exponent keeps the order of positive numbers. -/
theorem binary_exponent_mono {x y : ℚ} (hx : 0 < x) (h : x ≤ y) :
    binary_exponent x ≤ binary_exponent y := by
  have hy : 0 < y := lt_of_lt_of_le hx h
  obtain ⟨x1, -⟩ := binary_exponent_spec x (ne_of_gt hx)
  obtain ⟨-, y2⟩ := binary_exponent_spec y (ne_of_gt hy)
  rw [abs_of_pos hx] at x1
  rw [abs_of_pos hy] at y2
  have : (2 : ℚ) ^ binary_exponent x < (2 : ℚ) ^ (binary_exponent y + 1) := by linarith
  have := (zpow_lt_zpow_iff_right₀ (by norm_num : (1 : ℚ) < 2)).mp this
  omega

/-- Rounding to `p` significant bits keeps the order of numbers that are not negative. -/
theorem round_binary_mono (p : Nat) (hp : 1 ≤ p) {x y : ℚ} (hx : 0 ≤ x) (h : x ≤ y) :
    round_binary p x ≤ round_binary p y := by
  rcases eq_or_lt_of_le hx with hx0 | hx0
  · rw [← hx0]
    have : round_binary p 0 = 0 := by simp [round_binary]
    rw [this]
    exact round_binary_nonneg p y (le_trans hx h)
  have hy0 : 0 < y := lt_of_lt_of_le hx0 h
  have hexp := binary_exponent_mono hx0 h
  rcases eq_or_lt_of_le hexp with he | he
  · unfold round_binary
    rw [if_neg (ne_of_gt hx0), if_neg (ne_of_gt hy0), he]
    have hs : (0 : ℚ) < (2 : ℚ) ^ (binary_exponent y - ((p : Int) - 1)) :=
      zpow_pos (by norm_num) _
    apply mul_le_mul_of_nonneg_right _ (le_of_lt hs)
    have : round_even (x / (2 : ℚ) ^ (binary_exponent y - ((p : Int) - 1))) ≤
        round_even (y / (2 : ℚ) ^ (binary_exponent y - ((p : Int) - 1))) :=
      round_even_mono (div_le_div_of_nonneg_right h (le_of_lt hs))
    exact_mod_cast this
  · have bx := (round_binary_bracket p hp x hx0).2
    have by' := (round_binary_bracket p hp y hy0).1
    have : (2 : ℚ) ^ (binary_exponent x + 1) ≤ (2 : ℚ) ^ binary_exponent y :=
      zpow_le_zpow_right₀ (by norm_num) (by omega)
    linarith

theorem to_float_mono {x y : ℚ} (hx : 0 ≤ x) (h : x ≤ y) : to_float x ≤ to_float y :=
  round_binary_mono 24 (by norm_num) hx h

theorem to_float_nonneg {x : ℚ} (hx : 0 ≤ x) : 0 ≤ to_float x :=
  round_binary_nonneg 24 x hx

theorem to_float_pos {x : ℚ} (hx : 0 < x) : 0 < to_float x :=
  lt_of_lt_of_le (zpow_pos (by norm_num) _) (round_binary_bracket 24 (by norm_num) x hx).1

/-- The rounding to the nearest integer is symmetric. -/
theorem round_even_neg (x : ℚ) : round_even (-x) = -round_even x := by
  have hfl0 : (⌊x⌋ : ℚ) ≤ x := Int.floor_le x
  have hfl1 : x < (⌊x⌋ : ℚ) + 1 := Int.lt_floor_add_one x
  by_cases h1 : x - (⌊x⌋ : Int) < 1 / 2
  · have hx : round_even x = ⌊x⌋ := by
      unfold round_even
      rw [if_pos h1]
    rw [hx]
    apply round_even_eq_of_near
    push_cast
    rw [abs_lt]
    constructor <;> linarith
  · by_cases h2 : 1 / 2 < x - (⌊x⌋ : Int)
    · have hx : round_even x = ⌊x⌋ + 1 := by
        unfold round_even
        rw [if_neg h1, if_pos h2]
      rw [hx]
      apply round_even_eq_of_near
      push_cast
      rw [abs_lt]
      constructor <;> linarith
    · have hhalf : x = (⌊x⌋ : ℚ) + 1 / 2 := by linarith
      have hnf : ⌊-x⌋ = -⌊x⌋ - 1 := by
        rw [Int.floor_eq_iff]
        push_cast
        constructor <;> linarith
      have hx : round_even x = if ⌊x⌋ % 2 = 0 then ⌊x⌋ else ⌊x⌋ + 1 := by
        unfold round_even
        rw [if_neg h1, if_neg h2]
      have hn1 : ¬ (-x - ((⌊-x⌋ : Int) : ℚ) < 1 / 2) := by
        rw [hnf]
        push_cast
        linarith
      have hn2 : ¬ (1 / 2 < -x - ((⌊-x⌋ : Int) : ℚ)) := by
        rw [hnf]
        push_cast
        linarith
      have hnx : round_even (-x) = if ⌊-x⌋ % 2 = 0 then ⌊-x⌋ else ⌊-x⌋ + 1 := by
        unfold round_even
        rw [if_neg hn1, if_neg hn2]
      rw [hx, hnx, hnf]
      split_ifs <;> omega

theorem binary_exponent_neg (q : ℚ) : binary_exponent (-q) = binary_exponent q := by
  unfold binary_exponent
  simp only [Rat.neg_num, Rat.neg_den, Int.natAbs_neg, abs_neg]

/-- The rounding to `p` bits is symmetric. -/
theorem round_binary_neg (p : Nat) (q : ℚ) : round_binary p (-q) = -round_binary p q := by
  unfold round_binary
  by_cases hq : q = 0
  · simp [hq]
  · rw [if_neg hq, if_neg (neg_ne_zero.mpr hq), binary_exponent_neg, neg_div, round_even_neg]
    push_cast
    ring

/-- The binary exponent is determined by its bounds. -/
theorem binary_exponent_unique (q : ℚ) (e : Int) (h1 : (2 : ℚ) ^ e ≤ |q|)
    (h2 : |q| < (2 : ℚ) ^ (e + 1)) : binary_exponent q = e := by
  have hq : q ≠ 0 := by
    intro h
    rw [h, abs_zero] at h1
    exact absurd h1 (not_le.mpr (zpow_pos (by norm_num) _))
  obtain ⟨b1, b2⟩ := binary_exponent_spec q hq
  have a1 := (zpow_lt_zpow_iff_right₀ (by norm_num : (1 : ℚ) < 2)).mp (lt_of_le_of_lt h1 b2)
  have a2 := (zpow_lt_zpow_iff_right₀ (by norm_num : (1 : ℚ) < 2)).mp (lt_of_le_of_lt b1 h2)
  omega

/-- A number rounded to `p` bits is not changed by rounding it again. -/
theorem round_binary_idem_pos (p : Nat) (hp : 1 ≤ p) (q : ℚ) (hq : 0 < q) :
    round_binary p (round_binary p q) = round_binary p q := by
  have two : (0 : ℚ) < 2 := by norm_num
  obtain ⟨b1, b2⟩ := round_binary_bracket p hp q hq
  have hpos : 0 < round_binary p q := lt_of_lt_of_le (zpow_pos two _) b1
  rcases eq_or_lt_of_le b2 with heq | hlt
  · -- the rounding reached the next power of two
    have he : binary_exponent (round_binary p q) = binary_exponent q + 1 := by
      apply binary_exponent_unique
      · rw [abs_of_pos hpos, heq]
      · rw [abs_of_pos hpos, heq]
        exact (zpow_lt_zpow_iff_right₀ (by norm_num : (1 : ℚ) < 2)).mpr (by omega)
    rw [heq]
    rw [heq] at he
    unfold round_binary
    rw [if_neg (ne_of_gt (zpow_pos two _)), he]
    have hquot : (2 : ℚ) ^ (binary_exponent q + 1) /
        (2 : ℚ) ^ (binary_exponent q + 1 - ((p : Int) - 1)) =
          (((2 : Int) ^ (p - 1) : Int) : ℚ) := by
      rw [← zpow_sub₀ (ne_of_gt two)]
      have : binary_exponent q + 1 - (binary_exponent q + 1 - ((p : Int) - 1)) =
          ((p - 1 : Nat) : Int) := by omega
      rw [this, zpow_natCast]
      push_cast
      rfl
    rw [hquot, round_even_intCast, ← hquot]
    exact div_mul_cancel₀ _ (ne_of_gt (zpow_pos two _))
  · have he : binary_exponent (round_binary p q) = binary_exponent q := by
      apply binary_exponent_unique
      · rw [abs_of_pos hpos]; exact b1
      · rw [abs_of_pos hpos]; exact hlt
    have hne : round_binary p q ≠ 0 := ne_of_gt hpos
    have hform : round_binary p q =
        (round_even (q / (2 : ℚ) ^ (binary_exponent q - ((p : Int) - 1))) : ℚ) *
          (2 : ℚ) ^ (binary_exponent q - ((p : Int) - 1)) := by
      unfold round_binary
      rw [if_neg (ne_of_gt hq)]
    generalize hr : round_binary p q = r at he hne hform ⊢
    unfold round_binary
    rw [if_neg hne, he]
    have hquot : r / (2 : ℚ) ^ (binary_exponent q - ((p : Int) - 1)) =
        (round_even (q / (2 : ℚ) ^ (binary_exponent q - ((p : Int) - 1))) : ℚ) := by
      rw [hform]
      exact mul_div_cancel_right₀ _ (ne_of_gt (zpow_pos two _))
    rw [hquot, round_even_intCast, ← hform]

theorem round_binary_idem (p : Nat) (hp : 1 ≤ p) (q : ℚ) :
    round_binary p (round_binary p q) = round_binary p q := by
  rcases lt_trichotomy q 0 with h | h | h
  · have := round_binary_idem_pos p hp (-q) (by linarith)
    rw [round_binary_neg, round_binary_neg] at this
    linarith
  · subst h
    simp [round_binary]
  · exact round_binary_idem_pos p hp q h

/-- A `float` stored in a `float` is not changed. -/
theorem to_float_idem (q : ℚ) : to_float (to_float q) = to_float q :=
  round_binary_idem 24 (by norm_num) q

/-- The interpolation parameter computed in `float` is in the range the exact one is in,
except that it can reach 1 before `out_position`. -/
theorem float_parameter_bounds (p i o : ℚ) (hio : i < o) (hip : i ≤ p) :
    0 ≤ float_parameter p i o ∧ (p < o → float_parameter p i o ≤ 1) ∧
      (o ≤ p → 1 ≤ float_parameter p i o) := by
  unfold float_parameter
  have hd : 0 < to_float (o - i) := to_float_pos (by linarith)
  have hn : 0 ≤ to_float (p - i) := to_float_nonneg (by linarith)
  refine ⟨to_float_nonneg (div_nonneg hn (le_of_lt hd)), ?_, ?_⟩
  · intro hpo
    have h1 : to_float (p - i) ≤ to_float (o - i) :=
      to_float_mono (by linarith) (by linarith)
    have h2 : to_float (p - i) / to_float (o - i) ≤ 1 := (div_le_one hd).mpr h1
    have := to_float_mono (div_nonneg hn (le_of_lt hd)) h2
    rwa [to_float_one] at this
  · intro hop
    have h1 : to_float (o - i) ≤ to_float (p - i) :=
      to_float_mono (by linarith) (by linarith)
    have h2 : 1 ≤ to_float (p - i) / to_float (o - i) := (one_le_div hd).mpr h1
    have := to_float_mono (by norm_num : (0 : ℚ) ≤ 1) h2
    rwa [to_float_one] at this

/-- A number close to a whole number `z` other than zero that has at most `p` binary digits
is rounded to `z`. -/
theorem round_binary_near_int (p : Nat) (z : Int) (hz0 : z ≠ 0)
    (hz : |(z : ℚ)| + 1 ≤ (2 : ℚ) ^ p) (x : ℚ)
    (hx : |x - (z : ℚ)| < 1 / (2 : ℚ) ^ (p + 1)) :
    round_binary p x = z := by
  have two : (0 : ℚ) < 2 := by norm_num
  have hz1 : (1 : ℚ) ≤ |(z : ℚ)| := by
    have : (1 : Int) ≤ |z| := Int.one_le_abs hz0
    exact_mod_cast this
  have hsmall : (1 : ℚ) / (2 : ℚ) ^ (p + 1) ≤ 1 / 2 := by
    apply one_div_le_one_div_of_le (by norm_num)
    calc (2 : ℚ) = 2 ^ 1 := by norm_num
      _ ≤ 2 ^ (p + 1) := pow_le_pow_right₀ (by norm_num) (by omega)
  have hxlo : (1 : ℚ) / 2 < |x| := by
    have := abs_sub_abs_le_abs_sub (z : ℚ) x
    rw [abs_sub_comm] at this
    linarith
  have hxhi : |x| < (2 : ℚ) ^ p := by
    have := abs_sub_abs_le_abs_sub x (z : ℚ)
    linarith
  have hx0 : x ≠ 0 := by
    intro h
    rw [h, abs_zero] at hxlo
    linarith
  obtain ⟨b1, b2⟩ := binary_exponent_spec x hx0
  have he_lo : -1 ≤ binary_exponent x := by
    have h : (2 : ℚ) ^ (-1 : Int) < (2 : ℚ) ^ (binary_exponent x + 1) := by
      have : (2 : ℚ) ^ (-1 : Int) = 1 / 2 := by norm_num
      rw [this]
      linarith
    have := (zpow_lt_zpow_iff_right₀ (by norm_num : (1 : ℚ) < 2)).mp h
    omega
  have he_hi : binary_exponent x + 1 ≤ (p : Int) := by
    have h : (2 : ℚ) ^ binary_exponent x < (2 : ℚ) ^ (p : Int) := by
      rw [zpow_natCast]
      linarith
    have := (zpow_lt_zpow_iff_right₀ (by norm_num : (1 : ℚ) < 2)).mp h
    omega
  unfold round_binary
  rw [if_neg hx0]
  generalize binary_exponent x = e at he_lo he_hi
  obtain ⟨k, hk⟩ : ∃ k : Nat, (k : Int) = (p : Int) - 1 - e := ⟨((p : Int) - 1 - e).toNat, by omega⟩
  have hkp : k ≤ p := by omega
  have hs : (2 : ℚ) ^ (e - ((p : Int) - 1)) = 1 / (2 : ℚ) ^ k := by
    have : e - ((p : Int) - 1) = -(k : Int) := by omega
    rw [this, zpow_neg, zpow_natCast, one_div]
  rw [hs]
  have hpos : (0 : ℚ) < (2 : ℚ) ^ k := pow_pos two k
  have hr : round_even (x / (1 / (2 : ℚ) ^ k)) = z * 2 ^ k := by
    apply round_even_eq_of_near
    have e1 : x / (1 / (2 : ℚ) ^ k) - ((z * 2 ^ k : Int) : ℚ) = (x - z) * 2 ^ k := by
      push_cast
      field_simp
      ring
    rw [e1, abs_mul, abs_of_pos hpos]
    have hle : (2 : ℚ) ^ k ≤ 2 ^ p := pow_le_pow_right₀ (by norm_num) hkp
    have hpp : (0 : ℚ) < (2 : ℚ) ^ (p + 1) := pow_pos two _
    rw [lt_div_iff₀ hpp] at hx
    have hnn : 0 ≤ |x - (z : ℚ)| := abs_nonneg _
    have e2 : (2 : ℚ) ^ (p + 1) = 2 * 2 ^ p := by ring
    rw [e2] at hx
    nlinarith [mul_le_mul_of_nonneg_left hle hnn]
  rw [hr]
  push_cast
  field_simp

/-- A whole number of at most 24 binary digits is a `float`. -/
theorem to_float_intCast (z : Int) (hz : |(z : ℚ)| ≤ 16777215) : to_float (z : ℚ) = z := by
  by_cases hz0 : z = 0
  · subst hz0
    rw [Int.cast_zero, to_float_zero]
  · apply round_binary_near_int 24 z hz0
    · norm_num
      linarith
    · simp

theorem wrap_position_of_lt_one {p : ℚ} (h : p < 1) : wrap_position p = p := by
  unfold wrap_position
  rw [if_neg (not_le.mpr h)]

theorem wrap_position_int_add (n : ℤ) (f : ℚ) (hn : 1 ≤ n) (hf0 : 0 ≤ f) (hf1 : f < 1) :
    wrap_position ((n : ℚ) + f) = if n % 2 = 1 then 1 - f else f := by
  have hn' : (1 : ℚ) ≤ (n : ℚ) := by exact_mod_cast hn
  have hge : (n : ℚ) + f ≥ 1 := by linarith
  have hfl : ⌊(n : ℚ) + f⌋ = n := by
    rw [Int.floor_int_add, Int.floor_eq_zero_iff.mpr ⟨hf0, hf1⟩, add_zero]
  have hmod : n.tmod 2 = n % 2 := Int.tmod_eq_emod (by omega) (by decide)
  unfold wrap_position
  rw [if_pos hge]
  simp only [hfl, hmod, add_sub_cancel_left]

theorem wrap_position_one_sub (f : ℚ) (hf0 : 0 ≤ f) (hf1 : f < 1) :
    wrap_position (1 - f) = 1 - f := by
  rcases eq_or_lt_of_le hf0 with h | h
  · subst h
    have := wrap_position_int_add 1 0 (le_refl 1) (le_refl 0) (by norm_num)
    simpa using this
  · exact wrap_position_of_lt_one (by linarith)

theorem wrap_position_of_le_one {p : ℚ} (h : p ≤ 1) : wrap_position p = p := by
  rcases eq_or_lt_of_le h with h1 | h1
  · subst h1
    have := wrap_position_one_sub 0 (le_refl 0) (by norm_num)
    simpa using this
  · exact wrap_position_of_lt_one h1

theorem geometry_calculate_eq (output : geometry_s) (track : List geometry_s) (p : ℚ)
    (i o : geometry_s) (h : search_track (wrap_position p) track = some (i, o)) :
    geometry_calculate output track p =
      if i.frame ≠ o.frame - 1 then
        if o.position - i.position = 0 then none
        else
          some { output with
            nw := i.nw
            nh := i.nh
            x := i.x + (o.x - i.x) * ((wrap_position p - i.position) / (o.position - i.position))
            y := i.y + (o.y - i.y) * ((wrap_position p - i.position) / (o.position - i.position))
            w := i.w + (o.w - i.w) * ((wrap_position p - i.position) / (o.position - i.position))
            h := i.h + (o.h - i.h) * ((wrap_position p - i.position) / (o.position - i.position))
            mix := i.mix +
              (o.mix - i.mix) * ((wrap_position p - i.position) / (o.position - i.position)) }
      else
        some { output with
          nw := o.nw, nh := o.nh, x := o.x, y := o.y, w := o.w, h := o.h, mix := o.mix } := by
  match track, h with
  | i0 :: o0 :: rest, h =>
    simp only [search_track, Option.some.injEq] at h
    simp only [geometry_calculate, h]

/-- The result of `geometry_calculate` depends on the query position only through its wrapped
value. -/
theorem geometry_calculate_congr (output : geometry_s) (track : List geometry_s) (p q : ℚ)
    (h : wrap_position p = wrap_position q) :
    geometry_calculate output track p = geometry_calculate output track q := by
  unfold geometry_calculate
  split
  · simp only [h]
  · rfl

/-- The search skips every pair that lies before the query position and stops at the pair
`(i, o)` that brackets it, or at the last pair. -/
theorem search_track_bracket (p : ℚ) (i o : geometry_s) (post : List geometry_s)
    (hb : post = [] ∨ (i.position ≤ p ∧ p < o.position)) :
    ∀ pre : List geometry_s, (∀ k ∈ pre, k.position ≤ i.position) → i.position ≤ p →
      search_track p (pre ++ i :: o :: post) = some (i, o)
  | [], _, _ => by
    cases post with
    | nil => simp [search_track, geometry_search]
    | cons n rest =>
      rcases hb with hb | hb
      · cases hb
      · simp [search_track, geometry_search, hb.1, hb.2]
  | [a], hpre, hip => by
    have ih := search_track_bracket p i o post hb [] (by simp) hip
    simp only [search_track, List.nil_append, Option.some.injEq] at ih
    simp only [search_track, List.singleton_append, geometry_search, Option.some.injEq]
    rw [if_neg, ih]
    intro hc
    exact absurd hc.2 (not_lt.mpr hip)
  | a :: b :: pre, hpre, hip => by
    have ih := search_track_bracket p i o post hb (b :: pre)
      (fun k hk => hpre k (List.mem_cons_of_mem _ hk)) hip
    have hbp : b.position ≤ p := le_trans (hpre b (by simp)) hip
    cases hl : pre ++ i :: o :: post with
    | nil => simp at hl
    | cons c rest =>
      simp only [List.cons_append, hl, search_track, Option.some.injEq] at ih
      simp only [List.cons_append, hl, search_track, geometry_search, Option.some.injEq]
      rw [if_neg, ih]
      intro hc
      exact absurd hc.2 (not_lt.mpr hbp)

theorem wrap_position_nonneg {p : ℚ} (h : 0 ≤ p) : 0 ≤ wrap_position p := by
  unfold wrap_position
  have h0 := Int.fract_nonneg p
  have h1 := Int.fract_lt_one p
  rw [← Int.self_sub_floor] at h0 h1
  by_cases hp : p ≥ 1
  · rw [if_pos hp]
    simp only
    split_ifs
    · linarith
    · exact h0
  · rw [if_neg hp]
    exact h

/-- The search on an ordered track, started at a keyframe that is not after the query: the
pair it selects starts not after the query; it ends after the query when the query lies before
the last keyframe, and is the pair that ends with the last keyframe otherwise. -/
theorem geometry_search_spec (p : ℚ) :
    ∀ (rest : List geometry_s) (i0 o0 : geometry_s),
      List.Pairwise (fun a b : geometry_s => a.position < b.position) (i0 :: o0 :: rest) →
      i0.position ≤ p →
      (geometry_search p i0 o0 rest).1.position ≤ p ∧
      (geometry_search p i0 o0 rest).1.position < (geometry_search p i0 o0 rest).2.position ∧
      (p < (rest.getLastD o0).position → p < (geometry_search p i0 o0 rest).2.position) ∧
      ((rest.getLastD o0).position ≤ p →
        (geometry_search p i0 o0 rest).2 = rest.getLastD o0)
  | [], i0, o0, hs, hi => by
    have hlt : i0.position < o0.position :=
      (List.pairwise_cons.mp hs).1 o0 (List.mem_cons_self _ _)
    exact ⟨hi, hlt, fun h => h, fun _ => rfl⟩
  | n :: r, i0, o0, hs, hi => by
    have hlt : i0.position < o0.position :=
      (List.pairwise_cons.mp hs).1 o0 (List.mem_cons_self _ _)
    have htail := (List.pairwise_cons.mp hs).2
    have hlast : o0.position < ((n :: r).getLastD o0).position :=
      (List.pairwise_cons.mp htail).1 _ (by
        rw [List.getLastD_cons]
        exact List.getLastD_mem_cons r n)
    rw [geometry_search]
    split_ifs with hb
    · refine ⟨hb.1, hlt, fun _ => hb.2, ?_⟩
      intro hle
      exact absurd (lt_of_lt_of_le (lt_trans hb.2 hlast) hle) (lt_irrefl _)
    · have ho : o0.position ≤ p := by
        by_contra hc
        exact hb ⟨hi, not_le.mp hc⟩
      rw [List.getLastD_cons]
      exact geometry_search_spec p r o0 n htail ho

/-- The search takes the same steps on two tracks whose keyframes differ only in `mix`. -/
theorem geometry_search_mix (p : ℚ) (rest1 rest2 : List geometry_s)
    (h : List.Forall₂ (fun g1 g2 : geometry_s => g2 = { g1 with mix := g2.mix })
      rest1 rest2) :
    ∀ (i1 o1 i2 o2 : geometry_s),
      i2 = { i1 with mix := i2.mix } → o2 = { o1 with mix := o2.mix } →
      (geometry_search p i2 o2 rest2).1 =
          { (geometry_search p i1 o1 rest1).1 with
            mix := (geometry_search p i2 o2 rest2).1.mix } ∧
        (geometry_search p i2 o2 rest2).2 =
          { (geometry_search p i1 o1 rest1).2 with
            mix := (geometry_search p i2 o2 rest2).2.mix } := by
  induction h with
  | nil =>
    intro i1 o1 i2 o2 hi ho
    exact ⟨hi, ho⟩
  | cons hn _ ih =>
    intro i1 o1 i2 o2 hi ho
    have hip : i2.position = i1.position := by rw [hi]
    have hop : o2.position = o1.position := by rw [ho]
    rw [geometry_search, geometry_search, hip, hop]
    split_ifs with hc
    · exact ⟨hi, ho⟩
    · exact ih _ _ _ _ ho hn

/-- The geometry calculated from two tracks whose keyframes differ only in `mix` differs only
in `mix`, and is a number for both tracks or for neither. -/
theorem geometry_calculate_mix (output : geometry_s) (track1 track2 : List geometry_s) (p : ℚ)
    (h : List.Forall₂ (fun g1 g2 : geometry_s => g2 = { g1 with mix := g2.mix })
      track1 track2) :
    (geometry_calculate output track1 p = none ∧ geometry_calculate output track2 p = none) ∨
    ∃ r1 r2 : geometry_s,
      geometry_calculate output track1 p = some r1 ∧
      geometry_calculate output track2 p = some r2 ∧ r2 = { r1 with mix := r2.mix } := by
  cases h with
  | nil => exact Or.inl ⟨rfl, rfl⟩
  | cons h1 t1 =>
    cases t1 with
    | nil => exact Or.inl ⟨rfl, rfl⟩
    | cons h2 t2 =>
      obtain ⟨hi, ho⟩ := geometry_search_mix (wrap_position p) _ _ t2 _ _ _ _ h1 h2
      simp only [geometry_calculate]
      generalize (geometry_search (wrap_position p) _ _ _).1 = a1 at hi
      generalize (geometry_search (wrap_position p) _ _ _).2 = b1 at ho
      generalize (geometry_search (wrap_position p) _ _ _).1 = a2 at hi
      generalize (geometry_search (wrap_position p) _ _ _).2 = b2 at ho
      rw [congrArg geometry_s.frame hi, congrArg geometry_s.frame ho,
        congrArg geometry_s.position hi, congrArg geometry_s.position ho,
        congrArg geometry_s.nw hi, congrArg geometry_s.nh hi,
        congrArg geometry_s.x hi, congrArg geometry_s.y hi,
        congrArg geometry_s.w hi, congrArg geometry_s.h hi,
        congrArg geometry_s.nw ho, congrArg geometry_s.nh ho,
        congrArg geometry_s.x ho, congrArg geometry_s.y ho,
        congrArg geometry_s.w ho, congrArg geometry_s.h ho]
      split_ifs with hf hz
      · exact Or.inl ⟨rfl, rfl⟩
      · exact Or.inr ⟨_, _, rfl, rfl, rfl⟩
      · exact Or.inr ⟨_, _, rfl, rfl, rfl⟩

/-- The query at the position of a keyframe that is not the last one selects the pair that
starts with it. -/
theorem search_track_at_keyframe (pre post : List geometry_s) (k k' : geometry_s)
    (hsorted : List.Pairwise (fun a b : geometry_s => a.position < b.position)
      (pre ++ k :: k' :: post))
    (hle : ∀ g ∈ pre ++ k :: k' :: post, g.position ≤ 1) :
    search_track (wrap_position k.position) (pre ++ k :: k' :: post) = some (k, k') ∧
      wrap_position k.position = k.position ∧ k.position < k'.position := by
  rw [List.pairwise_append] at hsorted
  obtain ⟨-, hkk, hprek⟩ := hsorted
  have hlt : k.position < k'.position :=
    (List.pairwise_cons.mp hkk).1 k' (List.mem_cons_self _ _)
  have hk1 : k.position < 1 := lt_of_lt_of_le hlt (hle k' (by simp))
  have hpre : ∀ a ∈ pre, a.position ≤ k.position :=
    fun a ha => le_of_lt (hprek a ha k (List.mem_cons_self _ _))
  rw [wrap_position_of_lt_one hk1]
  exact ⟨search_track_bracket k.position k k' post (Or.inr ⟨le_refl _, hlt⟩) pre hpre
    (le_refl _), rfl, hlt⟩

/-- The query at the position of the last keyframe selects the last pair. -/
theorem search_track_at_last (pre : List geometry_s) (i k : geometry_s)
    (hsorted : List.Pairwise (fun a b : geometry_s => a.position < b.position)
      (pre ++ i :: k :: []))
    (hle : k.position ≤ 1) :
    search_track (wrap_position k.position) (pre ++ i :: k :: []) = some (i, k) := by
  rw [List.pairwise_append] at hsorted
  obtain ⟨-, hik, hprei⟩ := hsorted
  have hlt : i.position < k.position :=
    (List.pairwise_cons.mp hik).1 k (List.mem_cons_self _ _)
  have hpre : ∀ a ∈ pre, a.position ≤ i.position :=
    fun a ha => le_of_lt (hprei a ha i (List.mem_cons_self _ _))
  rw [wrap_position_of_le_one hle]
  exact search_track_bracket k.position i k [] (Or.inl rfl) pre hpre (le_of_lt hlt)

/-- The pair the search selects is a pair of consecutive keyframes of the track; when
keyframes follow the pair, the pair brackets the query. -/
theorem geometry_search_consecutive (p : ℚ) :
    ∀ (rest : List geometry_s) (i0 o0 : geometry_s),
      ∃ pre post : List geometry_s,
        i0 :: o0 :: rest =
          pre ++ (geometry_search p i0 o0 rest).1 :: (geometry_search p i0 o0 rest).2 :: post ∧
        (post ≠ [] → p < (geometry_search p i0 o0 rest).2.position)
  | [], i0, o0 => ⟨[], [], rfl, fun h => absurd rfl h⟩
  | n :: r, i0, o0 => by
    rw [geometry_search]
    split_ifs with hb
    · exact ⟨[], n :: r, rfl, fun _ => hb.2⟩
    · obtain ⟨pre, post, h1, h2⟩ := geometry_search_consecutive p r o0 n
      exact ⟨i0 :: pre, post, by rw [List.cons_append, ← h1], h2⟩

/-! ## Lemmas on the construction of the track -/

theorem geometry_parse_position (g : geometry_s) (d : Option geometry_s)
    (property : Option (List Char)) (nw nh : Int) :
    (geometry_parse g d property nw nh).position = g.position := by
  rcases property with _ | _ | ⟨c, cs⟩ <;> cases d <;> rfl

theorem geometry_parse_frame (g : geometry_s) (d : Option geometry_s)
    (property : Option (List Char)) (nw nh : Int) :
    (geometry_parse g d property nw nh).frame = g.frame := by
  rcases property with _ | _ | ⟨c, cs⟩ <;> cases d <;> rfl

/-- A key position that is positive comes from a transition of more than one frame and lies
before the position of the end keyframe. -/
theorem key_position_pos_bound (t_in t_out frame : Int)
    (h : 0 < key_position t_in t_out frame) :
    t_in < t_out ∧
      key_position t_in t_out frame <
        ((t_out - t_in : Int) : ℚ) / ((t_out - t_in + 1 : Int) : ℚ) := by
  unfold key_position at h ⊢
  split_ifs at h ⊢ with h1 h2
  · have hn : t_in < t_out := by omega
    have hd : (0 : ℚ) < ((t_out - t_in + 1 : Int) : ℚ) := by exact_mod_cast (by omega)
    refine ⟨hn, ?_⟩
    rw [div_lt_div_iff_of_pos_right hd]
    exact_mod_cast h1.2
  · have hn : t_in < t_out := by omega
    have hd : (0 : ℚ) < ((t_out - t_in + 1 : Int) : ℚ) := by exact_mod_cast (by omega)
    refine ⟨hn, ?_⟩
    rw [div_lt_div_iff_of_pos_right hd]
    exact_mod_cast (by omega)
  · exact absurd h (lt_irrefl 0)

theorem end_position_lt_one (t_in t_out : Int) (h : t_in ≤ t_out) :
    ((t_out - t_in : Int) : ℚ) / ((t_out - t_in + 1 : Int) : ℚ) < 1 := by
  have hd : (0 : ℚ) < ((t_out - t_in + 1 : Int) : ℚ) := by exact_mod_cast (by omega)
  rw [div_lt_one hd]
  exact_mod_cast (by omega)

/-- The keys accepted by the loop: their positions increase strictly, starting above the
position of the keyframe the loop starts from, and each is the position of its frame. -/
theorem parse_keys_loop_sorted (t_in t_out nw nh : Int) :
    ∀ (props : mlt_properties) (ptr : geometry_s),
      List.Pairwise (fun a b : geometry_s => a.position < b.position)
          (ptr :: (parse_keys_loop t_in t_out nw nh props ptr).1) ∧
        ∀ k ∈ (parse_keys_loop t_in t_out nw nh props ptr).1,
          k.position = key_position t_in t_out k.frame
  | [], ptr => by simp [parse_keys_loop]
  | (name, value) :: rest, ptr => by
    rw [parse_keys_loop]
    simp only
    split_ifs with hname hpos
    · have ih := parse_keys_loop_sorted t_in t_out nw nh rest
        { geometry_parse calloc_geometry (some ptr) value nw nh with
          frame := atoi (name.drop 4)
          position := key_position t_in t_out (atoi (name.drop 4)) }
      obtain ⟨ih1, ih2⟩ := ih
      refine ⟨?_, ?_⟩
      · rw [List.pairwise_cons]
        refine ⟨?_, ih1⟩
        intro k hk
        rcases List.mem_cons.mp hk with rfl | hk'
        · exact hpos
        · exact lt_trans hpos ((List.pairwise_cons.mp ih1).1 k hk')
      · intro k hk
        rcases List.mem_cons.mp hk with rfl | hk'
        · rfl
        · exact ih2 k hk'
    · exact parse_keys_loop_sorted t_in t_out nw nh rest ptr
    · exact parse_keys_loop_sorted t_in t_out nw nh rest ptr

/-- The track of `transition_parse_keys` is ordered by strictly increasing position, except
for the one-frame transition with a positive out point. -/
theorem transition_parse_keys_pairwise (props : mlt_properties) (t_in t_out nw nh : Int)
    (hio : t_in ≤ t_out) (hne : t_in < t_out ∨ t_out ≤ 0) :
    List.Pairwise (fun a b : geometry_s => a.position < b.position)
      (transition_parse_keys props t_in t_out nw nh) := by
  unfold transition_parse_keys
  simp only
  generalize hs : geometry_parse calloc_geometry none
    (mlt_properties_get props ['s', 't', 'a', 'r', 't']) nw nh = start
  have hs0 : start.position = 0 := by
    rw [← hs, geometry_parse_position]; rfl
  obtain ⟨h1, h2⟩ := parse_keys_loop_sorted t_in t_out nw nh props start
  have hE1 := end_position_lt_one t_in t_out hio
  rw [List.pairwise_cons] at h1 ⊢
  refine ⟨?_, ?_⟩
  · intro k hk
    rcases List.mem_append.mp hk with hk' | hk'
    · exact h1.1 k hk'
    · rw [List.mem_singleton] at hk'
      subst hk'
      simp only [hs0]
      split_ifs with ho
      · have hlt : t_in < t_out := by omega
        have hd : (0 : ℚ) < ((t_out - t_in + 1 : Int) : ℚ) := by exact_mod_cast (by omega)
        apply div_pos _ hd
        exact_mod_cast (by omega)
      · exact zero_lt_one
  · rw [List.pairwise_append]
    refine ⟨h1.2, List.pairwise_singleton _ _, ?_⟩
    intro k hk e he
    rw [List.mem_singleton] at he
    subst he
    have hkpos : 0 < key_position t_in t_out k.frame := by
      rw [← h2 k hk, ← hs0]; exact h1.1 k hk
    have hb := (key_position_pos_bound t_in t_out k.frame hkpos).2
    rw [h2 k hk]
    simp only
    split_ifs with ho
    · exact hb
    · exact lt_trans hb hE1

/-- No keyframe of the track lies after position 1. -/
theorem transition_parse_keys_position_le_one (props : mlt_properties)
    (t_in t_out nw nh : Int) (hio : t_in ≤ t_out) :
    ∀ g ∈ transition_parse_keys props t_in t_out nw nh, g.position ≤ 1 := by
  intro g hg
  unfold transition_parse_keys at hg
  simp only at hg
  have hE1 := end_position_lt_one t_in t_out hio
  rcases List.mem_cons.mp hg with rfl | hg'
  · rw [geometry_parse_position]; exact zero_le_one
  · rcases List.mem_append.mp hg' with hk | he
    · have h2 := (parse_keys_loop_sorted t_in t_out nw nh props _).2 g hk
      rcases le_or_lt g.position 0 with h0 | h0
      · exact le_trans h0 zero_le_one
      · rw [h2] at h0 ⊢
        exact le_of_lt (lt_trans (key_position_pos_bound t_in t_out g.frame h0).2 hE1)
    · rw [List.mem_singleton] at he
      subst he
      simp only
      split_ifs
      · exact le_of_lt hE1
      · exact le_refl 1

/-- The loop over a concatenation of property lists runs over the first, then over the second
from the keyframe the first run ended at. -/
theorem parse_keys_loop_append (t_in t_out nw nh : Int) (post : mlt_properties) :
    ∀ (pre : mlt_properties) (ptr : geometry_s),
      parse_keys_loop t_in t_out nw nh (pre ++ post) ptr =
        ((parse_keys_loop t_in t_out nw nh pre ptr).1 ++
            (parse_keys_loop t_in t_out nw nh post
              (parse_keys_loop t_in t_out nw nh pre ptr).2).1,
          (parse_keys_loop t_in t_out nw nh post
            (parse_keys_loop t_in t_out nw nh pre ptr).2).2)
  | [], ptr => by simp [parse_keys_loop]
  | (name, value) :: rest, ptr => by
    rw [List.cons_append, parse_keys_loop, parse_keys_loop]
    simp only
    split_ifs with hname hpos
    · rw [parse_keys_loop_append t_in t_out nw nh post rest]
      simp only [List.cons_append]
    · exact parse_keys_loop_append t_in t_out nw nh post rest ptr
    · exact parse_keys_loop_append t_in t_out nw nh post rest ptr

/-- Looking up a name is not affected by a property of another name. -/
theorem mlt_properties_get_remove (pre post : mlt_properties) (name key : List Char)
    (value : Option (List Char)) (h : name ≠ key) :
    mlt_properties_get (pre ++ (name, value) :: post) key =
      mlt_properties_get (pre ++ post) key := by
  unfold mlt_properties_get
  rw [List.find?_append, List.find?_append, List.find?_cons_of_neg]
  simpa using h

/-- A key whose frame number is 0, or is not less than `out - in`, or is negative with
`-frame` not less than `out - in`, gets the position 0. -/
theorem key_position_zero (t_in t_out frame : Int)
    (h : frame = 0 ∨ frame ≥ t_out - t_in ∨ (frame < 0 ∧ -frame ≥ t_out - t_in)) :
    key_position t_in t_out frame = 0 := by
  unfold key_position
  split_ifs with h1 h2
  · have h0 : frame = 0 := by omega
    rw [h0]
    simp
  · exfalso
    omega
  · rfl

/-- The keyframe the loop ends at lies at or after the keyframe it starts from. -/
theorem parse_keys_loop_ptr_le (t_in t_out nw nh : Int) :
    ∀ (props : mlt_properties) (ptr : geometry_s),
      ptr.position ≤ (parse_keys_loop t_in t_out nw nh props ptr).2.position
  | [], ptr => le_refl _
  | (name, value) :: rest, ptr => by
    rw [parse_keys_loop]
    simp only
    split_ifs with hname hpos
    · exact le_trans (le_of_lt hpos) (parse_keys_loop_ptr_le t_in t_out nw nh rest _)
    · exact parse_keys_loop_ptr_le t_in t_out nw nh rest ptr
    · exact parse_keys_loop_ptr_le t_in t_out nw nh rest ptr

/-- A key of position 0 is skipped by the loop when the keyframe before it is not at a
negative position. -/
theorem parse_keys_loop_skip (t_in t_out nw nh : Int) (name : List Char)
    (value : Option (List Char)) (post : mlt_properties) (ptr : geometry_s)
    (hname : name.take 4 = ['k', 'e', 'y', '['])
    (hzero : key_position t_in t_out (atoi (name.drop 4)) = 0) (hptr : 0 ≤ ptr.position) :
    parse_keys_loop t_in t_out nw nh ((name, value) :: post) ptr =
      parse_keys_loop t_in t_out nw nh post ptr := by
  rw [parse_keys_loop]
  simp only
  rw [if_pos hname, hzero, if_neg (not_lt.mpr hptr)]

/-- The loop over a property list with a key of position 0 in it gives what the loop over the
list without that key gives. -/
theorem parse_keys_loop_remove (t_in t_out nw nh : Int) (name : List Char)
    (value : Option (List Char)) (pre post : mlt_properties) (ptr : geometry_s)
    (hname : name.take 4 = ['k', 'e', 'y', '['])
    (hzero : key_position t_in t_out (atoi (name.drop 4)) = 0) (hptr : 0 ≤ ptr.position) :
    parse_keys_loop t_in t_out nw nh (pre ++ (name, value) :: post) ptr =
      parse_keys_loop t_in t_out nw nh (pre ++ post) ptr := by
  rw [parse_keys_loop_append, parse_keys_loop_append t_in t_out nw nh post,
    parse_keys_loop_skip t_in t_out nw nh name value post _ hname hzero
      (le_trans hptr (parse_keys_loop_ptr_le t_in t_out nw nh pre ptr))]

/-- A name that starts with `key[` is neither `start` nor `end`. -/
theorem key_name_ne (name : List Char) (hname : name.take 4 = ['k', 'e', 'y', '[']) :
    name ≠ ['s', 't', 'a', 'r', 't'] ∧ name ≠ ['e', 'n', 'd'] := by
  constructor
  · intro h
    rw [h] at hname
    exact absurd hname (by decide)
  · intro h
    rw [h] at hname
    exact absurd hname (by decide)

/-- Every keyframe of the track lies at a whole multiple of `1 / (out - in + 1)`. -/
theorem transition_parse_keys_grid (props : mlt_properties) (t_in t_out nw nh : Int)
    (hio : t_in ≤ t_out) :
    ∀ g ∈ transition_parse_keys props t_in t_out nw nh,
      ∃ m : Int, g.position = (m : ℚ) / ((t_out - t_in + 1 : Int) : ℚ) := by
  have hd : ((t_out - t_in + 1 : Int) : ℚ) ≠ 0 := by
    exact_mod_cast (by omega : t_out - t_in + 1 ≠ 0)
  intro g hg
  unfold transition_parse_keys at hg
  simp only at hg
  rcases List.mem_cons.mp hg with rfl | hg'
  · refine ⟨0, ?_⟩
    rw [geometry_parse_position]
    simp [calloc_geometry]
  · rcases List.mem_append.mp hg' with hk | he
    · have h2 := (parse_keys_loop_sorted t_in t_out nw nh props _).2 g hk
      rw [h2]
      unfold key_position
      split_ifs
      · exact ⟨g.frame, rfl⟩
      · exact ⟨t_out - t_in + g.frame, rfl⟩
      · exact ⟨0, by simp⟩
    · rw [List.mem_singleton] at he
      subst he
      simp only
      split_ifs
      · exact ⟨t_out - t_in, rfl⟩
      · exact ⟨t_out - t_in + 1, by rw [div_self hd]⟩

/-- The position of a key is a multiple of `1 / (out - in + 1)` from 0 to below 1, and for a
transition of fewer than `2 ^ 24` frames the code computes the `float` nearest to it. -/
theorem key_position_grid (t_in t_out frame : Int) (hio : t_in ≤ t_out) :
    ∃ m : Int, 0 ≤ m ∧ m < t_out - t_in + 1 ∧
      key_position t_in t_out frame = (m : ℚ) / ((t_out - t_in + 1 : Int) : ℚ) ∧
      (t_out - t_in + 1 < 16777216 →
        key_position_float t_in t_out frame =
          to_float ((m : ℚ) / ((t_out - t_in + 1 : Int) : ℚ))) := by
  have hcast : ∀ m : Int, 0 ≤ m → m < 16777216 → to_float (m : ℚ) = m := by
    intro m h0 h1
    apply to_float_intCast
    have a0 : (0 : ℚ) ≤ (m : ℚ) := by exact_mod_cast h0
    have a1 : (m : ℚ) ≤ 16777215 := by
      have : m ≤ 16777215 := by omega
      exact_mod_cast this
    rw [abs_of_nonneg a0]
    exact a1
  unfold key_position key_position_float
  by_cases h1 : frame ≥ 0 ∧ frame < t_out - t_in
  · refine ⟨frame, h1.1, by omega, ?_, ?_⟩
    · rw [if_pos h1]
    · intro hlen
      rw [if_pos h1, hcast frame h1.1 (by omega), hcast (t_out - t_in + 1) (by omega) hlen]
  · by_cases h2 : frame < 0 ∧ -frame < t_out - t_in
    · refine ⟨t_out - t_in + frame, by omega, by omega, ?_, ?_⟩
      · rw [if_neg h1, if_pos h2]
      · intro hlen
        rw [if_neg h1, if_pos h2, hcast (t_out - t_in + frame) (by omega) (by omega),
          hcast (t_out - t_in + 1) (by omega) hlen]
    · refine ⟨0, le_refl 0, by omega, ?_, ?_⟩
      · rw [if_neg h1, if_neg h2, Int.cast_zero, zero_div]
      · intro _
        rw [if_neg h1, if_neg h2, Int.cast_zero, zero_div, to_float_zero]

/-- For a transition of fewer than `2 ^ 24` frames the position the code computes for a key
is the `float` nearest to the exact quotient, and two such positions compare as the exact
quotients do. -/
theorem key_position_float_order (t_in t_out : Int) (hio : t_in ≤ t_out)
    (hlen : t_out - t_in + 1 < 16777216) (f1 f2 : Int) :
    key_position_float t_in t_out f1 = to_float (key_position t_in t_out f1) ∧
      (key_position_float t_in t_out f2 < key_position_float t_in t_out f1 ↔
        key_position t_in t_out f2 < key_position t_in t_out f1) := by
  obtain ⟨m1, a1, b1, e1, g1⟩ := key_position_grid t_in t_out f1 hio
  obtain ⟨m2, a2, b2, e2, g2⟩ := key_position_grid t_in t_out f2 hio
  rw [g1 hlen, g2 hlen, e1, e2]
  refine ⟨rfl, ?_⟩
  generalize t_out - t_in + 1 = n at hlen b1 b2
  have hN : (0 : ℚ) < (n : ℚ) := by exact_mod_cast (by omega : (0 : Int) < n)
  have hN24 : (n : ℚ) < 2 ^ 24 := by
    have : (n : ℚ) < 16777216 := by exact_mod_cast hlen
    linarith
  have c1 : (0 : ℚ) ≤ (m1 : ℚ) := by exact_mod_cast a1
  have c2 : (0 : ℚ) ≤ (m2 : ℚ) := by exact_mod_cast a2
  have d1 : (m1 : ℚ) ≤ (n : ℚ) := by exact_mod_cast (le_of_lt b1)
  constructor
  · intro hlt
    by_contra hnot
    have hle : (m1 : ℚ) / n ≤ (m2 : ℚ) / n := not_lt.mp hnot
    exact absurd hlt (not_lt.mpr (to_float_mono (div_nonneg c1 (le_of_lt hN)) hle))
  · intro hlt
    have hm : m2 + 1 ≤ m1 := by
      have : (m2 : ℚ) < (m1 : ℚ) := (div_lt_div_iff_of_pos_right hN).mp hlt
      have : m2 < m1 := by exact_mod_cast this
      omega
    have hmq : (m2 : ℚ) + 1 ≤ (m1 : ℚ) := by exact_mod_cast hm
    apply to_float_lt_of_gap _ _ (div_nonneg c2 (le_of_lt hN)) ((div_le_one hN).mpr d1)
    have h1 : (1 : ℚ) / 2 ^ 24 < 1 / (n : ℚ) := one_div_lt_one_div_of_lt hN hN24
    have h2 : ((m2 : ℚ) + 1) / n ≤ (m1 : ℚ) / n := div_le_div_of_nonneg_right hmq (le_of_lt hN)
    have h3 : ((m2 : ℚ) + 1) / n = (m2 : ℚ) / n + 1 / n := by ring
    linarith

/-- The positions of the track stay strictly increasing when each is rounded to `float`, for a
transition of fewer than `2 ^ 24` frames. -/
theorem transition_parse_keys_float_pairwise (props : mlt_properties)
    (t_in t_out nw nh : Int) (hio : t_in ≤ t_out) (hne : t_in < t_out ∨ t_out ≤ 0)
    (hlen : t_out - t_in + 1 < 16777216) :
    List.Pairwise (fun a b : geometry_s => to_float a.position < to_float b.position)
      (transition_parse_keys props t_in t_out nw nh) := by
  have hs := transition_parse_keys_pairwise props t_in t_out nw nh hio hne
  have hg := transition_parse_keys_grid props t_in t_out nw nh hio
  have h1 := transition_parse_keys_position_le_one props t_in t_out nw nh hio
  have h0 : ∀ g ∈ transition_parse_keys props t_in t_out nw nh, 0 ≤ g.position := by
    intro g hgm
    have hstart : ∃ rest, transition_parse_keys props t_in t_out nw nh =
        (geometry_parse calloc_geometry none
          (mlt_properties_get props ['s', 't', 'a', 'r', 't']) nw nh) :: rest := ⟨_, rfl⟩
    obtain ⟨rest, hr⟩ := hstart
    rw [hr] at hs hgm
    rcases List.mem_cons.mp hgm with rfl | hm
    · rw [geometry_parse_position]
      exact le_refl _
    · have := (List.pairwise_cons.mp hs).1 g hm
      rw [geometry_parse_position] at this
      exact le_of_lt this
  have hN : (0 : ℚ) < ((t_out - t_in + 1 : Int) : ℚ) := by
    exact_mod_cast (by omega : 0 < t_out - t_in + 1)
  have hN24 : ((t_out - t_in + 1 : Int) : ℚ) < 16777216 := by exact_mod_cast hlen
  generalize transition_parse_keys props t_in t_out nw nh = track at hs hg h1 h0
  refine List.Pairwise.imp_of_mem ?_ hs
  intro a b ha hb hab
  obtain ⟨ma, hma⟩ := hg a ha
  obtain ⟨mb, hmb⟩ := hg b hb
  apply to_float_lt_of_gap _ _ (h0 a ha) (h1 b hb)
  rw [hma, hmb] at hab ⊢
  have hm : ma < mb := by
    rw [div_lt_div_iff_of_pos_right hN] at hab
    exact_mod_cast hab
  have hm1 : (ma : ℚ) + 1 ≤ (mb : ℚ) := by exact_mod_cast (by omega : ma + 1 ≤ mb)
  have e : (ma : ℚ) / ((t_out - t_in + 1 : Int) : ℚ) + 1 / ((t_out - t_in + 1 : Int) : ℚ) ≤
      (mb : ℚ) / ((t_out - t_in + 1 : Int) : ℚ) := by
    rw [← add_div]
    exact div_le_div_of_nonneg_right hm1 (le_of_lt hN)
  have e2 : (1 : ℚ) / 2 ^ 24 < 1 / ((t_out - t_in + 1 : Int) : ℚ) := by
    apply one_div_lt_one_div_of_lt hN
    have : ((2 : ℚ) ^ 24) = 16777216 := by norm_num
    rw [this]
    exact hN24
  linarith

/-! ## Lemmas on the parser -/

theorem digit_char_isDigit : ∀ d : Fin 10, (digit_char d).isDigit = true := by decide

theorem digit_char_not_space : ∀ d : Fin 10, isspace (digit_char d) = false := by decide

theorem digit_char_ne_sign : ∀ d : Fin 10, digit_char d ≠ '-' ∧ digit_char d ≠ '+' := by
  decide

theorem digit_char_ne_stop :
    ∀ d : Fin 10, digit_char d ≠ '%' ∧ digit_char d ≠ ',' ∧ digit_char d ≠ ':' ∧
      digit_char d ≠ 'x' ∧ digit_char d ≠ ' ' ∧ digit_char d ≠ 'X' := by
  decide

theorem digit_char_digit :
    ∀ d : Fin 10, (if (digit_char d).isDigit then (digit_char d).toNat - 48
      else if (digit_char d).isLower then (digit_char d).toNat - 87
      else (digit_char d).toNat - 55) = d.val := by
  decide

theorem digit_char_eq_zero : ∀ d : Fin 10, digit_char d = '0' → d = 0 := by decide

theorem digits_value_map (ds : List (Fin 10)) :
    digits_value 10 (ds.map digit_char) = decimal_value ds := by
  unfold digits_value decimal_value
  generalize (0 : Nat) = acc
  induction ds generalizing acc with
  | nil => rfl
  | cons d ds ih =>
    simp only [List.map_cons, List.foldl_cons, digit_char_digit]
    exact ih _

theorem stop_char_facts {c : Char} (h : stop_char c) :
    c.isDigit = false ∧ c ≠ '.' ∧ c ≠ 'e' ∧ c ≠ 'E' ∧ c ≠ 'X' := by
  rcases h with h | h | h | h <;> subst h <;> decide

theorem scan_sign_of_ne (c : Char) (r : List Char) (h1 : c ≠ '-') (h2 : c ≠ '+') :
    scan_sign (c :: r) = (false, c :: r) := by
  unfold scan_sign
  split
  · rename_i heq; simp only [List.cons.injEq] at heq; exact absurd heq.1 h1
  · rename_i heq; simp only [List.cons.injEq] at heq; exact absurd heq.1 h2
  · rfl

theorem takeWhile_digits (ds : List (Fin 10)) (rest : List Char)
    (h : ∀ c, rest.head? = some c → c.isDigit = false) :
    (ds.map digit_char ++ rest).takeWhile Char.isDigit = ds.map digit_char ∧
      (ds.map digit_char ++ rest).dropWhile Char.isDigit = rest := by
  have hall : ∀ a ∈ ds.map digit_char, Char.isDigit a = true := by
    intro a ha
    obtain ⟨d, -, rfl⟩ := List.mem_map.mp ha
    exact digit_char_isDigit d
  rw [List.takeWhile_append_of_pos hall, List.dropWhile_append_of_pos hall]
  cases rest with
  | nil => simp
  | cons c r =>
    have hc := h c rfl
    simp [List.takeWhile_cons, List.dropWhile_cons, hc]

theorem scan_exponent_of_stop (m1 m2 : Char) (rest : List Char)
    (h : ∀ c, rest.head? = some c → c ≠ m1 ∧ c ≠ m2) :
    scan_exponent m1 m2 rest = (0, rest) := by
  cases rest with
  | nil => rfl
  | cons c r =>
    have hc := h c rfl
    unfold scan_exponent
    simp [hc.1, hc.2]

theorem strtod_hex_number (d : Fin 10) (ds : List (Fin 10)) (fp : Option (List (Fin 10)))
    (rest : List Char) (hstop : ∀ c, rest.head? = some c → stop_char c)
    (hhex : ¬ (d = 0 ∧ ds = [] ∧ fp = none ∧ rest.head? = some 'x')) :
    strtod_hex (digit_char d :: (ds.map digit_char ++
      (fraction_text fp ++ rest))) = none := by
  unfold strtod_hex
  split
  · rename_i z x r heq
    simp only [List.cons.injEq] at heq
    obtain ⟨hz, hx⟩ := heq
    rw [if_neg]
    rintro ⟨hz0, hx0⟩
    subst hz
    have hd0 : d = 0 := digit_char_eq_zero d hz0
    cases ds with
    | cons e es =>
      simp only [List.map_cons, List.cons_append, List.cons.injEq] at hx
      have := digit_char_ne_stop e
      rcases hx0 with h | h
      · exact this.2.2.2.1 (hx.1.trans h)
      · exact this.2.2.2.2.2 (hx.1.trans h)
    | nil =>
      cases fp with
      | some f =>
        simp only [fraction_text, List.map_nil, List.nil_append, List.cons_append,
          List.cons.injEq] at hx
        rcases hx0 with h | h
        · exact absurd (hx.1.trans h) (by decide)
        · exact absurd (hx.1.trans h) (by decide)
      | none =>
        simp only [fraction_text, List.map_nil, List.nil_append] at hx
        have hhead : rest.head? = some x := by rw [hx]; rfl
        rcases hx0 with h | h
        · exact hhex ⟨hd0, rfl, rfl, by rw [hhead, h]⟩
        · exact (stop_char_facts (hstop x hhead)).2.2.2.2 h
  · rfl

theorem strtod_decimal_number (t : geometry_field) (rest : List Char) (hip : t.ip ≠ [])
    (hstop : ∀ c, rest.head? = some c → stop_char c) :
    strtod_decimal (t.digits_text ++ rest) = some (t.magnitude, rest) := by
  have hrest_digit : ∀ c, rest.head? = some c → c.isDigit = false :=
    fun c hc => (stop_char_facts (hstop c hc)).1
  have hexp : scan_exponent 'e' 'E' rest = (0, rest) :=
    scan_exponent_of_stop 'e' 'E' rest
      (fun c hc =>
        ⟨(stop_char_facts (hstop c hc)).2.2.1, (stop_char_facts (hstop c hc)).2.2.2.1⟩)
  have hne : t.ip.map digit_char ≠ [] := by
    intro h; exact hip (List.map_eq_nil_iff.mp h)
  unfold strtod_decimal geometry_field.digits_text geometry_field.magnitude
  rcases hfp : t.fp with _ | f
  · have htw := takeWhile_digits t.ip rest hrest_digit
    simp only [fraction_text, List.append_nil, htw.1, htw.2]
    have hm : (match rest with
        | '.' :: r => (r.takeWhile Char.isDigit, r.dropWhile Char.isDigit)
        | _ => (([] : List Char), rest)) = ([], rest) := by
      split
      · rename_i r
        exact absurd rfl (stop_char_facts (hstop '.' rfl)).2.1
      · rfl
    rw [hm]
    simp only [hne, false_and, if_false, hexp, List.append_nil, Option.getD_none,
      List.length_nil, digits_value_map]
    simp
  · have htw := takeWhile_digits t.ip ('.' :: (f.map digit_char ++ rest))
      (fun c hc => by
        simp only [List.head?_cons, Option.some.injEq] at hc
        subst hc; decide)
    have htf := takeWhile_digits f rest hrest_digit
    simp only [fraction_text, List.append_assoc, List.cons_append, htw.1, htw.2, htf.1, htf.2]
    simp only [hne, false_and, if_false, hexp, Option.getD_some, List.length_map,
      ← List.map_append, digits_value_map]
    simp [zpow_neg, div_eq_mul_inv]

/-- The library conversion reads the number of a field up to the character that ends it. -/
theorem strtod_number (t : geometry_field) (rest : List Char) (hip : t.ip ≠ [])
    (hstop : ∀ c, rest.head? = some c → stop_char c)
    (hhex : ¬ (t.ip = [0] ∧ t.fp = none ∧ rest.head? = some 'x')) :
    strtod (t.number_text ++ rest) = (t.value, rest) := by
  have hdec := strtod_decimal_number t rest hip hstop
  obtain ⟨d, ds, hds⟩ := List.exists_cons_of_ne_nil hip
  have htext : t.digits_text ++ rest = digit_char d :: (ds.map digit_char ++
      (fraction_text t.fp ++ rest)) := by
    unfold geometry_field.digits_text
    rw [hds]
    simp
  have hhexn := strtod_hex_number d ds t.fp rest hstop
    (by
      rintro ⟨h1, h2, h3, h4⟩
      exact hhex ⟨by rw [hds, h1, h2], h3, h4⟩)
  rw [← htext] at hhexn
  unfold geometry_field.number_text geometry_field.value
  cases t.neg
  · simp only [Bool.false_eq_true, if_false, List.nil_append]
    unfold strtod
    rw [htext, List.dropWhile_cons_of_neg (by simp [digit_char_not_space]),
      scan_sign_of_ne _ _ (digit_char_ne_sign d).1 (digit_char_ne_sign d).2, ← htext]
    simp only [hhexn, hdec, Option.orElse]
    simp
  · simp only [if_true, List.singleton_append, List.cons_append, List.nil_append]
    unfold strtod
    rw [List.dropWhile_cons_of_neg (by decide)]
    have hsign : scan_sign ('-' :: (t.digits_text ++ rest)) = (true, t.digits_text ++ rest) :=
      rfl
    rw [hsign]
    simp only [hhexn, hdec, Option.orElse]
    simp

theorem parse_value_nonempty (s : List Char) (hs : s ≠ []) (normalisation : Int)
    (delim : Char) (defaults : ℚ) :
    parse_value (some s) normalisation delim defaults =
      ((if (strtod s).2.head? = some '%' then ((strtod s).1 / 100) * normalisation
        else (strtod s).1),
        some ((strtod s).2.dropWhile (fun e => e = delim || e = '%'))) := by
  cases s with
  | nil => exact absurd rfl hs
  | cons c cs => rfl

theorem text_head (t : geometry_field) (hip : t.ip ≠ []) (rest : List Char) :
    ∃ c, (t.text ++ rest).head? = some c ∧ (c = '-' ∨ ∃ d : Fin 10, c = digit_char d) := by
  obtain ⟨d, ds, hds⟩ := List.exists_cons_of_ne_nil hip
  unfold geometry_field.text geometry_field.number_text geometry_field.digits_text
  rw [hds]
  cases t.neg
  · exact ⟨digit_char d, by simp, Or.inr ⟨d, rfl⟩⟩
  · exact ⟨'-', by simp, Or.inl rfl⟩

theorem text_ne_nil (t : geometry_field) (hip : t.ip ≠ []) (rest : List Char) :
    t.text ++ rest ≠ [] := by
  obtain ⟨c, hc, -⟩ := text_head t hip rest
  intro h
  rw [h] at hc
  cases hc

/-- A field followed by its delimiter and the next field: `parse_value` returns the value the
field stands for and leaves the cursor at the next field. -/
theorem parse_value_field (t : geometry_field) (normalisation : Int) (delim : Char)
    (defaults : ℚ) (next : List Char) (hip : t.ip ≠ [])
    (hdelim : delim = ',' ∨ delim = ':' ∨ delim = 'x')
    (hnext : ∀ c, next.head? = some c → c ≠ delim ∧ c ≠ '%')
    (hhex : ¬ (t.ip = [0] ∧ t.fp = none ∧ t.percent = false ∧ delim = 'x')) :
    parse_value (some (t.text ++ delim :: next)) normalisation delim defaults =
      (t.resolve normalisation, some next) := by
  have hdstop : stop_char delim := by
    rcases hdelim with h | h | h <;> subst h <;> simp [stop_char]
  have hdp : delim ≠ '%' := by
    rcases hdelim with h | h | h <;> subst h <;> decide
  have hdrop : next.dropWhile (fun e => e = delim || e = '%') = next := by
    cases next with
    | nil => rfl
    | cons c r =>
      have hc := hnext c rfl
      rw [List.dropWhile_cons_of_neg]
      simp [hc.1, hc.2]
  have hne : t.text ++ delim :: next ≠ [] := text_ne_nil t hip _
  rw [parse_value_nonempty _ hne]
  unfold geometry_field.text geometry_field.resolve
  rw [List.append_assoc]
  cases hp : t.percent
  · have hst := strtod_number t (delim :: next) hip
      (by
        intro c hc
        simp only [List.head?_cons, Option.some.injEq] at hc
        subst hc; exact hdstop)
      (by
        rintro ⟨h1, h2, h3⟩
        simp only [List.head?_cons, Option.some.injEq] at h3
        exact hhex ⟨h1, h2, hp, h3⟩)
    simp only [Bool.false_eq_true, if_false, List.nil_append, hst, List.head?_cons,
      Option.some.injEq, hdp]
    rw [List.dropWhile_cons_of_pos (by simp), hdrop]
  · have hst := strtod_number t ('%' :: delim :: next) hip
      (by
        intro c hc
        simp only [List.head?_cons, Option.some.injEq] at hc
        subst hc; simp [stop_char])
      (by
        rintro ⟨-, -, h3⟩
        simp only [List.head?_cons, Option.some.injEq] at h3
        exact absurd h3 (by decide))
    simp only [if_true, List.singleton_append, hst, List.head?_cons]
    rw [List.dropWhile_cons_of_pos (by simp), List.dropWhile_cons_of_pos (by simp), hdrop]

/-- The last field of the string: `parse_value` returns the value the field stands for and
leaves the cursor at the end of the string. -/
theorem parse_value_field_end (t : geometry_field) (normalisation : Int) (delim : Char)
    (defaults : ℚ) (hip : t.ip ≠ []) :
    parse_value (some t.text) normalisation delim defaults =
      (t.resolve normalisation, some []) := by
  have hne : t.text ≠ [] := by
    have := text_ne_nil t hip []
    rwa [List.append_nil] at this
  rw [parse_value_nonempty _ hne]
  unfold geometry_field.text geometry_field.resolve
  cases hp : t.percent
  · have hst := strtod_number t [] hip (by intro c hc; cases hc)
      (by rintro ⟨-, -, h3⟩; cases h3)
    rw [List.append_nil] at hst
    simp only [Bool.false_eq_true, if_false, List.append_nil, hst, List.head?_nil,
      List.dropWhile_nil]
    simp
  · have hst := strtod_number t ['%'] hip
      (by
        intro c hc
        simp only [List.head?_cons, Option.some.injEq] at hc
        subst hc; simp [stop_char])
      (by
        rintro ⟨-, -, h3⟩
        simp only [List.head?_cons, Option.some.injEq] at h3
        exact absurd h3 (by decide))
    simp only [if_true, hst, List.head?_cons]
    rw [List.dropWhile_cons_of_pos (by simp), List.dropWhile_nil]

theorem geometry_parse_nonempty (g : geometry_s) (d : Option geometry_s) (s : List Char)
    (hs : s ≠ []) (nw nh : Int) (dx dy dw dh dm : ℚ)
    (hd : d.elim (g.x, g.y, g.w, g.h, (100 : ℚ))
      (fun e => (e.x, e.y, (to_int e.w : ℚ), (to_int e.h : ℚ), e.mix)) = (dx, dy, dw, dh, dm)) :
    (geometry_parse g d (some s) nw nh).x = (parse_value (some s) nw ',' dx).1 ∧
    (geometry_parse g d (some s) nw nh).y =
      (parse_value (parse_value (some s) nw ',' dx).2 nh ':' dy).1 ∧
    (geometry_parse g d (some s) nw nh).w =
      (to_int (parse_value (parse_value (parse_value (some s) nw ',' dx).2 nh ':' dy).2
        nw 'x' dw).1 : ℚ) ∧
    (geometry_parse g d (some s) nw nh).h =
      (to_int (parse_value (parse_value (parse_value (parse_value (some s) nw ',' dx).2
        nh ':' dy).2 nw 'x' dw).2 nh ':' dh).1 : ℚ) ∧
    (geometry_parse g d (some s) nw nh).mix =
      (parse_value (parse_value (parse_value (parse_value (parse_value (some s)
        nw ',' dx).2 nh ':' dy).2 nw 'x' dw).2 nh ':' dh).2 100 ' ' dm).1 := by
  cases s with
  | nil => exact absurd rfl hs
  | cons c cs =>
    cases d with
    | none =>
      simp only [Option.elim, Prod.mk.injEq] at hd
      obtain ⟨rfl, rfl, rfl, rfl, rfl⟩ := hd
      exact ⟨rfl, rfl, rfl, rfl, rfl⟩
    | some e =>
      simp only [Option.elim, Prod.mk.injEq] at hd
      obtain ⟨rfl, rfl, rfl, rfl, rfl⟩ := hd
      exact ⟨rfl, rfl, rfl, rfl, rfl⟩

/-- The next field starts with a digit, which is neither a delimiter nor a percent sign. -/
theorem text_head_ne_delim (t : geometry_field) (ht : t.ip ≠ []) (rest : List Char)
    (delim : Char) (hdelim : delim = ',' ∨ delim = ':' ∨ delim = 'x') :
    ∀ c, (t.text ++ rest).head? = some c → c ≠ delim ∧ c ≠ '%' := by
  intro c hc
  obtain ⟨e, he, hcase⟩ := text_head t ht rest
  rw [he] at hc
  simp only [Option.some.injEq] at hc
  subst hc
  rcases hcase with rfl | ⟨d, rfl⟩
  · rcases hdelim with h | h | h <;> subst h <;> decide
  · have := digit_char_ne_stop d
    refine ⟨?_, this.1⟩
    rcases hdelim with h | h | h <;> subst h
    · exact this.2.1
    · exact this.2.2.1
    · exact this.2.2.2.1

theorem strtod_no_conversion (c : Char) (rest : List Char) (hc : no_conversion_char c) :
    strtod (c :: rest) = (0, c :: rest) := by
  obtain ⟨hsp, hdig, hplus, hminus, hdot, -⟩ := hc
  have hhex : strtod_hex (c :: rest) = none := by
    unfold strtod_hex
    split
    · rename_i z x r heq
      simp only [List.cons.injEq] at heq
      rw [if_neg]
      rintro ⟨hz, -⟩
      rw [heq.1, hz] at hdig
      exact absurd hdig (by decide)
    · rfl
  have hdec : strtod_decimal (c :: rest) = none := by
    unfold strtod_decimal
    rw [List.takeWhile_cons_of_neg (by simp [hdig]), List.dropWhile_cons_of_neg (by simp [hdig])]
    have hm : (match c :: rest with
        | '.' :: r => (r.takeWhile Char.isDigit, r.dropWhile Char.isDigit)
        | _ => (([] : List Char), c :: rest)) = ([], c :: rest) := by
      split
      · rename_i r heq
        simp only [List.cons.injEq] at heq
        exact absurd heq.1 hdot
      · rfl
    simp only [hm]
    simp
  unfold strtod
  rw [List.dropWhile_cons_of_neg (by simp [hsp]), scan_sign_of_ne _ _ hminus hplus]
  simp only [hhex, hdec, Option.orElse]

theorem parse_value_cursor (ptr : Option (List Char)) (normalisation : Int) (delim : Char)
    (defaults : ℚ) :
    (parse_value ptr normalisation delim defaults).2 =
      (parse_value ptr normalisation delim 0).2 := by
  rcases ptr with _ | _ | ⟨c, cs⟩ <;> rfl

theorem to_int_intCast (n : Int) : to_int (n : ℚ) = n := by
  unfold to_int
  split_ifs <;> simp

/-- Once the cursor is at the end of the string, every later field keeps its default. -/
theorem geometry_parse_rest_default (g : geometry_s) (d : Option geometry_s) (s : List Char)
    (nw nh : Int) (dx dy dw dh dm : ℚ)
    (hd : d.elim (g.x, g.y, g.w, g.h, (100 : ℚ))
      (fun e => (e.x, e.y, (to_int e.w : ℚ), (to_int e.h : ℚ), e.mix)) = (dx, dy, dw, dh, dm))
    (hdw : (to_int dw : ℚ) = dw) (hdh : (to_int dh : ℚ) = dh)
    (k : Nat) (hk : k < 5) (hend : geometry_cursor s nw nh k = some []) :
    (k ≤ 0 → (geometry_parse g d (some s) nw nh).x = dx) ∧
    (k ≤ 1 → (geometry_parse g d (some s) nw nh).y = dy) ∧
    (k ≤ 2 → (geometry_parse g d (some s) nw nh).w = dw) ∧
    (k ≤ 3 → (geometry_parse g d (some s) nw nh).h = dh) ∧
    (geometry_parse g d (some s) nw nh).mix = dm := by
  cases s with
  | nil =>
    cases d with
    | none =>
      simp only [Option.elim, Prod.mk.injEq] at hd
      obtain ⟨rfl, rfl, rfl, rfl, rfl⟩ := hd
      exact ⟨fun _ => rfl, fun _ => rfl, fun _ => rfl, fun _ => rfl, rfl⟩
    | some e =>
      simp only [Option.elim, Prod.mk.injEq] at hd
      obtain ⟨rfl, rfl, rfl, rfl, rfl⟩ := hd
      exact ⟨fun _ => rfl, fun _ => rfl, fun _ => rfl, fun _ => rfl, rfl⟩
  | cons c cs =>
    obtain ⟨fx, fy, fw, fh, fm⟩ :=
      geometry_parse_nonempty g d (c :: cs) (List.cons_ne_nil c cs) nw nh dx dy dw dh dm hd
    have c1 : (parse_value (some (c :: cs)) nw ',' dx).2 = geometry_cursor (c :: cs) nw nh 1 :=
      parse_value_cursor _ _ _ _
    rw [c1] at fy fw fh fm
    have c2 : (parse_value (geometry_cursor (c :: cs) nw nh 1) nh ':' dy).2 =
        geometry_cursor (c :: cs) nw nh 2 := parse_value_cursor _ _ _ _
    rw [c2] at fw fh fm
    have c3 : (parse_value (geometry_cursor (c :: cs) nw nh 2) nw 'x' dw).2 =
        geometry_cursor (c :: cs) nw nh 3 := parse_value_cursor _ _ _ _
    rw [c3] at fh fm
    have c4 : (parse_value (geometry_cursor (c :: cs) nw nh 3) nh ':' dh).2 =
        geometry_cursor (c :: cs) nw nh 4 := parse_value_cursor _ _ _ _
    rw [c4] at fm
    have hstep : ∀ j, geometry_cursor (c :: cs) nw nh j = some [] →
        geometry_cursor (c :: cs) nw nh (j + 1) = some [] := by
      intro j hj
      rw [geometry_cursor, hj]
      rfl
    have hpe : ∀ (n : Int) (dl : Char) (df : ℚ), (parse_value (some []) n dl df).1 = df :=
      fun _ _ _ => rfl
    interval_cases k
    · exact absurd hend (by simp [geometry_cursor])
    · have e2 := hstep 1 hend
      have e3 := hstep 2 e2
      have e4 := hstep 3 e3
      rw [hend, hpe] at fy
      rw [e2, hpe, hdw] at fw
      rw [e3, hpe, hdh] at fh
      rw [e4, hpe] at fm
      exact ⟨fun h => absurd h (by decide), fun _ => fy, fun _ => fw, fun _ => fh, fm⟩
    · have e3 := hstep 2 hend
      have e4 := hstep 3 e3
      rw [hend, hpe, hdw] at fw
      rw [e3, hpe, hdh] at fh
      rw [e4, hpe] at fm
      exact ⟨fun h => absurd h (by decide), fun h => absurd h (by decide), fun _ => fw,
        fun _ => fh, fm⟩
    · have e4 := hstep 3 hend
      rw [hend, hpe, hdh] at fh
      rw [e4, hpe] at fm
      exact ⟨fun h => absurd h (by decide), fun h => absurd h (by decide),
        fun h => absurd h (by decide), fun _ => fh, fm⟩
    · rw [hend, hpe] at fm
      exact ⟨fun h => absurd h (by decide), fun h => absurd h (by decide),
        fun h => absurd h (by decide), fun h => absurd h (by decide), fm⟩

/-- With a null or an empty property `geometry_parse` leaves the defaults in place. -/
theorem geometry_parse_empty (g : geometry_s) (d : Option geometry_s)
    (property : Option (List Char)) (nw nh : Int)
    (hp : property = none ∨ property = some []) :
    geometry_parse g d property nw nh =
      match d with
      | some e =>
        { g with
          nw := nw, nh := nh, x := e.x, y := e.y, sw := to_int e.w, w := (to_int e.w : ℚ),
          sh := to_int e.h, h := (to_int e.h : ℚ), mix := e.mix }
      | none => { g with nw := nw, nh := nh, mix := 100 } := by
  rcases hp with rfl | rfl <;> cases d <;> rfl

/-- The width and height `geometry_parse` stores are whole numbers, when the keyframe that is
filled in had whole ones. -/
theorem geometry_parse_whole (g : geometry_s) (d : Option geometry_s)
    (property : Option (List Char)) (nw nh : Int)
    (hw : (to_int g.w : ℚ) = g.w) (hh : (to_int g.h : ℚ) = g.h) :
    (to_int (geometry_parse g d property nw nh).w : ℚ) = (geometry_parse g d property nw nh).w ∧
    (to_int (geometry_parse g d property nw nh).h : ℚ) =
      (geometry_parse g d property nw nh).h := by
  rcases property with _ | _ | ⟨c, cs⟩ <;> cases d <;>
    simp only [geometry_parse, to_int_intCast, hw, hh, and_self]

theorem calloc_geometry_whole :
    (to_int calloc_geometry.w : ℚ) = calloc_geometry.w ∧
      (to_int calloc_geometry.h : ℚ) = calloc_geometry.h := by
  have h := to_int_intCast 0
  simp only [Int.cast_zero] at h
  exact ⟨by rw [show calloc_geometry.w = 0 from rfl, h]; simp,
    by rw [show calloc_geometry.h = 0 from rfl, h]; simp⟩

theorem parse_keys_loop_whole (t_in t_out nw nh : Int) :
    ∀ (props : mlt_properties) (ptr : geometry_s),
      ∀ k ∈ (parse_keys_loop t_in t_out nw nh props ptr).1,
        (to_int k.w : ℚ) = k.w ∧ (to_int k.h : ℚ) = k.h
  | [], ptr => by simp [parse_keys_loop]
  | (name, value) :: rest, ptr => by
    rw [parse_keys_loop]
    simp only
    split_ifs with hname hpos
    · intro k hk
      rcases List.mem_cons.mp hk with rfl | hk'
      · exact geometry_parse_whole calloc_geometry (some ptr) value nw nh
          calloc_geometry_whole.1 calloc_geometry_whole.2
      · exact parse_keys_loop_whole t_in t_out nw nh rest _ k hk'
    · exact parse_keys_loop_whole t_in t_out nw nh rest ptr
    · exact parse_keys_loop_whole t_in t_out nw nh rest ptr

/-- Every keyframe of a track has a whole width and height. -/
theorem transition_parse_keys_whole (props : mlt_properties) (t_in t_out nw nh : Int) :
    ∀ k ∈ transition_parse_keys props t_in t_out nw nh,
      (to_int k.w : ℚ) = k.w ∧ (to_int k.h : ℚ) = k.h := by
  intro k hk
  unfold transition_parse_keys at hk
  simp only at hk
  rcases List.mem_cons.mp hk with rfl | hk'
  · exact geometry_parse_whole calloc_geometry none _ nw nh
      calloc_geometry_whole.1 calloc_geometry_whole.2
  · rcases List.mem_append.mp hk' with hl | he
    · exact parse_keys_loop_whole t_in t_out nw nh props _ k hl
    · rw [List.mem_singleton] at he
      subst he
      exact geometry_parse_whole calloc_geometry (some _) _ nw nh
        calloc_geometry_whole.1 calloc_geometry_whole.2

/-- What `affine_multiply` computes, entry by entry: the product of `this` with the transpose
of `that`. -/
theorem affine_multiply_apply (this that : affine_matrix) (i j : Fin 3) :
    affine_multiply this that i j = ∑ k : Fin 3, this i k * that j k := by
  simp [affine_multiply, Fin.sum_univ_three]

theorem affine_multiply_init (this : affine_matrix) :
    affine_multiply this affine_init = this := by
  funext i j
  fin_cases j <;> simp [affine_multiply, affine_init, mat3]

theorem to_int_zero : to_int 0 = 0 := by
  have h := to_int_intCast 0
  simpa using h

/-- With every angle zero and no offset the matrix before scaling is the identity. -/
theorem transition_matrix_unscaled_identity (m : math_lib) (a : affine_params)
    (position t_in : Int)
    (hcos : m.cos_deg 0 = 1) (hsin : m.sin_deg 0 = 0) (htan : m.tan_deg 0 = 0)
    (hrx : a.fix_rotate_x + a.rotate_x * ((position - t_in : Int) : ℚ) = 0)
    (hry : a.fix_rotate_y + a.rotate_y * ((position - t_in : Int) : ℚ) = 0)
    (hrz : a.fix_rotate_z + a.rotate_z * ((position - t_in : Int) : ℚ) = 0)
    (hsx : a.fix_shear_x + a.shear_x * ((position - t_in : Int) : ℚ) = 0)
    (hsy : a.fix_shear_y + a.shear_y * ((position - t_in : Int) : ℚ) = 0)
    (hsz : a.fix_shear_z + a.shear_z * ((position - t_in : Int) : ℚ) = 0)
    (hox : a.ox = 0) (hoy : a.oy = 0) :
    transition_matrix_unscaled m a position t_in = affine_init := by
  have hid : mat3 1 0 0 0 1 0 0 0 1 = affine_init := rfl
  unfold transition_matrix_unscaled
  simp only [hrx, hry, hrz, hsx, hsy, hsz, hox, hoy, to_int_zero]
  unfold affine_rotate affine_rotate_y affine_rotate_z affine_shear
  simp only [hcos, hsin, htan, sub_zero, neg_zero, hid, affine_multiply_init]
  funext i j
  fin_cases i <;> fin_cases j <;> simp [affine_offset, affine_init, mat3]

/-- The matrix of a half turn about the third axis, every other angle zero and no offset. -/
theorem transition_matrix_unscaled_half_turn (m : math_lib) (a : affine_params)
    (position t_in : Int)
    (hcos : m.cos_deg 0 = 1) (hsin : m.sin_deg 0 = 0) (htan : m.tan_deg 0 = 0)
    (hcos180 : m.cos_deg 180 = -1) (hsin180 : m.sin_deg 180 = 0)
    (hrx : a.fix_rotate_x + a.rotate_x * ((position - t_in : Int) : ℚ) = 0)
    (hry : a.fix_rotate_y + a.rotate_y * ((position - t_in : Int) : ℚ) = 0)
    (hrz : a.fix_rotate_z + a.rotate_z * ((position - t_in : Int) : ℚ) = 180)
    (hsx : a.fix_shear_x + a.shear_x * ((position - t_in : Int) : ℚ) = 0)
    (hsy : a.fix_shear_y + a.shear_y * ((position - t_in : Int) : ℚ) = 0)
    (hsz : a.fix_shear_z + a.shear_z * ((position - t_in : Int) : ℚ) = 0)
    (hox : a.ox = 0) (hoy : a.oy = 0) :
    transition_matrix_unscaled m a position t_in =
      mat3 1 0 0
           0 (-1) 0
           0 0 (-1) := by
  have hid : mat3 1 0 0 0 1 0 0 0 1 = affine_init := rfl
  unfold transition_matrix_unscaled
  simp only [hrx, hry, hrz, hsx, hsy, hsz, hox, hoy, to_int_zero]
  unfold affine_rotate affine_rotate_y affine_rotate_z affine_shear
  simp only [hcos, hsin, htan, hcos180, hsin180, sub_zero, neg_zero, hid, affine_multiply_init]
  funext i j
  fin_cases i <;> fin_cases j <;> simp [affine_offset, affine_init, affine_multiply, mat3]

/-- The scale factors of `affine_max_output` for the matrix of a half turn about the third
axis: the bounding box of the corners has the extent 1440 by 1152, to which the code adds
one. -/
theorem affine_max_output_half_turn :
    affine_max_output (mat3 1 0 0 0 (-1) 0 0 0 (-1)) = (1441 / 1440, 1153 / 1152) := by
  decide!

/-- The scale factors for a pure rotation of 180 degrees about the third axis, for every
library whose values at 0 and 180 degrees are the exact ones. -/
theorem affine_max_output_half_turn_of_exact (m : math_lib) (a : affine_params)
    (position t_in : Int)
    (hcos : m.cos_deg 0 = 1) (hsin : m.sin_deg 0 = 0) (htan : m.tan_deg 0 = 0)
    (hcos180 : m.cos_deg 180 = -1) (hsin180 : m.sin_deg 180 = 0)
    (hrx : a.fix_rotate_x + a.rotate_x * ((position - t_in : Int) : ℚ) = 0)
    (hry : a.fix_rotate_y + a.rotate_y * ((position - t_in : Int) : ℚ) = 0)
    (hrz : a.fix_rotate_z + a.rotate_z * ((position - t_in : Int) : ℚ) = 180)
    (hsx : a.fix_shear_x + a.shear_x * ((position - t_in : Int) : ℚ) = 0)
    (hsy : a.fix_shear_y + a.shear_y * ((position - t_in : Int) : ℚ) = 0)
    (hsz : a.fix_shear_z + a.shear_z * ((position - t_in : Int) : ℚ) = 0)
    (hox : a.ox = 0) (hoy : a.oy = 0) :
    affine_max_output (transition_matrix_unscaled m a position t_in) =
      (1441 / 1440, 1153 / 1152) := by
  rw [transition_matrix_unscaled_half_turn m a position t_in hcos hsin htan hcos180 hsin180
    hrx hry hrz hsx hsy hsz hox hoy]
  exact affine_max_output_half_turn

/-! ## Lemmas on the pixel loop -/

/-- The model `low_bit` of `v & 1` agrees with the bitwise conjunction of two's complement
integers, also for a negative `v`. -/
theorem low_bit_eq_land (v : Int) : low_bit v = Int.land v 1 := by
  unfold low_bit
  symm
  cases v with
  | ofNat n =>
    show ((Nat.land n 1 : Nat) : Int) = (n : Int) % 2
    have h : Nat.land n 1 = n % 2 := Nat.and_one_is_mod n
    rw [h]
    norm_cast
  | negSucc m =>
    show ((Nat.ldiff 1 m : Nat) : Int) = Int.negSucc m % 2
    have h : Nat.ldiff 1 m = (m + 1) % 2 := by
      apply Nat.eq_of_testBit_eq
      intro i
      rw [Nat.testBit_ldiff]
      cases i with
      | zero =>
        simp [Nat.testBit_zero]
        rcases Nat.mod_two_eq_zero_or_one m with h | h <;>
          simp [h, Nat.succ_mod_two_eq_one_iff, Nat.succ_mod_two_eq_zero_iff]
      | succ i =>
        have h1 : Nat.testBit 1 (i + 1) = false := by
          rw [Nat.testBit_succ]
          simp
        have h2 : Nat.testBit ((m + 1) % 2) (i + 1) = false := by
          rw [Nat.testBit_succ]
          have h0 : (m + 1) % 2 / 2 = 0 := by omega
          rw [h0]
          simp
        rw [h1, h2]
        simp
    rw [h, Int.negSucc_eq]
    omega

/-- One iteration of the inner loop rewrites the two bytes under `p` and the mask entry
under `pmask`, and moves the cursors on. -/
theorem pixel_step_eq (e : pixel_env) (x y : Int) (s : pixel_state) :
    pixel_step e x y s =
      { image := Function.update
          (Function.update s.image s.p (pixel_luma e x y (s.image s.p)))
          (s.p + 1) (pixel_chroma e x y (s.image (s.p + 1)))
        mask := Function.update s.mask s.pmask (pixel_cover e x y (s.mask s.pmask))
        p := s.p + 2
        pmask := s.pmask + 1 } := by
  have hne : s.p + 1 ≠ s.p := by omega
  unfold pixel_step pixel_luma pixel_chroma pixel_cover
  by_cases hb : in_bounds e (sample_dx e x y) (sample_dy e x y)
  · simp only [hb, if_true]
    cases e.alpha with
    | none => rfl
    | some alpha =>
      simp only [Function.update_noteq hne]
  · simp only [hb, if_false, Function.update_eq_self]

theorem pixel_step_cursors (e : pixel_env) (x y : Int) (s : pixel_state) :
    (pixel_step e x y s).p = s.p + 2 ∧ (pixel_step e x y s).pmask = s.pmask + 1 := by
  rw [pixel_step_eq]
  exact ⟨rfl, rfl⟩

theorem pixel_step_image (e : pixel_env) (x y : Int) (s : pixel_state) (i : Int) :
    (pixel_step e x y s).image i =
      if i = s.p + 1 then pixel_chroma e x y (s.image (s.p + 1))
      else if i = s.p then pixel_luma e x y (s.image s.p)
      else s.image i := by
  rw [pixel_step_eq]
  simp only [Function.update_apply]

theorem pixel_step_mask (e : pixel_env) (x y : Int) (s : pixel_state) (j : Int) :
    (pixel_step e x y s).mask j =
      if j = s.pmask then pixel_cover e x y (s.mask s.pmask) else s.mask j := by
  rw [pixel_step_eq]
  simp only [Function.update_apply]

/-- The inner loop: the cursors after `n` iterations, the bytes it leaves alone and the bytes
of the pixel in column `c`. -/
theorem row_loop_spec (e : pixel_env) (y : Int) :
    ∀ (n : Nat) (x : Int) (s : pixel_state),
      (row_loop e y n x s).p = s.p + 2 * n ∧
      (row_loop e y n x s).pmask = s.pmask + n ∧
      (∀ i : Int, i < s.p ∨ s.p + 2 * n ≤ i → (row_loop e y n x s).image i = s.image i) ∧
      (∀ j : Int, j < s.pmask ∨ s.pmask + n ≤ j →
        (row_loop e y n x s).mask j = s.mask j) ∧
      (∀ c : Nat, c < n →
        (row_loop e y n x s).image (s.p + 2 * c) =
          pixel_luma e (x + c) y (s.image (s.p + 2 * c)) ∧
        (row_loop e y n x s).image (s.p + 2 * c + 1) =
          pixel_chroma e (x + c) y (s.image (s.p + 2 * c + 1)) ∧
        (row_loop e y n x s).mask (s.pmask + c) =
          pixel_cover e (x + c) y (s.mask (s.pmask + c)))
  | 0, x, s => by
    refine ⟨by simp [row_loop], by simp [row_loop], fun _ _ => rfl, fun _ _ => rfl, ?_⟩
    intro c hc
    exact absurd hc (Nat.not_lt_zero c)
  | n + 1, x, s => by
    obtain ⟨ihp, ihm, ihi, ihk, ihc⟩ := row_loop_spec e y n (x + 1) (pixel_step e x y s)
    obtain ⟨hp, hm⟩ := pixel_step_cursors e x y s
    rw [hp] at ihp ihi ihc
    rw [hm] at ihm ihk ihc
    simp only [row_loop]
    refine ⟨?_, ?_, ?_, ?_, ?_⟩
    · rw [ihp]; push_cast; ring
    · rw [ihm]; push_cast; ring
    · intro i hi
      rw [ihi i (by push_cast at hi; omega), pixel_step_image]
      rw [if_neg (by push_cast at hi; omega), if_neg (by push_cast at hi; omega)]
    · intro j hj
      rw [ihk j (by push_cast at hj; omega), pixel_step_mask]
      rw [if_neg (by push_cast at hj; omega)]
    · intro c hc
      cases c with
      | zero =>
        simp only [Nat.cast_zero, mul_zero, add_zero]
        refine ⟨?_, ?_, ?_⟩
        · rw [ihi _ (Or.inl (by omega)), pixel_step_image, if_neg (by omega), if_pos rfl]
        · rw [ihi _ (Or.inl (by omega)), pixel_step_image, if_pos rfl]
        · rw [ihk _ (Or.inl (by omega)), pixel_step_mask, if_pos rfl]
      | succ c' =>
        obtain ⟨h0, h1, h2⟩ := ihc c' (by omega)
        have e0 : s.p + 2 * ((c' + 1 : Nat) : Int) = s.p + 2 + 2 * (c' : Int) := by
          push_cast; ring
        have e1 : s.pmask + ((c' + 1 : Nat) : Int) = s.pmask + 1 + (c' : Int) := by
          push_cast; ring
        have ex : x + ((c' + 1 : Nat) : Int) = x + 1 + (c' : Int) := by
          push_cast; ring
        rw [e0, e1, ex, h0, h1, h2, pixel_step_image, pixel_step_image, pixel_step_mask]
        rw [if_neg (by omega), if_neg (by omega), if_neg (by omega), if_neg (by omega),
          if_neg (by omega)]
        exact ⟨rfl, rfl, rfl⟩

/-- The outer loop and the mask: the cursor after `R` rows, the entries before the cursor,
which stay as they are, and the entry of the pixel in row `r` and column `c`. -/
theorem image_loop_mask (e : pixel_env) :
    ∀ (R : Nat) (y q : Int) (s : pixel_state),
      (image_loop e R y q s).pmask = s.pmask + R * ((e.upper_x - e.lower_x).toNat : Int) ∧
      (∀ j : Int, j < s.pmask → (image_loop e R y q s).mask j = s.mask j) ∧
      (∀ r c : Nat, r < R → c < (e.upper_x - e.lower_x).toNat →
        (image_loop e R y q s).mask
            (s.pmask + r * ((e.upper_x - e.lower_x).toNat : Int) + c) =
          pixel_cover e (e.lower_x + c) (y + r)
            (s.mask (s.pmask + r * ((e.upper_x - e.lower_x).toNat : Int) + c)))
  | 0, y, q, s => by
    refine ⟨by simp [image_loop], fun _ _ => rfl, ?_⟩
    intro r c hr
    exact absurd hr (Nat.not_lt_zero r)
  | R + 1, y, q, s => by
    obtain ⟨-, rm, -, rk, rc⟩ :=
      row_loop_spec e y (e.upper_x - e.lower_x).toNat e.lower_x { s with p := q }
    obtain ⟨ihm, ihk, ihc⟩ := image_loop_mask e R (y + 1) (q + e.a_stride)
      (row_loop e y (e.upper_x - e.lower_x).toNat e.lower_x { s with p := q })
    simp only at rm rk rc
    rw [rm] at ihm ihk ihc
    simp only [image_loop]
    refine ⟨?_, ?_, ?_⟩
    · rw [ihm]; push_cast; ring
    · intro j hj
      rw [ihk j (by omega), rk j (Or.inl hj)]
    · intro r c hr hc
      cases r with
      | zero =>
        simp only [Nat.cast_zero, zero_mul, add_zero]
        rw [ihk _ (by omega)]
        exact (rc c hc).2.2
      | succ r' =>
        have hnn : (0 : Int) ≤ (r' : Int) * ((e.upper_x - e.lower_x).toNat : Int) := by
          positivity
        have e0 : s.pmask + ((r' + 1 : Nat) : Int) * ((e.upper_x - e.lower_x).toNat : Int) + c =
            s.pmask + ((e.upper_x - e.lower_x).toNat : Int) +
              (r' : Int) * ((e.upper_x - e.lower_x).toNat : Int) + c := by
          push_cast; ring
        have ey : y + ((r' + 1 : Nat) : Int) = y + 1 + (r' : Int) := by
          push_cast; ring
        rw [e0, ey, ihc r' c (by omega) hc, rk _ (Or.inr (by omega))]

/-- The outer loop and the primary image, when a row of pixels is not longer than the stride:
the bytes before the row pointer stay as they are, and the two bytes of the pixel in row `r`
and column `c` are rewritten once, by the iteration of that pixel. -/
theorem image_loop_image (e : pixel_env)
    (hn : 2 * ((e.upper_x - e.lower_x).toNat : Int) ≤ e.a_stride) :
    ∀ (R : Nat) (y q : Int) (s : pixel_state),
      (∀ i : Int, i < q → (image_loop e R y q s).image i = s.image i) ∧
      (∀ r c : Nat, r < R → c < (e.upper_x - e.lower_x).toNat →
        (image_loop e R y q s).image (q + r * e.a_stride + 2 * c) =
          pixel_luma e (e.lower_x + c) (y + r) (s.image (q + r * e.a_stride + 2 * c)) ∧
        (image_loop e R y q s).image (q + r * e.a_stride + 2 * c + 1) =
          pixel_chroma e (e.lower_x + c) (y + r)
            (s.image (q + r * e.a_stride + 2 * c + 1)))
  | 0, y, q, s => by
    refine ⟨fun _ _ => rfl, ?_⟩
    intro r c hr
    exact absurd hr (Nat.not_lt_zero r)
  | R + 1, y, q, s => by
    obtain ⟨-, -, ri, -, rc⟩ :=
      row_loop_spec e y (e.upper_x - e.lower_x).toNat e.lower_x { s with p := q }
    obtain ⟨ihi, ihc⟩ := image_loop_image e hn R (y + 1) (q + e.a_stride)
      (row_loop e y (e.upper_x - e.lower_x).toNat e.lower_x { s with p := q })
    simp only at ri rc
    have hs : (0 : Int) ≤ e.a_stride := by omega
    simp only [image_loop]
    refine ⟨?_, ?_⟩
    · intro i hi
      rw [ihi i (by omega), ri i (Or.inl hi)]
    · intro r c hr hc
      cases r with
      | zero =>
        simp only [Nat.cast_zero, zero_mul, add_zero]
        rw [ihi _ (by omega), ihi _ (by omega)]
        exact ⟨(rc c hc).1, (rc c hc).2.1⟩
      | succ r' =>
        have hnn : (0 : Int) ≤ (r' : Int) * e.a_stride := by positivity
        have e0 : q + ((r' + 1 : Nat) : Int) * e.a_stride + 2 * (c : Int) =
            q + e.a_stride + (r' : Int) * e.a_stride + 2 * c := by
          push_cast; ring
        have ey : y + ((r' + 1 : Nat) : Int) = y + 1 + (r' : Int) := by
          push_cast; ring
        obtain ⟨h0, h1⟩ := ihc r' c (by omega) hc
        rw [e0, ey, h0, h1, ri _ (Or.inr (by omega)), ri _ (Or.inr (by omega))]
        exact ⟨rfl, rfl⟩

/-- The two loops from their start: the mask entry and, when a row of pixels is not longer
than the stride, the two bytes of the pixel in row `r` and column `c`. -/
theorem pixel_loop_pixel (e : pixel_env) (image mask : Int → byte) (r c : Nat)
    (hr : r < (e.upper_y - e.lower_y).toNat) (hc : c < (e.upper_x - e.lower_x).toNat) :
    (pixel_loop e image mask).mask (r * ((e.upper_x - e.lower_x).toNat : Int) + c) =
      pixel_cover e (e.lower_x + c) (e.lower_y + r)
        (mask (r * ((e.upper_x - e.lower_x).toNat : Int) + c)) ∧
    (2 * ((e.upper_x - e.lower_x).toNat : Int) ≤ e.a_stride →
      (pixel_loop e image mask).image (r * e.a_stride + 2 * c) =
        pixel_luma e (e.lower_x + c) (e.lower_y + r) (image (r * e.a_stride + 2 * c)) ∧
      (pixel_loop e image mask).image (r * e.a_stride + 2 * c + 1) =
        pixel_chroma e (e.lower_x + c) (e.lower_y + r)
          (image (r * e.a_stride + 2 * c + 1))) := by
  unfold pixel_loop
  constructor
  · have h := (image_loop_mask e (e.upper_y - e.lower_y).toNat e.lower_y 0
      { image := image, mask := mask, p := 0, pmask := 0 }).2.2 r c hr hc
    simpa using h
  · intro hn
    have h := (image_loop_image e hn (e.upper_y - e.lower_y).toNat e.lower_y 0
      { image := image, mask := mask, p := 0, pmask := 0 }).2 r c hr hc
    simpa using h

theorem to_uint8_between (v : ℚ) (lo hi : Nat) (h1 : (lo : ℚ) ≤ v) (h2 : v ≤ (hi : ℚ))
    (h3 : hi ≤ 255) : lo ≤ (to_uint8 v).val ∧ (to_uint8 v).val ≤ hi := by
  have hv : (0 : ℚ) ≤ v := le_trans (Nat.cast_nonneg lo) h1
  have hfl : to_int v = ⌊v⌋ := by
    unfold to_int
    rw [if_pos hv]
  have hlo : (lo : Int) ≤ ⌊v⌋ := Int.le_floor.mpr (by exact_mod_cast h1)
  have hhi : ⌊v⌋ ≤ (hi : Int) := by
    have : ((⌊v⌋ : Int) : ℚ) ≤ ((hi : Int) : ℚ) :=
      le_trans (Int.floor_le v) (by exact_mod_cast h2)
    exact_mod_cast this
  have hval : (to_uint8 v).val = (⌊v⌋).toNat % 256 := by
    unfold to_uint8
    rw [hfl]
    rfl
  rw [hval]
  omega

theorem to_uint8_natCast (n : byte) : to_uint8 (n.val : ℚ) = n := by
  have h := to_uint8_between (n.val : ℚ) n.val n.val (le_refl _) (le_refl _) (by omega)
  exact Fin.ext (by omega)

/-- A byte is a `float`: storing it in a `float` does not change it. -/
theorem to_float_byte : ∀ d : byte, to_float (d.val : ℚ) = d.val := by
  decide!

/-- The weights `mix` and `1 - mix` of the blend for the alpha `a`: neither is negative, their
sum is 1 up to the rounding of the difference, and they lie within `2 ^ (-22)` of
`a / 255` and of `1 - a / 255`. -/
theorem alpha_mix_facts (a : byte) :
    0 ≤ alpha_mix a ∧ 0 ≤ to_float (1 - alpha_mix a) ∧
      |alpha_mix a + to_float (1 - alpha_mix a) - 1| ≤ 1 / 2 ^ 24 ∧
      |alpha_mix a - (a.val : ℚ) / 255| ≤ 1 / 2 ^ 23 ∧
      |to_float (1 - alpha_mix a) - (1 - (a.val : ℚ) / 255)| ≤ 1 / 2 ^ 22 := by
  by_cases ha : a = 255
  · subst ha
    have h1 : alpha_mix 255 = 1 := by decide!
    have hv : ((255 : byte).val : ℚ) = 255 := by decide!
    rw [h1, sub_self, to_float_zero, hv]
    norm_num
  · have hlt : a.val ≤ 254 := by
      have h1 := a.isLt
      have h2 : a.val ≠ 255 := fun h => ha (Fin.ext h)
      omega
    have hw0 : (0 : ℚ) ≤ (a.val : ℚ) / 255 := by positivity
    have hw1 : (a.val : ℚ) / 255 ≤ 254 / 255 := by
      apply div_le_div_of_nonneg_right _ (by norm_num)
      exact_mod_cast hlt
    unfold alpha_mix
    generalize (a.val : ℚ) / 255 = w at hw0 hw1 ⊢
    have e1 := round_binary_rel_error 53 w
    rw [abs_of_nonneg hw0, abs_le] at e1
    have hd0 : 0 ≤ to_double w := round_binary_nonneg 53 w hw0
    change -(w / 2 ^ 53) ≤ to_double w - w ∧ to_double w - w ≤ w / 2 ^ 53 at e1
    generalize to_double w = dv at e1 hd0 ⊢
    have e2 := round_binary_rel_error 24 dv
    rw [abs_of_nonneg hd0, abs_le] at e2
    have hm0 : 0 ≤ to_float dv := round_binary_nonneg 24 dv hd0
    change -(dv / 2 ^ 24) ≤ to_float dv - dv ∧ to_float dv - dv ≤ dv / 2 ^ 24 at e2
    generalize to_float dv = m at e2 hm0 ⊢
    have k1 : w / 2 ^ 53 ≤ 1 / 2 ^ 53 :=
      div_le_div_of_nonneg_right (by linarith) (by norm_num)
    have hdv1 : dv ≤ 1 := by
      norm_num at k1
      linarith [e1.2]
    have k2 : dv / 2 ^ 24 ≤ 1 / 2 ^ 24 :=
      div_le_div_of_nonneg_right hdv1 (by norm_num)
    have hmw : |m - w| ≤ 1 / 2 ^ 23 := by
      rw [abs_le]
      norm_num at k1 k2 ⊢
      constructor
      · linarith [e1.1, e2.1]
      · linarith [e1.2, e2.2]
    have hm1 : m ≤ 1 := by
      rw [abs_le] at hmw
      norm_num at hmw
      linarith [hmw.2]
    have hc0' : 0 ≤ 1 - m := by linarith
    have e3 := round_binary_rel_error 24 (1 - m)
    rw [abs_of_nonneg hc0', abs_le] at e3
    have hc0 : 0 ≤ to_float (1 - m) := round_binary_nonneg 24 (1 - m) hc0'
    change -((1 - m) / 2 ^ 24) ≤ to_float (1 - m) - (1 - m) ∧
      to_float (1 - m) - (1 - m) ≤ (1 - m) / 2 ^ 24 at e3
    generalize to_float (1 - m) = c at e3 hc0 ⊢
    have k3 : (1 - m) / 2 ^ 24 ≤ 1 / 2 ^ 24 :=
      div_le_div_of_nonneg_right (by linarith) (by norm_num)
    rw [abs_le] at hmw
    refine ⟨hm0, hc0, ?_, ?_, ?_⟩
    · rw [abs_le]
      norm_num at k3 ⊢
      constructor
      · linarith [e3.1]
      · linarith [e3.2]
    · rw [abs_le]
      exact hmw
    · rw [abs_le]
      norm_num at k3 hmw ⊢
      constructor
      · linarith [e3.1, hmw.2]
      · linarith [e3.2, hmw.1]

/-- With alpha 0 the weight is 0 and the blend is the destination byte. -/
theorem blend_zero (dst src : byte) : blend dst src (alpha_mix 0) = dst := by
  have h0 : alpha_mix 0 = 0 := by decide!
  unfold blend
  rw [h0, sub_zero, to_float_one, mul_one, zero_mul, to_float_zero, add_zero, to_float_byte,
    to_float_byte]
  exact to_uint8_natCast dst

/-- With alpha 255 the weight is 1 and the blend is the source byte. -/
theorem blend_full (dst src : byte) : blend dst src (alpha_mix 255) = src := by
  have h1 : alpha_mix 255 = 1 := by decide!
  unfold blend
  rw [h1, sub_self, to_float_zero, mul_zero, to_float_zero, one_mul, zero_add, to_float_byte,
    to_float_byte]
  exact to_uint8_natCast src

/-- The three roundings of the blend move its value by at most `2 ^ (-12)`: for weights
`m` and `c` that are not negative and whose sum is about 1, and operands `d` and `sv` in the
range of a byte. -/
theorem blend_value_error (d sv m c : ℚ) (hd0 : 0 ≤ d) (hd255 : d ≤ 255) (hs0 : 0 ≤ sv)
    (hs255 : sv ≤ 255) (hm0 : 0 ≤ m) (hc0 : 0 ≤ c) (hsum : m + c ≤ 2) :
    0 ≤ to_float (to_float (d * c) + to_float (m * sv)) ∧
      |to_float (to_float (d * c) + to_float (m * sv)) - (d * c + m * sv)| ≤ 1 / 4096 := by
  have hc2 : c ≤ 2 := by linarith
  have hm2 : m ≤ 2 := by linarith
  have hdc0 : 0 ≤ d * c := mul_nonneg hd0 hc0
  have hms0 : 0 ≤ m * sv := mul_nonneg hm0 hs0
  have hdc512 : d * c ≤ 512 := by nlinarith
  have hms512 : m * sv ≤ 512 := by nlinarith
  have eA := round_binary_rel_error 24 (d * c)
  have eB := round_binary_rel_error 24 (m * sv)
  rw [abs_of_nonneg hdc0, abs_le] at eA
  rw [abs_of_nonneg hms0, abs_le] at eB
  change -(d * c / 2 ^ 24) ≤ to_float (d * c) - d * c ∧
    to_float (d * c) - d * c ≤ d * c / 2 ^ 24 at eA
  change -(m * sv / 2 ^ 24) ≤ to_float (m * sv) - m * sv ∧
    to_float (m * sv) - m * sv ≤ m * sv / 2 ^ 24 at eB
  generalize to_float (d * c) = A at eA
  generalize to_float (m * sv) = B at eB
  have hA0 : 0 ≤ A := by
    have : d * c / 2 ^ 24 ≤ d * c := by
      apply div_le_self hdc0
      norm_num
    linarith [eA.1]
  have hB0 : 0 ≤ B := by
    have : m * sv / 2 ^ 24 ≤ m * sv := by
      apply div_le_self hms0
      norm_num
    linarith [eB.1]
  have hAB0 : 0 ≤ A + B := add_nonneg hA0 hB0
  have eS := round_binary_rel_error 24 (A + B)
  rw [abs_of_nonneg hAB0, abs_le] at eS
  change -((A + B) / 2 ^ 24) ≤ to_float (A + B) - (A + B) ∧
    to_float (A + B) - (A + B) ≤ (A + B) / 2 ^ 24 at eS
  generalize to_float (A + B) = S at eS
  have k1 : d * c / 2 ^ 24 ≤ 512 / 2 ^ 24 :=
    div_le_div_of_nonneg_right hdc512 (by norm_num)
  have k2 : m * sv / 2 ^ 24 ≤ 512 / 2 ^ 24 :=
    div_le_div_of_nonneg_right hms512 (by norm_num)
  have hAB : A + B ≤ 1025 := by
    have := eA.2
    have := eB.2
    norm_num at k1 k2
    linarith
  have k3 : (A + B) / 2 ^ 24 ≤ 1025 / 2 ^ 24 :=
    div_le_div_of_nonneg_right hAB (by norm_num)
  have k4 : (A + B) / 2 ^ 24 ≤ A + B := by
    apply div_le_self hAB0
    norm_num
  constructor
  · linarith [eS.1]
  · rw [abs_le]
    norm_num at k1 k2 k3 ⊢
    constructor
    · linarith [eA.1, eB.1, eS.1]
    · linarith [eA.2, eB.2, eS.2]

/-- The value of the blend before the truncation lies within `2 ^ (-11)` of the interval
between destination and source. -/
theorem blend_value_bounds (dst src a : byte) :
    0 ≤ to_float (to_float ((dst.val : ℚ) * to_float (1 - alpha_mix a)) +
          to_float (alpha_mix a * (src.val : ℚ))) ∧
    ((min dst.val src.val : Nat) : ℚ) - 1 / 2048 ≤
        to_float (to_float ((dst.val : ℚ) * to_float (1 - alpha_mix a)) +
          to_float (alpha_mix a * (src.val : ℚ))) ∧
      to_float (to_float ((dst.val : ℚ) * to_float (1 - alpha_mix a)) +
          to_float (alpha_mix a * (src.val : ℚ))) ≤
        ((max dst.val src.val : Nat) : ℚ) + 1 / 2048 := by
  obtain ⟨hm0, hc0, hsum, -, -⟩ := alpha_mix_facts a
  rw [abs_le] at hsum
  have hd255 : (dst.val : ℚ) ≤ 255 := by
    have := dst.isLt
    exact_mod_cast (by omega : dst.val ≤ 255)
  have hs255 : (src.val : ℚ) ≤ 255 := by
    have := src.isLt
    exact_mod_cast (by omega : src.val ≤ 255)
  have hd0 : (0 : ℚ) ≤ (dst.val : ℚ) := Nat.cast_nonneg _
  have hs0 : (0 : ℚ) ≤ (src.val : ℚ) := Nat.cast_nonneg _
  obtain ⟨hS0, herr⟩ := blend_value_error (dst.val : ℚ) (src.val : ℚ) (alpha_mix a)
    (to_float (1 - alpha_mix a)) hd0 hd255 hs0 hs255 hm0 hc0 (by linarith [hsum.2])
  rw [abs_le] at herr
  generalize to_float (to_float ((dst.val : ℚ) * to_float (1 - alpha_mix a)) +
    to_float (alpha_mix a * (src.val : ℚ))) = S at hS0 herr ⊢
  generalize alpha_mix a = m at hm0 hc0 hsum herr
  generalize to_float (1 - m) = c at hc0 hsum herr
  have hhi255 : ((max dst.val src.val : Nat) : ℚ) ≤ 255 := by
    have := dst.isLt
    have := src.isLt
    exact_mod_cast (by omega : max dst.val src.val ≤ 255)
  have hlo0 : (0 : ℚ) ≤ ((min dst.val src.val : Nat) : ℚ) := Nat.cast_nonneg _
  have hlo255 : ((min dst.val src.val : Nat) : ℚ) ≤ 255 := by
    have := dst.isLt
    exact_mod_cast (by omega : min dst.val src.val ≤ 255)
  have hdhi : (dst.val : ℚ) ≤ ((max dst.val src.val : Nat) : ℚ) := by
    exact_mod_cast le_max_left _ _
  have hshi : (src.val : ℚ) ≤ ((max dst.val src.val : Nat) : ℚ) := by
    exact_mod_cast le_max_right _ _
  have hdlo : ((min dst.val src.val : Nat) : ℚ) ≤ (dst.val : ℚ) := by
    exact_mod_cast min_le_left _ _
  have hslo : ((min dst.val src.val : Nat) : ℚ) ≤ (src.val : ℚ) := by
    exact_mod_cast min_le_right _ _
  generalize ((max dst.val src.val : Nat) : ℚ) = hi at hhi255 hdhi hshi ⊢
  generalize ((min dst.val src.val : Nat) : ℚ) = lo at hlo0 hlo255 hdlo hslo ⊢
  generalize (dst.val : ℚ) = d at hd255 hd0 hdhi hdlo herr
  generalize (src.val : ℚ) = sv at hs255 hs0 hshi hslo herr
  have hdc_hi : d * c ≤ hi * c := mul_le_mul_of_nonneg_right hdhi hc0
  have hms_hi : m * sv ≤ m * hi := mul_le_mul_of_nonneg_left hshi hm0
  have hdc_lo : lo * c ≤ d * c := mul_le_mul_of_nonneg_right hdlo hc0
  have hms_lo : m * lo ≤ m * sv := mul_le_mul_of_nonneg_left hslo hm0
  have hsum_hi : d * c + m * sv ≤ hi + 255 / 2 ^ 24 := by nlinarith
  have hsum_lo : lo - 255 / 2 ^ 24 ≤ d * c + m * sv := by nlinarith
  norm_num at hsum_hi hsum_lo herr ⊢
  refine ⟨hS0, ?_, ?_⟩
  · linarith [herr.1]
  · linarith [herr.2]

/-- The value of the blend before the truncation lies within `2 ^ (-11)` of the exact value
of `dst * (1 - alpha / 255) + alpha / 255 * src`. -/
theorem blend_value_near (dst src a : byte) :
    |to_float (to_float ((dst.val : ℚ) * to_float (1 - alpha_mix a)) +
          to_float (alpha_mix a * (src.val : ℚ))) -
        ((dst.val : ℚ) * (1 - (a.val : ℚ) / 255) + (a.val : ℚ) / 255 * (src.val : ℚ))| ≤
      1 / 2048 := by
  obtain ⟨hm0, hc0, hsum, em, ec⟩ := alpha_mix_facts a
  rw [abs_le] at hsum em ec
  have hd255 : (dst.val : ℚ) ≤ 255 := by
    have := dst.isLt
    exact_mod_cast (by omega : dst.val ≤ 255)
  have hs255 : (src.val : ℚ) ≤ 255 := by
    have := src.isLt
    exact_mod_cast (by omega : src.val ≤ 255)
  have hd0 : (0 : ℚ) ≤ (dst.val : ℚ) := Nat.cast_nonneg _
  have hs0 : (0 : ℚ) ≤ (src.val : ℚ) := Nat.cast_nonneg _
  obtain ⟨-, herr⟩ := blend_value_error (dst.val : ℚ) (src.val : ℚ) (alpha_mix a)
    (to_float (1 - alpha_mix a)) hd0 hd255 hs0 hs255 hm0 hc0 (by linarith [hsum.2])
  rw [abs_le] at herr
  generalize to_float (to_float ((dst.val : ℚ) * to_float (1 - alpha_mix a)) +
    to_float (alpha_mix a * (src.val : ℚ))) = S at herr ⊢
  generalize alpha_mix a = m at em ec herr
  generalize to_float (1 - m) = c at ec herr
  generalize (dst.val : ℚ) = d at hd255 hd0 herr ⊢
  generalize (src.val : ℚ) = sv at hs255 hs0 herr ⊢
  generalize (a.val : ℚ) / 255 = w at em ec ⊢
  have h1 : d * (c - (1 - w)) ≤ 255 / 2 ^ 22 := by nlinarith [ec.2]
  have h2 : -(255 / 2 ^ 22) ≤ d * (c - (1 - w)) := by nlinarith [ec.1]
  have h3 : (m - w) * sv ≤ 255 / 2 ^ 23 := by nlinarith [em.2]
  have h4 : -(255 / 2 ^ 23) ≤ (m - w) * sv := by nlinarith [em.1]
  rw [abs_le]
  norm_num at h1 h2 h3 h4 herr ⊢
  constructor
  · nlinarith [herr.1]
  · nlinarith [herr.2]

/-- The blend is at most the larger of destination and source and at least the smaller of
them less one. -/
theorem blend_bounds (dst src a : byte) :
    min dst.val src.val ≤ (blend dst src (alpha_mix a)).val + 1 ∧
      (blend dst src (alpha_mix a)).val ≤ max dst.val src.val := by
  obtain ⟨-, hlo, hhi⟩ := blend_value_bounds dst src a
  unfold blend
  generalize to_float (to_float ((dst.val : ℚ) * to_float (1 - alpha_mix a)) +
    to_float (alpha_mix a * (src.val : ℚ))) = S at hlo hhi
  have hmax : max dst.val src.val ≤ 255 := by
    have := dst.isLt
    have := src.isLt
    omega
  generalize max dst.val src.val = hi at hhi hmax
  generalize min dst.val src.val = lo at hlo
  by_cases hS : 0 ≤ S
  · have hfl : to_int S = ⌊S⌋ := by
      unfold to_int
      rw [if_pos hS]
    have h0 : (0 : Int) ≤ ⌊S⌋ := Int.le_floor.mpr (by exact_mod_cast hS)
    have h1 : ⌊S⌋ ≤ (hi : Int) := by
      have hlt : S < ((hi : Int) : ℚ) + 1 := by
        push_cast
        linarith
      have := Int.floor_le S
      have : ((⌊S⌋ : Int) : ℚ) < (((hi : Int) + 1 : Int) : ℚ) := by
        push_cast
        linarith
      have : ⌊S⌋ < (hi : Int) + 1 := by exact_mod_cast this
      omega
    have h2 : (lo : Int) - 1 ≤ ⌊S⌋ ∨ lo = 0 := by
      by_cases hl : lo = 0
      · exact Or.inr hl
      · left
        apply Int.le_floor.mpr
        have : (1 : ℚ) ≤ (lo : ℚ) := by exact_mod_cast Nat.one_le_iff_ne_zero.mpr hl
        push_cast
        linarith
    have hval : (to_uint8 S).val = (⌊S⌋).toNat % 256 := by
      unfold to_uint8
      rw [hfl]
      rfl
    rw [hval]
    omega
  · have hlo0 : lo = 0 := by
      by_contra hl
      have : (1 : ℚ) ≤ (lo : ℚ) := by exact_mod_cast Nat.one_le_iff_ne_zero.mpr hl
      linarith
    have hneg : S < 0 := not_le.mp hS
    have hfl : to_int S = ⌈S⌉ := by
      unfold to_int
      rw [if_neg hS]
    have hc : ⌈S⌉ ≤ 0 := Int.ceil_le.mpr (by exact_mod_cast le_of_lt hneg)
    have hval : (to_uint8 S).val = (⌈S⌉).toNat % 256 := by
      unfold to_uint8
      rw [hfl]
      rfl
    rw [hval, hlo0]
    have : (⌈S⌉).toNat = 0 := by omega
    rw [this]
    omega

/-- The conversion to a byte of a value in the range of a byte is its integer part. -/
theorem to_uint8_val (v : ℚ) (h0 : 0 ≤ v) (h1 : v < 256) :
    ((to_uint8 v).val : Int) = ⌊v⌋ := by
  have hfl : to_int v = ⌊v⌋ := by
    unfold to_int
    rw [if_pos h0]
  have hlo : (0 : Int) ≤ ⌊v⌋ := Int.le_floor.mpr (by exact_mod_cast h0)
  have hhi : ⌊v⌋ < (256 : Int) := Int.floor_lt.mpr (by exact_mod_cast h1)
  have hval : (to_uint8 v).val = (⌊v⌋).toNat % 256 := by
    unfold to_uint8
    rw [hfl]
    rfl
  rw [hval]
  omega

/-- The blend differs by at most one from the exact value of
`dst * (1 - alpha / 255) + alpha / 255 * src` truncated. -/
theorem blend_near_exact (dst src a : byte) :
    ⌊(dst.val : ℚ) * (1 - (a.val : ℚ) / 255) + (a.val : ℚ) / 255 * (src.val : ℚ)⌋ - 1 ≤
        ((blend dst src (alpha_mix a)).val : Int) ∧
      ((blend dst src (alpha_mix a)).val : Int) ≤
        ⌊(dst.val : ℚ) * (1 - (a.val : ℚ) / 255) + (a.val : ℚ) / 255 * (src.val : ℚ)⌋ + 1 := by
  obtain ⟨hS0, -, hhi⟩ := blend_value_bounds dst src a
  have hnear := blend_value_near dst src a
  rw [abs_le] at hnear
  have hmax : ((max dst.val src.val : Nat) : ℚ) ≤ 255 := by
    have := dst.isLt
    have := src.isLt
    exact_mod_cast (by omega : max dst.val src.val ≤ 255)
  unfold blend
  generalize to_float (to_float ((dst.val : ℚ) * to_float (1 - alpha_mix a)) +
    to_float (alpha_mix a * (src.val : ℚ))) = S at hS0 hhi hnear ⊢
  generalize (dst.val : ℚ) * (1 - (a.val : ℚ) / 255) + (a.val : ℚ) / 255 * (src.val : ℚ) = E
    at hnear ⊢
  rw [to_uint8_val S hS0 (by linarith)]
  have e1 := Int.floor_le E
  have e2 := Int.lt_floor_add_one E
  have s1 := Int.floor_le S
  have s2 := Int.lt_floor_add_one S
  constructor
  · have : ((⌊E⌋ - 2 : Int) : ℚ) < ((⌊S⌋ : Int) : ℚ) := by
      push_cast
      linarith [hnear.1]
    have : ⌊E⌋ - 2 < ⌊S⌋ := by exact_mod_cast this
    omega
  · have : ((⌊S⌋ : Int) : ℚ) < ((⌊E⌋ + 2 : Int) : ℚ) := by
      push_cast
      linarith [hnear.2]
    have : ⌊S⌋ < ⌊E⌋ + 2 := by exact_mod_cast this
    omega

/-- The three cells of a pixel whose sample is inside the secondary frame, without alpha. -/
theorem pixel_cells_inside_none (e : pixel_env) (x y : Int)
    (hin : in_bounds e (sample_dx e x y) (sample_dy e x y)) (ha : e.alpha = none)
    (old : byte) :
    pixel_cover e x y old = 255 ∧
    pixel_luma e x y old = e.b_image (luma_index e (sample_dx e x y) (sample_dy e x y)) ∧
    pixel_chroma e x y old =
      e.b_image (chroma_index e x (sample_dx e x y) (sample_dy e x y)) := by
  unfold pixel_cover pixel_luma pixel_chroma
  rw [if_pos hin, if_pos hin, if_pos hin, ha]
  exact ⟨rfl, rfl, rfl⟩

/-- The three cells of a pixel whose sample is inside the secondary frame, with alpha. -/
theorem pixel_cells_inside_some (e : pixel_env) (x y : Int)
    (hin : in_bounds e (sample_dx e x y) (sample_dy e x y)) (alpha : Int → byte)
    (ha : e.alpha = some alpha) (old : byte) :
    pixel_cover e x y old = alpha (sample_dy e x y * e.b_width + sample_dx e x y) ∧
    pixel_luma e x y old =
      blend old (e.b_image (luma_index e (sample_dx e x y) (sample_dy e x y)))
        (alpha_mix (alpha (sample_dy e x y * e.b_width + sample_dx e x y))) ∧
    pixel_chroma e x y old =
      blend old (e.b_image (chroma_index e x (sample_dx e x y) (sample_dy e x y)))
        (alpha_mix (alpha (sample_dy e x y * e.b_width + sample_dx e x y))) := by
  unfold pixel_cover pixel_luma pixel_chroma
  rw [if_pos hin, if_pos hin, if_pos hin, ha]
  exact ⟨rfl, rfl, rfl⟩

/-- The bytes and the mask entry one iteration leaves under the cursors it started from. -/
theorem pixel_step_cells (e : pixel_env) (x y : Int) (s : pixel_state) :
    (pixel_step e x y s).mask s.pmask = pixel_cover e x y (s.mask s.pmask) ∧
    (pixel_step e x y s).image s.p = pixel_luma e x y (s.image s.p) ∧
    (pixel_step e x y s).image (s.p + 1) = pixel_chroma e x y (s.image (s.p + 1)) := by
  rw [pixel_step_mask, pixel_step_image, pixel_step_image, if_pos rfl, if_neg (by omega),
    if_pos rfl, if_pos rfl]
  exact ⟨rfl, rfl, rfl⟩

/-- The image computed by `transition_get_image` does not read the `mix` of the geometry. -/
theorem get_image_of_geometry_mix (m : math_lib) (params : affine_params)
    (position t_in : Int) (result : geometry_s) (v : ℚ) (a : frame_image)
    (fetch_b : Int → Int → frame_image) (mask0 : Int → byte) :
    get_image_of_geometry m params position t_in { result with mix := v } a fetch_b mask0 =
      get_image_of_geometry m params position t_in result a fetch_b mask0 :=
  rfl

/-! ## C1: Interpolation between two keyframes -/

/-- C2 (amended): on a track with strictly increasing positions not after 1, whose keyframes
hold values in the range of `float_range`, `geometry_calculate` queried at the position of a
keyframe `k` that is followed by a keyframe `k'` returns the stored `x`, `y`, `w`, `h` and
`mix` of `k` when the frame number of `k'` is not `k.frame + 1` (the interpolation parameter is
0), and those of `k'` when it is `k.frame + 1`.  Queried at the position of the last keyframe
`k` it returns the stored values of `k` when the keyframe before it has the frame number
`k.frame - 1`.  The tracks built by `transition_parse_keys` for a transition of fewer than
`2 ^ 24` frames with `in < out`, or with `in ≤ out ≤ 0`, are such tracks: their positions
are strictly increasing, also after each is rounded to `float`, and none lies after 1.  With
the rounding of the code the result at the position of `k` is the same: the parameter computed
in `float` is 0 and the interpolation computed in `float` gives the stored `float`. -/
theorem geometry_calculate_at_keyframe :
    (∀ (output k k' : geometry_s) (pre post : List geometry_s),
      List.Pairwise (fun a b : geometry_s => a.position < b.position)
        (pre ++ k :: k' :: post) →
      (∀ g ∈ pre ++ k :: k' :: post, g.position ≤ 1) →
      float_range k → float_range k' →
      (k.frame ≠ k'.frame - 1 →
        geometry_calculate output (pre ++ k :: k' :: post) k.position =
          some { output with
            nw := k.nw, nh := k.nh, x := k.x, y := k.y, w := k.w, h := k.h, mix := k.mix }) ∧
      (k.frame = k'.frame - 1 →
        geometry_calculate output (pre ++ k :: k' :: post) k.position =
          some { output with
            nw := k'.nw, nh := k'.nh, x := k'.x, y := k'.y, w := k'.w, h := k'.h,
            mix := k'.mix })) ∧
    (∀ (output i k : geometry_s) (pre : List geometry_s),
      List.Pairwise (fun a b : geometry_s => a.position < b.position)
        (pre ++ i :: k :: []) →
      k.position ≤ 1 → i.frame = k.frame - 1 →
      geometry_calculate output (pre ++ i :: k :: []) k.position =
        some { output with
          nw := k.nw, nh := k.nh, x := k.x, y := k.y, w := k.w, h := k.h, mix := k.mix }) ∧
    (∀ (props : mlt_properties) (t_in t_out nw nh : Int),
      t_in ≤ t_out → (t_in < t_out ∨ t_out ≤ 0) → t_out - t_in + 1 < 16777216 →
      List.Pairwise (fun a b : geometry_s => a.position < b.position)
        (transition_parse_keys props t_in t_out nw nh) ∧
      List.Pairwise (fun a b : geometry_s => to_float a.position < to_float b.position)
        (transition_parse_keys props t_in t_out nw nh) ∧
      ∀ g ∈ transition_parse_keys props t_in t_out nw nh, g.position ≤ 1) ∧
    (∀ i o a b : ℚ, i < o → |a| ≤ 2 ^ 126 → |b| ≤ 2 ^ 126 →
      float_parameter i i o = 0 ∧
      float_interpolate (to_float a) (to_float b) (float_parameter i i o) = to_float a) := by
  have hpar : ∀ i o : ℚ, float_parameter i i o = 0 := by
    intro i o
    unfold float_parameter
    rw [sub_self, to_float_zero, zero_div, to_float_zero]
  refine ⟨?_, ?_, ?_, ?_⟩
  · intro output k k' pre post hsorted hle _ _
    obtain ⟨hs, hw, hlt⟩ := search_track_at_keyframe pre post k k' hsorted hle
    have hne : ¬ (k'.position - k.position = 0) := by
      intro h0
      have : k'.position = k.position := by linarith
      rw [this] at hlt
      exact absurd hlt (lt_irrefl _)
    rw [geometry_calculate_eq output _ k.position k k' hs, hw]
    constructor
    · intro hframe
      rw [if_pos hframe, if_neg hne]
      simp only [sub_self, zero_div, mul_zero, add_zero]
    · intro hframe
      rw [if_neg (not_not.mpr hframe)]
  · intro output i k pre hsorted hle hframe
    rw [geometry_calculate_eq output _ k.position i k (search_track_at_last pre i k hsorted hle),
      if_neg (not_not.mpr hframe)]
  · intro props t_in t_out nw nh hio hne hlen
    exact ⟨transition_parse_keys_pairwise props t_in t_out nw nh hio hne,
      transition_parse_keys_float_pairwise props t_in t_out nw nh hio hne hlen,
      transition_parse_keys_position_le_one props t_in t_out nw nh hio⟩
  · intro i o a b _ _ _
    refine ⟨hpar i o, ?_⟩
    rw [hpar i o]
    unfold float_interpolate
    rw [mul_zero, to_float_zero, add_zero, to_float_idem]

/-- C2, as stated, fails at the start keyframe when `key[1]` follows it: the two frames are
adjacent, so the query at position 0 returns the values of `key[1]` (`x = 50`), not those of
the start keyframe (`x = 0`). -/
theorem geometry_calculate_at_keyframe_counterexample :
    (transition_parse_keys
        [("start".toList, some "0,0:100x100".toList), ("key[1]".toList, some "50,0".toList)]
        0 10 720 576).map (fun g => (g.frame, g.position, g.x)) =
      [(0, 0, 0), (1, 1 / 11, 50), (0, 10 / 11, 50)] ∧
    (geometry_calculate calloc_geometry
        (transition_parse_keys
          [("start".toList, some "0,0:100x100".toList), ("key[1]".toList, some "50,0".toList)]
          0 10 720 576) 0).map (fun r => r.x) = some 50 := by
  decide!

/-- An example of the one-frame transition `in = out = 1`: start and end keyframe are both at
position 0, the interpolation divides by zero and the query at position 0 has no result. -/
theorem geometry_calculate_one_frame :
    geometry_calculate calloc_geometry (transition_parse_keys [] 1 1 720 576) 0 = none := by
  decide!

/-- An example of the rounding at the last keyframe: with the stored values `0.3f` and
`0.1f` the interpolation at `t = 1`, computed in `float`, does not give back `0.1f`. -/
theorem geometry_calculate_last_keyframe_rounding :
    to_float (to_float (3 / 10) + to_float (to_float (to_float (1 / 10) - to_float (3 / 10)) * 1))
      ≠ to_float (1 / 10) := by
  decide!

/-- C2 (amended), at a concrete configuration: with `key[2]` after the start keyframe the
query at position 0 returns the values of the start keyframe. -/
theorem geometry_calculate_at_keyframe_witness :
    (geometry_calculate calloc_geometry
        (transition_parse_keys
          [("start".toList, some "0,0:100x100".toList),
           ("key[2]".toList, some "50,0".toList)] 0 10 720 576) 0).map
        (fun r => (r.x, r.y, r.w, r.h, r.mix)) = some (0, 0, 100, 100, 100) := by
  have ht : transition_parse_keys
      [("start".toList, some "0,0:100x100".toList), ("key[2]".toList, some "50,0".toList)]
      0 10 720 576 =
      [] ++ { calloc_geometry with mix := 100, nw := 720, nh := 576, sw := 100, sh := 100,
                                   w := 100, h := 100 } ::
        { calloc_geometry with
            frame := 2, position := 2 / 11, mix := 100, nw := 720, nh := 576, sw := 100,
            sh := 100, x := 50, w := 100, h := 100 } ::
        [{ calloc_geometry with
            position := 10 / 11, mix := 100, nw := 720, nh := 576, sw := 100, sh := 100,
            x := 50, w := 100, h := 100 }] := by
    decide!
  have hs := (geometry_calculate_at_keyframe.2.2.1
    [("start".toList, some "0,0:100x100".toList), ("key[2]".toList, some "50,0".toList)]
    0 10 720 576 (by decide) (by decide) (by decide))
  rw [ht] at hs ⊢
  have h := (geometry_calculate_at_keyframe.1 calloc_geometry
    { calloc_geometry with mix := 100, nw := 720, nh := 576, sw := 100, sh := 100,
                           w := 100, h := 100 }
    { calloc_geometry with
        frame := 2, position := 2 / 11, mix := 100, nw := 720, nh := 576, sw := 100,
        sh := 100, x := 50, w := 100, h := 100 }
    []
    [{ calloc_geometry with
        position := 10 / 11, mix := 100, nw := 720, nh := 576, sw := 100, sh := 100,
        x := 50, w := 100, h := 100 }]
    hs.1 hs.2.2 (by decide!) (by decide!)).1 (by decide)
  exact (congrArg (Option.map (fun r : geometry_s => (r.x, r.y, r.w, r.h, r.mix))) h).trans
    (by decide!)

/-! ## C3: Ping-pong wraparound -/

/-- C3: ping-pong wraparound.  For every track, every integer `n ≥ 1` and every fraction
`0 ≤ f < 1`, `geometry_calculate` at `n + f` equals `geometry_calculate` at `1 - f` when `n` is
odd and at `f` when `n` is even. -/
theorem geometry_calculate_pingpong (output : geometry_s) (track : List geometry_s)
    (n : ℤ) (f : ℚ) (hn : 1 ≤ n) (hf0 : 0 ≤ f) (hf1 : f < 1) :
    geometry_calculate output track ((n : ℚ) + f) =
      if n % 2 = 1 then geometry_calculate output track (1 - f)
      else geometry_calculate output track f := by
  split
  · rename_i hodd
    apply geometry_calculate_congr
    rw [wrap_position_int_add n f hn hf0 hf1, if_pos hodd, wrap_position_one_sub f hf0 hf1]
  · rename_i heven
    apply geometry_calculate_congr
    rw [wrap_position_int_add n f hn hf0 hf1, if_neg heven, wrap_position_of_lt_one hf1]

/-- C3, the example of the specification: on a track with keyframes at 0 and 1 the result at
position 1.5 is the result at position 0.5 (here `x = 50`). -/
theorem geometry_calculate_pingpong_witness :
    geometry_calculate calloc_geometry
        [{ calloc_geometry with x := 0, w := 720, h := 576, mix := 100 },
         { calloc_geometry with position := 1, x := 100, w := 720, h := 576, mix := 100 }]
        (3 / 2) =
      geometry_calculate calloc_geometry
        [{ calloc_geometry with x := 0, w := 720, h := 576, mix := 100 },
         { calloc_geometry with position := 1, x := 100, w := 720, h := 576, mix := 100 }]
        (1 / 2) := by
  have h := geometry_calculate_pingpong calloc_geometry
    [{ calloc_geometry with x := 0, w := 720, h := 576, mix := 100 },
     { calloc_geometry with position := 1, x := 100, w := 720, h := 576, mix := 100 }]
    1 (1 / 2) (by decide) (by decide!) (by decide!)
  have e1 : ((1 : ℤ) : ℚ) + 1 / 2 = 3 / 2 := by norm_num
  have e2 : (1 : ℚ) - 1 / 2 = 1 / 2 := by norm_num
  rw [e1, e2, if_pos (by decide)] at h
  exact h

/-! ## C4: Order of the keyframe positions -/

/-- C4 (amended): for every configuration and all in and out points with `in < out`, or with
`in ≤ out ≤ 0`, of a transition of fewer than `2 ^ 24` frames, the keyframe list produced by
`transition_parse_keys` has strictly increasing positions: each keyframe lies strictly after
the one before it, and this stays so when each position is rounded to `float`, as the code
stores it.  The position the code computes in `float` for a key (`key_position_float`) is the
`float` nearest to the exact quotient, and the test `position > ptr->position` of line 222 on
two such positions decides as on the exact quotients, so the code accepts the same keys. -/
theorem transition_parse_keys_increasing (props : mlt_properties) (t_in t_out nw nh : Int)
    (hio : t_in ≤ t_out) (hne : t_in < t_out ∨ t_out ≤ 0)
    (hlen : t_out - t_in + 1 < 16777216) :
    List.Chain' (fun a b : geometry_s => a.position < b.position)
        (transition_parse_keys props t_in t_out nw nh) ∧
      List.Chain' (fun a b : geometry_s => to_float a.position < to_float b.position)
        (transition_parse_keys props t_in t_out nw nh) ∧
      ∀ f1 f2 : Int,
        key_position_float t_in t_out f1 = to_float (key_position t_in t_out f1) ∧
        (key_position_float t_in t_out f2 < key_position_float t_in t_out f1 ↔
          key_position t_in t_out f2 < key_position t_in t_out f1) :=
  ⟨(transition_parse_keys_pairwise props t_in t_out nw nh hio hne).chain',
    (transition_parse_keys_float_pairwise props t_in t_out nw nh hio hne hlen).chain',
    key_position_float_order t_in t_out hio hlen⟩

/-- C4, as stated, fails for a one-frame transition with a positive out point (`in = out = 1`):
the end keyframe is placed at position `0 / 1 = 0`, the position of the start keyframe. -/
theorem transition_parse_keys_increasing_counterexample :
    (1 : Int) ≤ 1 ∧
      ¬ List.Chain' (fun a b : geometry_s => a.position < b.position)
        (transition_parse_keys [] 1 1 720 576) := by
  have ht : transition_parse_keys [] 1 1 720 576 =
      [{ calloc_geometry with mix := 100, nw := 720, nh := 576 },
       { calloc_geometry with mix := 100, nw := 720, nh := 576 }] := by decide!
  rw [ht]
  refine ⟨le_refl 1, ?_⟩
  intro hc
  rw [List.chain'_pair] at hc
  exact absurd hc (lt_irrefl _)

/-- An example of a longer transition: with `in = 0` and `out = 2 ^ 25` the frame numbers are
not `float` values, and the positions of `key[33554431]` and of the end keyframe, computed in
`float`, are both 1. -/
theorem key_position_long_transition :
    to_float (to_float 33554431 / to_float 33554433) = 1 ∧
      to_float (to_float 33554432 / to_float 33554433) = 1 := by
  decide!

/-- C4 (amended), at a concrete configuration: a key at frame 5 of an 11-frame transition. -/
theorem transition_parse_keys_increasing_witness :
    List.Chain' (fun a b : geometry_s => a.position < b.position)
        (transition_parse_keys [("key[5]".toList, some "50,0".toList)] 0 10 720 576) ∧
      List.Chain' (fun a b : geometry_s => to_float a.position < to_float b.position)
        (transition_parse_keys [("key[5]".toList, some "50,0".toList)] 0 10 720 576) ∧
      key_position_float 0 10 5 = to_float (5 / 11) :=
  ⟨(transition_parse_keys_increasing [("key[5]".toList, some "50,0".toList)] 0 10 720 576
      (by decide) (by decide) (by decide)).1,
    (transition_parse_keys_increasing [("key[5]".toList, some "50,0".toList)] 0 10 720 576
      (by decide) (by decide) (by decide)).2.1,
    ((transition_parse_keys_increasing [("key[5]".toList, some "50,0".toList)] 0 10 720 576
      (by decide) (by decide) (by decide)).2.2 5 5).1.trans (by decide!)⟩

/-! ## C5: Keys out of order -/

/-- C5: a `key[...]` entry whose computed position is less than or equal to the position of
the most recently accepted keyframe (the keyframe the loop has reached after the entries before
it) is not inserted: the track is the track built from the configuration without that entry. -/
theorem transition_parse_keys_skips_out_of_order (pre post : mlt_properties)
    (name : List Char) (value : Option (List Char)) (t_in t_out nw nh : Int)
    (hname : name.take 4 = ['k', 'e', 'y', '['])
    (hpos : key_position t_in t_out (atoi (name.drop 4)) ≤
      (parse_keys_loop t_in t_out nw nh pre
        (geometry_parse calloc_geometry none
          (mlt_properties_get (pre ++ (name, value) :: post) ['s', 't', 'a', 'r', 't'])
          nw nh)).2.position) :
    transition_parse_keys (pre ++ (name, value) :: post) t_in t_out nw nh =
      transition_parse_keys (pre ++ post) t_in t_out nw nh := by
  have hs : name ≠ ['s', 't', 'a', 'r', 't'] := by
    intro h; subst h; exact absurd hname (by decide)
  have he : name ≠ ['e', 'n', 'd'] := by
    intro h; subst h; exact absurd hname (by decide)
  rw [mlt_properties_get_remove pre post name _ value hs] at hpos
  unfold transition_parse_keys
  simp only
  rw [mlt_properties_get_remove pre post name _ value hs,
    mlt_properties_get_remove pre post name _ value he,
    parse_keys_loop_append t_in t_out nw nh ((name, value) :: post) pre,
    parse_keys_loop_append t_in t_out nw nh post pre]
  have hskip : ∀ ptr : geometry_s,
      key_position t_in t_out (atoi (name.drop 4)) ≤ ptr.position →
      parse_keys_loop t_in t_out nw nh ((name, value) :: post) ptr =
        parse_keys_loop t_in t_out nw nh post ptr := by
    intro ptr hle
    rw [parse_keys_loop]
    simp only [hname, if_true]
    rw [if_neg (not_lt.mpr hle)]
  rw [hskip _ hpos]

/-- C5, at a concrete configuration: `key[3]` after `key[5]` is dropped. -/
theorem transition_parse_keys_skips_out_of_order_witness :
    transition_parse_keys
        ([("key[5]".toList, some "50,0".toList)] ++
          ("key[3]".toList, some "70,0".toList) :: [("key[7]".toList, some "90".toList)])
        0 10 720 576 =
      transition_parse_keys
        ([("key[5]".toList, some "50,0".toList)] ++ [("key[7]".toList, some "90".toList)])
        0 10 720 576 :=
  transition_parse_keys_skips_out_of_order [("key[5]".toList, some "50,0".toList)]
    [("key[7]".toList, some "90".toList)] "key[3]".toList (some "70,0".toList) 0 10 720 576
    (by decide) (by decide!)

/-! ## C6: Well-formed geometry strings -/

/-- An example of the conversion of `0x50` as a hexadecimal constant by `strtod`: in the
string `0,0:0x50:80` the width is read as 80 and the height keeps its default. -/
theorem geometry_parse_hex_width :
    (geometry_parse calloc_geometry none (some "0,0:0x50:80".toList) 720 576).w = 80 ∧
      (geometry_parse calloc_geometry none (some "0,0:0x50:80".toList) 720 576).h = 0 := by
  decide!

/-- An example of the rounding of `parse_value`, whose result is a `float`: the number
99.99999999 is stored as 100, so a width written `99.99999999` becomes 100, while the number
itself truncates to 99. -/
theorem parse_value_float_rounding :
    to_float (to_double (9999999999 / 100000000)) = 100 ∧
      to_int (9999999999 / 100000000) = 99 := by
  decide!

/-- C7 (amended): for every non-empty remaining input whose leading character starts no number
(a letter, a delimiter, `%`) and every inherited default `d`, `parse_value` returns 0, not `d`;
the cursor moves only over leading delimiter and percent characters, and there is no error
result. -/
theorem parse_value_malformed (c : Char) (rest : List Char) (normalisation : Int)
    (delim : Char) (d : ℚ) (hc : no_conversion_char c) :
    parse_value (some (c :: rest)) normalisation delim d =
      (0, some ((c :: rest).dropWhile (fun e => e = delim || e = '%'))) := by
  rw [parse_value_nonempty _ (List.cons_ne_nil c rest), strtod_no_conversion c rest hc]
  simp

/-- C7, as stated, fails: on the input `abc` with the inherited default 5, `parse_value`
returns 0 (the result of `strtod` when nothing can be converted), not 5. -/
theorem parse_value_malformed_counterexample :
    (parse_value (some "abc".toList) 720 ',' 5).1 = 0 ∧
      (parse_value (some "abc".toList) 720 ',' 5).1 ≠ 5 := by
  decide!

/-- C7 (amended), at a concrete input: an empty field before the delimiter, default 5. -/
theorem parse_value_malformed_witness :
    parse_value (some ",20".toList) 720 ',' 5 = (0, some "20".toList) :=
  (parse_value_malformed ',' "20".toList 720 ',' 5 (by unfold no_conversion_char; decide)).trans
    (by decide!)

/-! ## C8: Inherited fields -/

/-- C8: for every defaults keyframe `d` that `geometry_parse` is called with, and every
normalisation dimensions, `geometry_parse` with a null or empty geometry string yields
`x`, `y`, `w`, `h` and `mix` equal to those of `d`; and for a geometry string that ends after
its first `k` fields (`k < 5`), the remaining fields equal the corresponding fields of `d`.
The defaults keyframes of the code are the keyframes of the track `transition_parse_keys`
builds (lines 196, 228 and 245 are the only calls), and in each of these `w` and `h` are
whole numbers, the values of the `int` fields `sw` and `sh`: this is the hypothesis on `d`,
and the last part of the theorem shows it for every keyframe of every track. -/
theorem geometry_parse_inherits (g d : geometry_s) (nw nh : Int)
    (hw : (to_int d.w : ℚ) = d.w) (hh : (to_int d.h : ℚ) = d.h) :
    (∀ property : Option (List Char), property = none ∨ property = some [] →
      (geometry_parse g (some d) property nw nh).x = d.x ∧
      (geometry_parse g (some d) property nw nh).y = d.y ∧
      (geometry_parse g (some d) property nw nh).w = d.w ∧
      (geometry_parse g (some d) property nw nh).h = d.h ∧
      (geometry_parse g (some d) property nw nh).mix = d.mix) ∧
    (∀ (s : List Char) (k : Nat), k < 5 → geometry_cursor s nw nh k = some [] →
      (k ≤ 0 → (geometry_parse g (some d) (some s) nw nh).x = d.x) ∧
      (k ≤ 1 → (geometry_parse g (some d) (some s) nw nh).y = d.y) ∧
      (k ≤ 2 → (geometry_parse g (some d) (some s) nw nh).w = d.w) ∧
      (k ≤ 3 → (geometry_parse g (some d) (some s) nw nh).h = d.h) ∧
      (geometry_parse g (some d) (some s) nw nh).mix = d.mix) ∧
    (∀ (props : mlt_properties) (t_in t_out : Int),
      ∀ e ∈ transition_parse_keys props t_in t_out nw nh,
        (to_int e.w : ℚ) = e.w ∧ (to_int e.h : ℚ) = e.h) := by
  refine ⟨?_, ?_, ?_⟩
  · intro property hp
    rw [geometry_parse_empty g (some d) property nw nh hp]
    exact ⟨rfl, rfl, hw, hh, rfl⟩
  · intro s k hk hend
    have h := geometry_parse_rest_default g (some d) s nw nh d.x d.y (to_int d.w : ℚ)
      (to_int d.h : ℚ) d.mix rfl (by rw [to_int_intCast]) (by rw [to_int_intCast]) k hk hend
    rw [hw, hh] at h
    exact h
  · intro props t_in t_out
    exact transition_parse_keys_whole props t_in t_out nw nh

/-- C8, at a concrete input: the string `10,20` ends after two fields, so `w`, `h`
and `mix` are those of the defaults keyframe. -/
theorem geometry_parse_inherits_witness :
    (geometry_parse calloc_geometry
        (some { calloc_geometry with x := 5, y := 6, w := 100, h := 50, mix := 80 })
        (some "10,20".toList) 720 576).w = 100 ∧
    (geometry_parse calloc_geometry
        (some { calloc_geometry with x := 5, y := 6, w := 100, h := 50, mix := 80 })
        (some "10,20".toList) 720 576).h = 50 ∧
    (geometry_parse calloc_geometry
        (some { calloc_geometry with x := 5, y := 6, w := 100, h := 50, mix := 80 })
        (some "10,20".toList) 720 576).mix = 80 := by
  have h := (geometry_parse_inherits calloc_geometry
    { calloc_geometry with x := 5, y := 6, w := 100, h := 50, mix := 80 } 720 576
    (by decide!) (by decide!)).2.1 "10,20".toList 2 (by decide) (by decide!)
  exact ⟨h.2.2.1 (le_refl 2), h.2.2.2.1 (by decide), h.2.2.2.2⟩

/-! ## C9: Fields without a prior keyframe -/

/-- C9 (amended): when no prior keyframe exists (`defaults = NULL`) and the freshly created
keyframe is filled from a null or empty geometry string, or from one that omits fields, the
omitted fields are zero offset (`x = 0`, `y = 0`), zero size (`w = 0`, `h = 0`, not the
normalisation size) and `mix = 100`, for every `normW` and `normH`; the full-frame size comes
from the start string `0,0:100%x100%` that `transition_affine_init` installs, which gives
`w = normW` and `h = normH`. -/
theorem geometry_parse_start_defaults (nw nh : Int) :
    (∀ property : Option (List Char), property = none ∨ property = some [] →
      (geometry_parse calloc_geometry none property nw nh).x = 0 ∧
      (geometry_parse calloc_geometry none property nw nh).y = 0 ∧
      (geometry_parse calloc_geometry none property nw nh).w = 0 ∧
      (geometry_parse calloc_geometry none property nw nh).h = 0 ∧
      (geometry_parse calloc_geometry none property nw nh).mix = 100) ∧
    (∀ (s : List Char) (k : Nat), k < 5 → geometry_cursor s nw nh k = some [] →
      (k ≤ 0 → (geometry_parse calloc_geometry none (some s) nw nh).x = 0) ∧
      (k ≤ 1 → (geometry_parse calloc_geometry none (some s) nw nh).y = 0) ∧
      (k ≤ 2 → (geometry_parse calloc_geometry none (some s) nw nh).w = 0) ∧
      (k ≤ 3 → (geometry_parse calloc_geometry none (some s) nw nh).h = 0) ∧
      (geometry_parse calloc_geometry none (some s) nw nh).mix = 100) ∧
    ((geometry_parse calloc_geometry none (some default_start) nw nh).x = 0 ∧
      (geometry_parse calloc_geometry none (some default_start) nw nh).y = 0 ∧
      (geometry_parse calloc_geometry none (some default_start) nw nh).w = nw ∧
      (geometry_parse calloc_geometry none (some default_start) nw nh).h = nh ∧
      (geometry_parse calloc_geometry none (some default_start) nw nh).mix = 100) := by
  have hz : (to_int (0 : ℚ) : ℚ) = 0 := by
    have h := to_int_intCast 0
    simp only [Int.cast_zero] at h
    rw [h]; simp
  refine ⟨?_, ?_, ?_⟩
  · intro property hp
    rw [geometry_parse_empty calloc_geometry none property nw nh hp]
    exact ⟨rfl, rfl, rfl, rfl, rfl⟩
  · intro s k hk hend
    exact geometry_parse_rest_default calloc_geometry none s nw nh 0 0 0 0 100 rfl hz hz
      k hk hend
  · have ht : default_start =
        (⟨false, [0], none, false⟩ : geometry_field).text ++ ',' ::
          ((⟨false, [0], none, false⟩ : geometry_field).text ++ ':' ::
            ((⟨false, [1, 0, 0], none, true⟩ : geometry_field).text ++ 'x' ::
              (⟨false, [1, 0, 0], none, true⟩ : geometry_field).text)) := by decide
    have hr0 : ∀ n : Int, (⟨false, [0], none, false⟩ : geometry_field).resolve n = 0 := by
      intro n
      simp [geometry_field.resolve, geometry_field.value, geometry_field.magnitude,
        decimal_value]
    have hr100 :
        ∀ n : Int, (⟨false, [1, 0, 0], none, true⟩ : geometry_field).resolve n = n := by
      intro n
      simp [geometry_field.resolve, geometry_field.value, geometry_field.magnitude,
        decimal_value]
    have h1 := parse_value_field ⟨false, [0], none, false⟩ nw ',' 0
      ((⟨false, [0], none, false⟩ : geometry_field).text ++ ':' ::
        ((⟨false, [1, 0, 0], none, true⟩ : geometry_field).text ++ 'x' ::
          (⟨false, [1, 0, 0], none, true⟩ : geometry_field).text))
      (by decide) (Or.inl rfl)
      (text_head_ne_delim ⟨false, [0], none, false⟩ (by decide) _ ',' (Or.inl rfl))
      (by rintro ⟨-, -, -, h⟩; exact absurd h (by decide))
    have h2 := parse_value_field ⟨false, [0], none, false⟩ nh ':' 0
      ((⟨false, [1, 0, 0], none, true⟩ : geometry_field).text ++ 'x' ::
        (⟨false, [1, 0, 0], none, true⟩ : geometry_field).text)
      (by decide) (Or.inr (Or.inl rfl))
      (text_head_ne_delim ⟨false, [1, 0, 0], none, true⟩ (by decide) _ ':'
        (Or.inr (Or.inl rfl)))
      (by rintro ⟨-, -, -, h⟩; exact absurd h (by decide))
    have h3 := parse_value_field ⟨false, [1, 0, 0], none, true⟩ nw 'x' 0
      (⟨false, [1, 0, 0], none, true⟩ : geometry_field).text
      (by decide) (Or.inr (Or.inr rfl))
      (by
        have := text_head_ne_delim ⟨false, [1, 0, 0], none, true⟩ (by decide) [] 'x'
          (Or.inr (Or.inr rfl))
        rwa [List.append_nil] at this)
      (by rintro ⟨h, -⟩; exact absurd h (by decide))
    have h4 := parse_value_field_end ⟨false, [1, 0, 0], none, true⟩ nh ':' 0 (by decide)
    obtain ⟨fx, fy, fw, fh, fm⟩ :=
      geometry_parse_nonempty calloc_geometry none default_start (by decide) nw nh
        0 0 0 0 100 rfl
    rw [ht] at fx fy fw fh fm
    rw [h1] at fx fy fw fh fm
    simp only at fy fw fh fm
    rw [h2] at fy fw fh fm
    simp only at fw fh fm
    rw [h3] at fw fh fm
    simp only at fh fm
    rw [h4] at fh fm
    simp only at fm
    rw [hr0] at fx fy
    rw [hr100, to_int_intCast] at fw fh
    rw [← ht] at fx fy fw fh fm
    exact ⟨fx, fy, fw, fh, fm⟩

/-- C9, as stated, fails: with no prior keyframe and an empty geometry string the size is
`w = 0`, `h = 0`, not the normalisation size 720 by 576. -/
theorem geometry_parse_start_defaults_counterexample :
    (geometry_parse calloc_geometry none (some []) 720 576).w = 0 ∧
    (geometry_parse calloc_geometry none (some []) 720 576).h = 0 ∧
    (geometry_parse calloc_geometry none (some []) 720 576).w ≠ 720 ∧
    (geometry_parse calloc_geometry none (some []) 720 576).h ≠ 576 := by
  decide!

/-- C9 (amended), at a concrete input: the start string `10,20` gives zero size and a mix of
100. -/
theorem geometry_parse_start_defaults_witness :
    (geometry_parse calloc_geometry none (some "10,20".toList) 720 576).w = 0 ∧
    (geometry_parse calloc_geometry none (some "10,20".toList) 720 576).h = 0 ∧
    (geometry_parse calloc_geometry none (some "10,20".toList) 720 576).mix = 100 := by
  have h := (geometry_parse_start_defaults 720 576).2.1 "10,20".toList 2 (by decide)
    (by decide!)
  exact ⟨h.2.2.1 (le_refl 2), h.2.2.2.1 (by decide), h.2.2.2.2⟩

/-! ## C10: Position of a key -/

/-- C11, evaluated at `this` the identity and `that` with the single off-diagonal entry
`that[0][1] = 2`: the matrix product `this x that` has the entry 2 at row 0, column 1, and
`affine_multiply` leaves 0 there and puts the 2 at row 1, column 0 (it multiplies by the
transpose of `that`). -/
theorem affine_multiply_failing_input :
    (∑ k : Fin 3, affine_init 0 k *
        (mat3 1 2 0 0 1 0 0 0 1) k 1) = 2 ∧
    affine_multiply affine_init (mat3 1 2 0 0 1 0 0 0 1) 0 1 = 0 ∧
    affine_multiply affine_init (mat3 1 2 0 0 1 0 0 0 1) =
      mat3 1 0 0
           2 1 0
           0 0 1 := by
  decide!

/-! ## C12: Identity transform parameters -/

/-- C12: with identity transform parameters (the three rotation angles and the three shear
angles zero, `ox = oy = 0`, autoscale off) the matrix built by `affine_init`, `affine_rotate`,
`affine_rotate_y`, `affine_rotate_z`, `affine_shear` and `affine_offset` is the identity, so for
every point `MapX = x`, `MapY = y` and `MapZ = 1`, and the divisor `dz = MapZ( 0, 0 )` is 1.
The library values `cos 0 = 1`, `sin 0 = 0`, `tan 0 = 0` are exact. -/
theorem transition_matrix_identity (m : math_lib) (a : affine_params) (position t_in : Int)
    (hcos : m.cos_deg 0 = 1) (hsin : m.sin_deg 0 = 0) (htan : m.tan_deg 0 = 0)
    (hrx : a.fix_rotate_x + a.rotate_x * ((position - t_in : Int) : ℚ) = 0)
    (hry : a.fix_rotate_y + a.rotate_y * ((position - t_in : Int) : ℚ) = 0)
    (hrz : a.fix_rotate_z + a.rotate_z * ((position - t_in : Int) : ℚ) = 0)
    (hsx : a.fix_shear_x + a.shear_x * ((position - t_in : Int) : ℚ) = 0)
    (hsy : a.fix_shear_y + a.shear_y * ((position - t_in : Int) : ℚ) = 0)
    (hsz : a.fix_shear_z + a.shear_z * ((position - t_in : Int) : ℚ) = 0)
    (hox : a.ox = 0) (hoy : a.oy = 0) (hscale : a.scale = 0) :
    transition_matrix m a position t_in = affine_init ∧
    (∀ x y : Int,
      MapX (transition_matrix m a position t_in) x y = x ∧
      MapY (transition_matrix m a position t_in) x y = y ∧
      MapZ (transition_matrix m a position t_in) x y = 1) ∧
    MapZ (transition_matrix m a position t_in) 0 0 = 1 := by
  have h : transition_matrix m a position t_in = affine_init := by
    unfold transition_matrix
    simp only [hscale, ne_eq, not_true_eq_false, if_false]
    exact transition_matrix_unscaled_identity m a position t_in hcos hsin htan hrx hry hrz
      hsx hsy hsz hox hoy
  rw [h]
  refine ⟨rfl, ?_, ?_⟩
  · intro x y
    simp [MapX, MapY, MapZ, affine_init, mat3]
  · simp [MapZ, affine_init, mat3]

/-- C12, at a concrete input: every parameter zero, frame 5 of a transition that starts at 0,
and the point (3, -7). -/
theorem transition_matrix_identity_witness :
    transition_matrix quarter_turn_trig (plain_params 0 0) 5 0 =
      affine_init ∧
    MapX (transition_matrix quarter_turn_trig (plain_params 0 0) 5 0)
      3 (-7) = 3 ∧
    MapY (transition_matrix quarter_turn_trig (plain_params 0 0) 5 0)
      3 (-7) = -7 ∧
    MapZ (transition_matrix quarter_turn_trig (plain_params 0 0) 5 0)
      3 (-7) = 1 := by
  have h := transition_matrix_identity quarter_turn_trig
    (plain_params 0 0) 5 0
    (by decide!) (by decide!) (by decide!) (by decide!) (by decide!) (by decide!) (by decide!)
    (by decide!) (by decide!) rfl rfl rfl
  have h2 := h.2.1 3 (-7)
  exact ⟨h.1, by simpa using h2.1, by simpa using h2.2.1, h2.2.2⟩

/-! ## C13: Autoscale of a half turn -/

/-- C13, evaluated for a pure rotation of 180 degrees about the third axis
(`fix_rotate_z = 180`, every other rotation, shear and offset zero, autoscale on): the matrix
before scaling is the diagonal matrix (1, -1, -1), the four corners are mapped to
(-720, -576), (720, -576), (-720, 576), (720, 576), and the factors of `affine_max_output`
are `1441 / 1440` and `1153 / 1152`, not 1: the code divides the extent of the bounding box
plus one by the reference extent. -/
theorem affine_max_output_half_turn_failing_input :
    transition_matrix_unscaled quarter_turn_trig (plain_params 180 1) 5 0 =
      mat3 1 0 0
           0 (-1) 0
           0 0 (-1) ∧
    affine_max_output (transition_matrix_unscaled quarter_turn_trig (plain_params 180 1) 5 0) =
      (1441 / 1440, 1153 / 1152) ∧
    ((1441 : ℚ) / 1440 ≠ 1 ∧ (1153 : ℚ) / 1152 ≠ 1) := by
  decide!

/-! ## C14: Samples outside the secondary frame -/

/-- C15 (amended): for a destination pixel `(x, y)` whose sample `(dx, dy)` is inside the
secondary frame.  Without alpha the mask entry becomes 255 and the two bytes of the pixel
become the sampled bytes of the secondary image.  With alpha `a = alpha[dy * b_width + dx]` the
mask entry becomes `a` and each byte becomes the blend: `dst * (1 - mix) + mix * src` with
`mix = a / 255`, evaluated in `float` arithmetic (each operation rounded) and truncated to a
byte.  The blend is `dst` for `a = 0` and `src` for `a = 255`; it is never greater than the
larger of `dst` and `src` and never less than the smaller of them less one; and it differs by
at most one from the exact value of the expression truncated.  In the whole loop this is what
the pixel in row `r` and column `c` ends with (the bytes when a row of pixels is not longer
than the stride). -/
theorem pixel_inside_written (e : pixel_env) (x y : Int)
    (hin : in_bounds e (sample_dx e x y) (sample_dy e x y)) :
    (e.alpha = none →
      (∀ s : pixel_state,
        (pixel_step e x y s).mask s.pmask = 255 ∧
        (pixel_step e x y s).image s.p =
          e.b_image (luma_index e (sample_dx e x y) (sample_dy e x y)) ∧
        (pixel_step e x y s).image (s.p + 1) =
          e.b_image (chroma_index e x (sample_dx e x y) (sample_dy e x y))) ∧
      (∀ (image mask : Int → byte) (r c : Nat),
        r < (e.upper_y - e.lower_y).toNat → c < (e.upper_x - e.lower_x).toNat →
        x = e.lower_x + c → y = e.lower_y + r →
        (pixel_loop e image mask).mask (r * ((e.upper_x - e.lower_x).toNat : Int) + c) = 255 ∧
        (2 * ((e.upper_x - e.lower_x).toNat : Int) ≤ e.a_stride →
          (pixel_loop e image mask).image (r * e.a_stride + 2 * c) =
            e.b_image (luma_index e (sample_dx e x y) (sample_dy e x y)) ∧
          (pixel_loop e image mask).image (r * e.a_stride + 2 * c + 1) =
            e.b_image (chroma_index e x (sample_dx e x y) (sample_dy e x y))))) ∧
    (∀ alpha : Int → byte, e.alpha = some alpha →
      (∀ s : pixel_state,
        (pixel_step e x y s).mask s.pmask =
          alpha (sample_dy e x y * e.b_width + sample_dx e x y) ∧
        (pixel_step e x y s).image s.p =
          blend (s.image s.p) (e.b_image (luma_index e (sample_dx e x y) (sample_dy e x y)))
            (alpha_mix (alpha (sample_dy e x y * e.b_width + sample_dx e x y))) ∧
        (pixel_step e x y s).image (s.p + 1) =
          blend (s.image (s.p + 1))
            (e.b_image (chroma_index e x (sample_dx e x y) (sample_dy e x y)))
            (alpha_mix (alpha (sample_dy e x y * e.b_width + sample_dx e x y)))) ∧
      (∀ (image mask : Int → byte) (r c : Nat),
        r < (e.upper_y - e.lower_y).toNat → c < (e.upper_x - e.lower_x).toNat →
        x = e.lower_x + c → y = e.lower_y + r →
        (pixel_loop e image mask).mask (r * ((e.upper_x - e.lower_x).toNat : Int) + c) =
          alpha (sample_dy e x y * e.b_width + sample_dx e x y) ∧
        (2 * ((e.upper_x - e.lower_x).toNat : Int) ≤ e.a_stride →
          (pixel_loop e image mask).image (r * e.a_stride + 2 * c) =
            blend (image (r * e.a_stride + 2 * c))
              (e.b_image (luma_index e (sample_dx e x y) (sample_dy e x y)))
              (alpha_mix (alpha (sample_dy e x y * e.b_width + sample_dx e x y))) ∧
          (pixel_loop e image mask).image (r * e.a_stride + 2 * c + 1) =
            blend (image (r * e.a_stride + 2 * c + 1))
              (e.b_image (chroma_index e x (sample_dx e x y) (sample_dy e x y)))
              (alpha_mix (alpha (sample_dy e x y * e.b_width + sample_dx e x y)))))) ∧
    (∀ (dst src a : byte),
      (a = 0 → blend dst src (alpha_mix a) = dst) ∧
      (a = 255 → blend dst src (alpha_mix a) = src) ∧
      min dst.val src.val ≤ (blend dst src (alpha_mix a)).val + 1 ∧
      (blend dst src (alpha_mix a)).val ≤ max dst.val src.val ∧
      ⌊(dst.val : ℚ) * (1 - (a.val : ℚ) / 255) + (a.val : ℚ) / 255 * (src.val : ℚ)⌋ - 1 ≤
        ((blend dst src (alpha_mix a)).val : Int) ∧
      ((blend dst src (alpha_mix a)).val : Int) ≤
        ⌊(dst.val : ℚ) * (1 - (a.val : ℚ) / 255) + (a.val : ℚ) / 255 * (src.val : ℚ)⌋ + 1) := by
  refine ⟨?_, ?_, ?_⟩
  · intro ha
    constructor
    · intro s
      obtain ⟨h0, h1, h2⟩ := pixel_step_cells e x y s
      rw [h0, h1, h2]
      exact ⟨(pixel_cells_inside_none e x y hin ha _).1,
        (pixel_cells_inside_none e x y hin ha _).2.1,
        (pixel_cells_inside_none e x y hin ha _).2.2⟩
    · intro image mask r c hr hc hx hy
      obtain ⟨hm, hi⟩ := pixel_loop_pixel e image mask r c hr hc
      rw [← hx, ← hy] at hm hi
      refine ⟨by rw [hm]; exact (pixel_cells_inside_none e x y hin ha _).1, ?_⟩
      intro hn
      obtain ⟨h0, h1⟩ := hi hn
      rw [h0, h1]
      exact ⟨(pixel_cells_inside_none e x y hin ha _).2.1,
        (pixel_cells_inside_none e x y hin ha _).2.2⟩
  · intro alpha ha
    constructor
    · intro s
      obtain ⟨h0, h1, h2⟩ := pixel_step_cells e x y s
      rw [h0, h1, h2]
      exact ⟨(pixel_cells_inside_some e x y hin alpha ha _).1,
        (pixel_cells_inside_some e x y hin alpha ha _).2.1,
        (pixel_cells_inside_some e x y hin alpha ha _).2.2⟩
    · intro image mask r c hr hc hx hy
      obtain ⟨hm, hi⟩ := pixel_loop_pixel e image mask r c hr hc
      rw [← hx, ← hy] at hm hi
      refine ⟨by rw [hm]; exact (pixel_cells_inside_some e x y hin alpha ha _).1, ?_⟩
      intro hn
      obtain ⟨h0, h1⟩ := hi hn
      rw [h0, h1]
      exact ⟨(pixel_cells_inside_some e x y hin alpha ha _).2.1,
        (pixel_cells_inside_some e x y hin alpha ha _).2.2⟩
  · intro dst src a
    refine ⟨?_, ?_, (blend_bounds dst src a).1, (blend_bounds dst src a).2,
      (blend_near_exact dst src a).1, (blend_near_exact dst src a).2⟩
    · intro h
      subst h
      exact blend_zero dst src
    · intro h
      subst h
      exact blend_full dst src

/-- C15, as stated, fails where the secondary frame has alpha: with destination and source
bytes 7 and alpha 65 the `float` arithmetic of the blend gives a value just below 7, and the
byte stored is 6, while the exact value of `dst * (1 - a/255) + (a/255) * src` is 7 and no value
between 7 and 7 is 6.  In a run on two frames of 4 by 2 pixels (full-frame geometry, identity
transform, every byte 7, alpha 65) the first two bytes of the primary image end as 6. -/
theorem pixel_inside_written_counterexample :
    blend 7 7 (alpha_mix 65) = 6 ∧
    ⌊(7 : ℚ) * (1 - 65 / 255) + 65 / 255 * 7⌋ = 7 ∧
    (transition_get_image quarter_turn_trig (plain_params 0 0) 0 0 10
        (transition_parse_keys [("start".toList, some default_start)] 0 10 4 2)
        calloc_geometry
        { format := mlt_image_format.mlt_image_yuv422, width := 4, height := 2,
          image := fun _ => 7, alpha := none }
        (fun w h =>
          { format := mlt_image_format.mlt_image_yuv422, width := w, height := h,
            image := fun _ => 7, alpha := some (fun _ => 65) })
        (fun _ => 5)).map (fun r => (r.image 0, r.image 1)) = some (6, 6) := by
  decide!

/-- C15 (amended), at a concrete input: a primary image of 4 by 2 pixels, a secondary image of
2 by 1 without alpha, identity matrix.  The pixel in row 0, column 1 is sampled at `(0, 0)`,
inside the secondary frame: its mask entry is 255 and its two bytes become the bytes 9 of the
secondary image. -/
theorem pixel_inside_written_witness :
    (pixel_loop
        (loop_env affine_init
          { calloc_geometry with x := 0, y := 0, w := 2, h := 1 } 4 2
          { format := mlt_image_format.mlt_image_yuv422, width := 2, height := 1,
            image := fun _ => 9, alpha := none })
        (fun _ => 7) (memset_mask (fun _ => 5) 2 1)).mask 1 = 255 ∧
    (pixel_loop
        (loop_env affine_init
          { calloc_geometry with x := 0, y := 0, w := 2, h := 1 } 4 2
          { format := mlt_image_format.mlt_image_yuv422, width := 2, height := 1,
            image := fun _ => 9, alpha := none })
        (fun _ => 7) (memset_mask (fun _ => 5) 2 1)).image 2 = 9 ∧
    (pixel_loop
        (loop_env affine_init
          { calloc_geometry with x := 0, y := 0, w := 2, h := 1 } 4 2
          { format := mlt_image_format.mlt_image_yuv422, width := 2, height := 1,
            image := fun _ => 9, alpha := none })
        (fun _ => 7) (memset_mask (fun _ => 5) 2 1)).image 3 = 9 := by
  have h := ((pixel_inside_written
    (loop_env affine_init
      { calloc_geometry with x := 0, y := 0, w := 2, h := 1 } 4 2
      { format := mlt_image_format.mlt_image_yuv422, width := 2, height := 1,
        image := fun _ => 9, alpha := none })
    (-1) 0 (by decide!)).1 rfl).2 (fun _ => 7)
    (memset_mask (fun _ => 5) 2 1) 0 1 (by decide!) (by decide!) (by decide!) (by decide!)
  simp only [Nat.cast_zero, Nat.cast_one, zero_mul, zero_add, mul_one] at h
  exact ⟨h.1, (h.2 (by decide!)).1, (h.2 (by decide!)).2⟩

/-! ## C16: Unsupported pixel formats -/

/-- C16: when the format of the primary image or of the secondary image is not yuv422,
`transition_get_image` does no pixel work: every byte of the primary image is unchanged, no
mask is produced and the returned value is 0, for every geometry; so it is for the whole call
whenever the geometry of the frame is a number. -/
theorem get_image_unsupported_format (m : math_lib) (params : affine_params)
    (position t_in t_out : Int) (track : List geometry_s) (result0 : geometry_s)
    (a : frame_image) (fetch_b : Int → Int → frame_image) (mask0 : Int → byte)
    (hfmt : a.format ≠ mlt_image_format.mlt_image_yuv422 ∨
      ∀ w h : Int, (fetch_b w h).format ≠ mlt_image_format.mlt_image_yuv422) :
    (∀ result : geometry_s,
      get_image_of_geometry m params position t_in result a fetch_b mask0 =
        { image := a.image, mask := none, ret := 0 }) ∧
    transition_get_image m params position t_in t_out track result0 a fetch_b mask0 =
      (geometry_calculate result0 track
          ((position : ℚ) / ((t_out - t_in + 1 : Int) : ℚ))).map
        (fun _ => { image := a.image, mask := none, ret := 0 }) := by
  have h : ∀ result : geometry_s,
      get_image_of_geometry m params position t_in result a fetch_b mask0 =
        { image := a.image, mask := none, ret := 0 } := by
    intro result
    unfold get_image_of_geometry
    simp only
    rw [if_neg]
    rintro ⟨ha, hb⟩
    rcases hfmt with h | h
    · exact h ha
    · exact h _ _ hb
  refine ⟨h, ?_⟩
  unfold transition_get_image
  cases geometry_calculate result0 track ((position : ℚ) / ((t_out - t_in + 1 : Int) : ℚ)) with
  | none => rfl
  | some r => simp only [Option.map_some', h r]

/-- C16, at a concrete input: a primary image in the format rgb24, on the track of the default
start geometry. -/
theorem get_image_unsupported_format_witness :
    transition_get_image quarter_turn_trig (plain_params 0 0) 0 0 10
        (transition_parse_keys [("start".toList, some default_start)] 0 10 4 2)
        calloc_geometry
        { format := mlt_image_format.mlt_image_rgb24, width := 4, height := 2,
          image := fun _ => 7, alpha := none }
        (fun _ _ =>
          { format := mlt_image_format.mlt_image_yuv422, width := 4, height := 2,
            image := fun _ => 9, alpha := none })
        (fun _ => 5) =
      some { image := fun _ => 7, mask := none, ret := 0 } := by
  have h := (get_image_unsupported_format quarter_turn_trig (plain_params 0 0) 0 0 10
    (transition_parse_keys [("start".toList, some default_start)] 0 10 4 2)
    calloc_geometry
    { format := mlt_image_format.mlt_image_rgb24, width := 4, height := 2,
      image := fun _ => 7, alpha := none }
    (fun _ _ =>
      { format := mlt_image_format.mlt_image_yuv422, width := 4, height := 2,
        image := fun _ => 9, alpha := none })
    (fun _ => 5) (Or.inl (by decide))).2
  rw [h]
  have hg : (geometry_calculate calloc_geometry
      (transition_parse_keys [("start".toList, some default_start)] 0 10 4 2)
      (((0 : Int) : ℚ) / ((10 - 0 + 1 : Int) : ℚ))).isSome = true := by decide!
  cases hc : geometry_calculate calloc_geometry
      (transition_parse_keys [("start".toList, some default_start)] 0 10 4 2)
      (((0 : Int) : ℚ) / ((10 - 0 + 1 : Int) : ℚ)) with
  | none => rw [hc] at hg; cases hg
  | some r => rfl

/-! ## C17: The pair of keyframes selected by the search -/

/-- C17 (amended): for every track of at least two keyframes whose positions are strictly
increasing starting at 0 and every query position `0 ≤ p < 2 ^ 31` with wrapped position `p'`,
the search of `geometry_calculate` selects a pair `(i, o)` of consecutive keyframes of the track
with `i.position ≤ p'`, so that `0 ≤ t` for `t = (p' - i.position) / (o.position -
i.position)`.  When `p'` lies before the last keyframe, `p' < o.position` and `t ≤ 1`; when
`p'` is at or after the last keyframe, the pair is the last pair of the track and `t ≥ 1`.
The bounds on `t` hold of the exact quotient and of the quotient the code computes in `float`
(`float_parameter`). -/
theorem geometry_search_brackets (i0 o0 : geometry_s) (rest : List geometry_s) (p : ℚ)
    (hsorted : List.Pairwise (fun a b : geometry_s => a.position < b.position)
      (i0 :: o0 :: rest))
    (hzero : i0.position = 0) (hp : 0 ≤ p ∧ p < 2147483648) :
    ∃ (i o : geometry_s) (pre post : List geometry_s),
      search_track (wrap_position p) (i0 :: o0 :: rest) = some (i, o) ∧
      i0 :: o0 :: rest = pre ++ i :: o :: post ∧
      i.position ≤ wrap_position p ∧
      i.position < o.position ∧
      0 ≤ (wrap_position p - i.position) / (o.position - i.position) ∧
      0 ≤ float_parameter (wrap_position p) i.position o.position ∧
      (wrap_position p < (rest.getLastD o0).position →
        wrap_position p < o.position ∧
        (wrap_position p - i.position) / (o.position - i.position) ≤ 1 ∧
        float_parameter (wrap_position p) i.position o.position ≤ 1) ∧
      ((rest.getLastD o0).position ≤ wrap_position p →
        post = [] ∧
        1 ≤ (wrap_position p - i.position) / (o.position - i.position) ∧
        1 ≤ float_parameter (wrap_position p) i.position o.position) := by
  have hw : i0.position ≤ wrap_position p := by
    rw [hzero]; exact wrap_position_nonneg hp.1
  obtain ⟨h1, h2, h3, h4⟩ := geometry_search_spec (wrap_position p) rest i0 o0 hsorted hw
  obtain ⟨pre, post, hc1, hc2⟩ := geometry_search_consecutive (wrap_position p) rest i0 o0
  obtain ⟨f1, f2, f3⟩ := float_parameter_bounds (wrap_position p)
    (geometry_search (wrap_position p) i0 o0 rest).1.position
    (geometry_search (wrap_position p) i0 o0 rest).2.position h2 h1
  refine ⟨(geometry_search (wrap_position p) i0 o0 rest).1,
    (geometry_search (wrap_position p) i0 o0 rest).2, pre, post, rfl, hc1, h1, h2, ?_, f1,
    ?_, ?_⟩
  · exact div_nonneg (by linarith) (by linarith)
  · intro hlt
    refine ⟨h3 hlt, ?_, f2 (h3 hlt)⟩
    rw [div_le_one (by linarith)]
    linarith [h3 hlt]
  · intro hle
    have ho := h4 hle
    refine ⟨?_, ?_, f3 (by rw [ho]; exact hle)⟩
    · by_contra hne
      have hlt := hc2 hne
      rw [ho] at hlt
      exact absurd (lt_of_lt_of_le hlt hle) (lt_irrefl _)
    · rw [one_le_div (by linarith), ho]
      linarith

/-- C17, as stated, fails at the last frame of a transition: on the track of an 11-frame
transition (start at 0, end at 10/11) the query `p = 10/11` selects the pair (start, end), but
`p` is not before the position of the end keyframe and `t = 1`. -/
theorem geometry_search_brackets_counterexample :
    (transition_parse_keys [] 0 10 720 576).map (fun g => g.position) = [0, 10 / 11] ∧
    (search_track (wrap_position (10 / 11)) (transition_parse_keys [] 0 10 720 576)).map
        (fun io => (io.1.position, io.2.position)) = some (0, 10 / 11) ∧
    ¬ (wrap_position (10 / 11) < (10 / 11 : ℚ)) ∧
    ¬ ((wrap_position (10 / 11) - 0) / ((10 / 11 : ℚ) - 0) < 1) := by
  decide!

/-- An example of the parameter reaching 1 in `float` before the `out` keyframe: with the
`float`s nearest to 234/547 and 537/547 as the positions of `in` and `out` and the `float`
just below the position of `out` as the query (`2 ^ (-24)` less), both differences round to
the same `float` and `t = 1`. -/
theorem float_parameter_tie :
    to_float (to_float (537 / 547) - 1 / 2 ^ 24) = to_float (537 / 547) - 1 / 2 ^ 24 ∧
    to_float (234 / 547) ≤ to_float (537 / 547) - 1 / 2 ^ 24 ∧
    to_float (537 / 547) - 1 / 2 ^ 24 < to_float (537 / 547) ∧
    float_parameter (to_float (537 / 547) - 1 / 2 ^ 24) (to_float (234 / 547))
      (to_float (537 / 547)) = 1 := by
  decide!

/-- C17 (amended), at a concrete input: keyframes at 0, 1/2 and 1, queried at 3/4. -/
theorem geometry_search_brackets_witness :
    ∃ (i o : geometry_s) (pre post : List geometry_s),
      search_track (wrap_position (3 / 4))
        [calloc_geometry, { calloc_geometry with position := 1 / 2 },
          { calloc_geometry with position := 1 }] = some (i, o) ∧
      [calloc_geometry, { calloc_geometry with position := 1 / 2 },
          { calloc_geometry with position := 1 }] = pre ++ i :: o :: post ∧
      i.position ≤ wrap_position (3 / 4) ∧
      i.position < o.position ∧
      0 ≤ (wrap_position (3 / 4) - i.position) / (o.position - i.position) ∧
      0 ≤ float_parameter (wrap_position (3 / 4)) i.position o.position ∧
      (wrap_position (3 / 4) <
          ([{ calloc_geometry with position := 1 }].getLastD
            { calloc_geometry with position := 1 / 2 }).position →
        wrap_position (3 / 4) < o.position ∧
        (wrap_position (3 / 4) - i.position) / (o.position - i.position) ≤ 1 ∧
        float_parameter (wrap_position (3 / 4)) i.position o.position ≤ 1) ∧
      (([{ calloc_geometry with position := 1 }].getLastD
            { calloc_geometry with position := 1 / 2 }).position ≤ wrap_position (3 / 4) →
        post = [] ∧
        1 ≤ (wrap_position (3 / 4) - i.position) / (o.position - i.position) ∧
        1 ≤ float_parameter (wrap_position (3 / 4)) i.position o.position) :=
  geometry_search_brackets calloc_geometry { calloc_geometry with position := 1 / 2 }
    [{ calloc_geometry with position := 1 }] (3 / 4) (by decide!) rfl
    ⟨by decide!, by decide!⟩

/-! ## C18: Bytes read from the secondary image -/

/-- C18, evaluated for two frames of 4 by 2 pixels, the full-frame default geometry, identity
transform and no alpha: the destination pixel `x = 1, y = 0` is sampled at `dx = 3, dy = 1`,
inside the secondary frame; after `dx += dx & 1` the luma byte is read at the offset 16 and the
chroma byte at the offset 19, while the secondary image has `2 * 4 * 2 = 16` bytes.  The bytes
read outside the image (marked 99) end up in the primary image at the offsets 14 and 15. -/
theorem luma_index_failing_input :
    in_bounds
      (loop_env affine_init { calloc_geometry with x := 0, y := 0, w := 4, h := 2 } 4 2
        { format := mlt_image_format.mlt_image_yuv422, width := 4, height := 2,
          image := marked_image 16, alpha := none })
      3 1 ∧
    sample_dx
      (loop_env affine_init { calloc_geometry with x := 0, y := 0, w := 4, h := 2 } 4 2
        { format := mlt_image_format.mlt_image_yuv422, width := 4, height := 2,
          image := marked_image 16, alpha := none })
      1 0 = 3 ∧
    sample_dy
      (loop_env affine_init { calloc_geometry with x := 0, y := 0, w := 4, h := 2 } 4 2
        { format := mlt_image_format.mlt_image_yuv422, width := 4, height := 2,
          image := marked_image 16, alpha := none })
      1 0 = 1 ∧
    luma_index
      (loop_env affine_init { calloc_geometry with x := 0, y := 0, w := 4, h := 2 } 4 2
        { format := mlt_image_format.mlt_image_yuv422, width := 4, height := 2,
          image := marked_image 16, alpha := none })
      3 1 = 16 ∧
    chroma_index
      (loop_env affine_init { calloc_geometry with x := 0, y := 0, w := 4, h := 2 } 4 2
        { format := mlt_image_format.mlt_image_yuv422, width := 4, height := 2,
          image := marked_image 16, alpha := none })
      1 3 1 = 19 ∧
    (transition_get_image quarter_turn_trig (plain_params 0 0) 0 0 10
        (transition_parse_keys [("start".toList, some default_start)] 0 10 4 2)
        calloc_geometry
        { format := mlt_image_format.mlt_image_yuv422, width := 4, height := 2,
          image := fun _ => 7, alpha := none }
        (fun _ _ =>
          { format := mlt_image_format.mlt_image_yuv422, width := 4, height := 2,
            image := marked_image 16, alpha := none })
        (fun _ => 5)).map (fun r => (r.image 13, r.image 14, r.image 15)) =
      some (1, 99, 99) := by
  decide!

/-! ## C19: The cursor of the coverage mask -/

/-- C19, evaluated for a primary image of 4 by 2 pixels and the geometry `0,0:50%x50%`, which
asks for a secondary image of 2 by 1 pixels (identity transform, no alpha): the mask has
`2 * 1 = 2` entries, the cursor is moved on for each of the 8 destination pixels, and the
entry written for the destination pixel in row 0, column 2 lies at the offset 2, outside the
mask (the memory there held 5 and holds 255 afterwards). -/
theorem mask_cursor_failing_input :
    (pixel_loop
      (loop_env affine_init { calloc_geometry with x := 0, y := 0, w := 2, h := 1 } 4 2
        { format := mlt_image_format.mlt_image_yuv422, width := 2, height := 1,
          image := fun _ => 9, alpha := none })
      (fun _ => 7) (memset_mask (fun _ => 5) 2 1)).pmask = 8 ∧
    (transition_get_image quarter_turn_trig (plain_params 0 0) 0 0 10
        (transition_parse_keys [("start".toList, some "0,0:50%x50%".toList)] 0 10 4 2)
        calloc_geometry
        { format := mlt_image_format.mlt_image_yuv422, width := 4, height := 2,
          image := fun _ => 7, alpha := none }
        (fun w h =>
          { format := mlt_image_format.mlt_image_yuv422, width := w, height := h,
            image := fun _ => 9, alpha := none })
        (fun _ => 5)).map
        (fun r => r.mask.map (fun mask => (mask 0, mask 1, mask 2, mask 3))) =
      some (some (0, 255, 255, 5)) := by
  decide!

/-! ## C20: The aligned bounds of the inner loop -/

/-- C20: after the alignment `v -= ( v & 1 )` a bound is even, also when it is negative; when
the width of the primary frame is even the number of destination pixels visited per row,
`upper_x - lower_x`, is the width, for every centre `cx`; so a row of the pixel loop moves the
write pointer `p` by exactly `a_stride = 2 * width` bytes. -/
theorem aligned_bounds :
    (∀ v : Int, align_even v % 2 = 0) ∧
    (∀ width cx : Int, width % 2 = 0 →
      align_even (width - cx) - align_even (0 - cx) = width) ∧
    (∀ (width : Int) (matrix : affine_matrix) (result : geometry_s) (height : Int)
        (b : frame_image), width % 2 = 0 → 0 ≤ width →
        (loop_env matrix result width height b).lower_x % 2 = 0 ∧
        (loop_env matrix result width height b).upper_x % 2 = 0 ∧
        (loop_env matrix result width height b).upper_x -
          (loop_env matrix result width height b).lower_x = width ∧
        ∀ (y : Int) (s : pixel_state),
          (row_loop (loop_env matrix result width height b) y
            ((loop_env matrix result width height b).upper_x -
              (loop_env matrix result width height b).lower_x).toNat
            (loop_env matrix result width height b).lower_x s).p =
          s.p + (loop_env matrix result width height b).a_stride) := by
  have heven : ∀ v : Int, align_even v % 2 = 0 := by
    intro v
    unfold align_even low_bit
    omega
  have hdiff : ∀ width cx : Int, width % 2 = 0 →
      align_even (width - cx) - align_even (0 - cx) = width := by
    intro width cx hw
    unfold align_even low_bit
    omega
  refine ⟨heven, hdiff, ?_⟩
  intro width matrix result height b hw hw0
  have hd : (loop_env matrix result width height b).upper_x -
      (loop_env matrix result width height b).lower_x = width := hdiff _ _ hw
  refine ⟨heven _, heven _, hd, ?_⟩
  intro y s
  rw [(row_loop_spec _ y _ _ s).1, hd]
  have : (loop_env matrix result width height b).a_stride = width * 2 := rfl
  rw [this]
  omega

/-- C20, at a concrete input: width 720 and the odd centre 361 give the bounds -362 and
358. -/
theorem aligned_bounds_witness :
    align_even (0 - 361) = -362 ∧ align_even (720 - 361) = 358 ∧
      align_even (720 - 361) - align_even (0 - 361) = 720 := by
  have h := aligned_bounds
  refine ⟨by decide, by decide, h.2.1 720 361 (by decide)⟩

/-! ## C21: The mix of the keyframes and the composited image -/

/-- C21: two runs of `transition_get_image` on tracks whose keyframes differ only in their
`mix` fields (same frame, position, normalisation, x, y, w and h, keyframe by keyframe), with
the same positions, transform parameters and images, give the same result: the same primary
image, the same coverage mask and the same returned value. -/
theorem get_image_mix_independent (m : math_lib) (params : affine_params)
    (position t_in t_out : Int) (track1 track2 : List geometry_s) (result0 : geometry_s)
    (a : frame_image) (fetch_b : Int → Int → frame_image) (mask0 : Int → byte)
    (h : List.Forall₂ (fun g1 g2 : geometry_s => g2 = { g1 with mix := g2.mix })
      track1 track2) :
    transition_get_image m params position t_in t_out track1 result0 a fetch_b mask0 =
      transition_get_image m params position t_in t_out track2 result0 a fetch_b mask0 := by
  unfold transition_get_image
  rcases geometry_calculate_mix result0 track1 track2
    ((position : ℚ) / ((t_out - t_in + 1 : Int) : ℚ)) h with
    ⟨h1, h2⟩ | ⟨r1, r2, h1, h2, hr⟩
  · rw [h1, h2]
  · rw [h1, h2, Option.map_some', Option.map_some', hr]
    exact congrArg some
      (get_image_of_geometry_mix m params position t_in r1 r2.mix a fetch_b mask0).symm

/-- C21, at a concrete input: the tracks of `start=0,0:50%x50%:100`, `end=2,0:50%x50%:0` and of
`start=0,0:50%x50%:20`, `end=2,0:50%x50%:70` for an 11-frame transition carry different mix
values; the image and the mask of frame 5 are the same for both. -/
theorem get_image_mix_independent_witness :
    (transition_parse_keys
        [("start".toList, some "0,0:50%x50%:100".toList),
          ("end".toList, some "2,0:50%x50%:0".toList)] 0 10 4 2).map (fun g => g.mix) =
      [100, 0] ∧
    (transition_parse_keys
        [("start".toList, some "0,0:50%x50%:20".toList),
          ("end".toList, some "2,0:50%x50%:70".toList)] 0 10 4 2).map (fun g => g.mix) =
      [20, 70] ∧
    transition_get_image quarter_turn_trig (plain_params 0 0) 5 0 10
        (transition_parse_keys
          [("start".toList, some "0,0:50%x50%:100".toList),
            ("end".toList, some "2,0:50%x50%:0".toList)] 0 10 4 2)
        calloc_geometry
        { format := mlt_image_format.mlt_image_yuv422, width := 4, height := 2,
          image := fun _ => 7, alpha := none }
        (fun w h =>
          { format := mlt_image_format.mlt_image_yuv422, width := w, height := h,
            image := fun _ => 9, alpha := none })
        (fun _ => 5) =
      transition_get_image quarter_turn_trig (plain_params 0 0) 5 0 10
        (transition_parse_keys
          [("start".toList, some "0,0:50%x50%:20".toList),
            ("end".toList, some "2,0:50%x50%:70".toList)] 0 10 4 2)
        calloc_geometry
        { format := mlt_image_format.mlt_image_yuv422, width := 4, height := 2,
          image := fun _ => 7, alpha := none }
        (fun w h =>
          { format := mlt_image_format.mlt_image_yuv422, width := w, height := h,
            image := fun _ => 9, alpha := none })
        (fun _ => 5) :=
  ⟨by decide!, by decide!,
    get_image_mix_independent _ _ _ _ _ _ _ _ _ _ _ (by decide!)⟩

/-! ## C22: Keys of position zero -/

/-- C22: a property `key[f]` whose frame number `f` is 0, or is at least `out - in`, or is
negative with `-f` at least `out - in`, gets the position 0 and is not inserted into the track:
the loop passes it over after any keys before it, the track is the one built without the
property, and no keyframe accepted by the loop has the frame number `f`. -/
theorem zero_position_key_not_inserted (t_in t_out nw nh : Int) (name : List Char)
    (value : Option (List Char))
    (hname : name.take 4 = ['k', 'e', 'y', '['])
    (hf : atoi (name.drop 4) = 0 ∨ atoi (name.drop 4) ≥ t_out - t_in ∨
      (atoi (name.drop 4) < 0 ∧ -atoi (name.drop 4) ≥ t_out - t_in)) :
    key_position t_in t_out (atoi (name.drop 4)) = 0 ∧
    (∀ pre post : mlt_properties,
      transition_parse_keys (pre ++ (name, value) :: post) t_in t_out nw nh =
        transition_parse_keys (pre ++ post) t_in t_out nw nh) ∧
    (∀ (properties : mlt_properties) (k : geometry_s),
      k ∈ (parse_keys_loop t_in t_out nw nh properties
        (geometry_parse calloc_geometry none
          (mlt_properties_get properties ['s', 't', 'a', 'r', 't']) nw nh)).1 →
      k.frame ≠ atoi (name.drop 4)) := by
  have hzero := key_position_zero t_in t_out (atoi (name.drop 4)) hf
  have hstart : ∀ v : Option (List Char),
      (0 : ℚ) ≤ (geometry_parse calloc_geometry none v nw nh).position := by
    intro v
    rw [geometry_parse_position]
    exact le_refl _
  refine ⟨hzero, ?_, ?_⟩
  · intro pre post
    obtain ⟨hs, he⟩ := key_name_ne name hname
    unfold transition_parse_keys
    simp only
    rw [mlt_properties_get_remove pre post name _ value hs,
      mlt_properties_get_remove pre post name _ value he,
      parse_keys_loop_remove t_in t_out nw nh name value pre post _ hname hzero (hstart _)]
  · intro properties k hk hfr
    obtain ⟨hs, hp⟩ := parse_keys_loop_sorted t_in t_out nw nh properties
      (geometry_parse calloc_geometry none
        (mlt_properties_get properties ['s', 't', 'a', 'r', 't']) nw nh)
    have h1 := (List.pairwise_cons.mp hs).1 k hk
    have h2 := hp k hk
    rw [hfr, hzero] at h2
    rw [h2] at h1
    exact absurd h1 (not_lt.mpr (hstart _))

/-- C22, at a concrete input: in an 11-frame transition (`in = 0`, `out = 10`) the property
`key[12]` gets the position 0 and the track built with it after `key[3]` is the track built
without it, whose keyframes are those of the frames 0 (start), 3 and 0 (end). -/
theorem zero_position_key_not_inserted_witness :
    key_position 0 10 (atoi (List.drop 4 "key[12]".toList)) = 0 ∧
    transition_parse_keys
        ([("key[3]".toList, some "5,5".toList)] ++
          ("key[12]".toList, some "9,9".toList) :: []) 0 10 720 576 =
      transition_parse_keys ([("key[3]".toList, some "5,5".toList)] ++ []) 0 10 720 576 ∧
    (transition_parse_keys
        [("key[3]".toList, some "5,5".toList), ("key[12]".toList, some "9,9".toList)]
        0 10 720 576).map (fun g => (g.frame, g.x)) = [(0, 0), (3, 5), (0, 5)] :=
  ⟨(zero_position_key_not_inserted 0 10 720 576 "key[12]".toList (some "9,9".toList)
      (by decide) (by decide!)).1,
    (zero_position_key_not_inserted 0 10 720 576 "key[12]".toList (some "9,9".toList)
      (by decide) (by decide!)).2.1 _ _,
    by decide!⟩

end TransitionAffine
